import Mathlib

/-!
# gitbook-to-wiki

A shallow embedding of `main.go` (the path resolver, the line reader, the line
replacers and the document pipeline) together with the properties proved about it.

Go strings and byte slices are modelled by value as `List Char`.  Every delimiter the
program inspects (`/`, `.`, `[`, `]`, `(`, `)`, `\`, newline, ...) is an ASCII character,
so on UTF-8 text the character-level and the byte-level reading of the code coincide.
The global flag `keepLinks` is an explicit argument; `wikiRepo` is passed where the
source passes it.
-/

set_option maxRecDepth 100000

namespace GitbookToWiki

/-- A Go `string` or `[]byte`. -/
abbrev Str := List Char

/-! ## Go standard library: `strings` and `bytes` -/

/-- Go `strings.HasPrefix` / `bytes.HasPrefix`. -/
def HasPrefix (s p : Str) : Bool := p.isPrefixOf s

/-- Go `strings.HasSuffix` / `bytes.HasSuffix`. -/
def HasSuffix (s p : Str) : Bool := p.isSuffixOf s

/-- Go `strings.TrimSuffix` / `bytes.TrimSuffix`: drop the suffix when it is there. -/
def TrimSuffix (s p : Str) : Str :=
  if HasSuffix s p then s.take (s.length - p.length) else s

/-- The scan of `strings.ReplaceAll` for a non-empty `old`: the first argument counts the
characters of the occurrence just matched that are still to be skipped. -/
def replaceScan (old new : Str) : Nat → Str → Str
  | _, [] => []
  | k + 1, _ :: cs => replaceScan old new k cs
  | 0, c :: cs =>
    if old.isPrefixOf (c :: cs) then new ++ replaceScan old new (old.length - 1) cs
    else c :: replaceScan old new 0 cs

/-- Go `strings.ReplaceAll(s, old, new)`: the non-overlapping occurrences of `old`, found
left to right, are replaced by `new`.  An empty `old` matches before every character and
at the end. -/
def ReplaceAll (s old new : Str) : Str :=
  if old = [] then new ++ (s.map fun c => c :: new).flatten
  else replaceScan old new 0 s

/-- The scan of `bytes.Replace(s, old, new, 1)` for a non-empty `old`. -/
def replaceFirstScan (old new : Str) : Str → Str
  | [] => []
  | c :: cs =>
    if old.isPrefixOf (c :: cs) then new ++ (c :: cs).drop old.length
    else c :: replaceFirstScan old new cs

/-- Go `bytes.Replace(s, old, new, 1)`: the first occurrence of `old` is replaced. -/
def ReplaceFirst (s old new : Str) : Str :=
  if old = [] then new ++ s else replaceFirstScan old new s

/-- Go `strings.LastIndexByte`: index of the last `c` in `s`, `-1` when there is none. -/
def lastIndexByte : Str → Char → Int
  | [], _ => -1
  | x :: xs, c =>
    let i := lastIndexByte xs c
    if 0 ≤ i then i + 1 else if x = c then 0 else -1

/-! ## Go standard library: `path` -/

/-- The separator-joined rendering of path elements. -/
def joinSlash (elems : List Str) : Str := ['/'].intercalate elems

/-- One iteration of the loop of `path.Clean`, on the next `/`-separated element.
`st.1` holds the elements written to the output buffer and `st.2` the number of leading
`..` elements that cannot be removed (the source's `dotdot` mark). -/
def cleanStep (rooted : Bool) (st : List Str × Nat) (e : Str) : List Str × Nat :=
  if e = [] then st                      -- empty path element
  else if e = ['.'] then st              -- . element
  else if e = ['.', '.'] then            -- .. element: remove to last /
    if st.2 < st.1.length then (st.1.dropLast, st.2)          -- can backtrack
    else if !rooted then (st.1 ++ [e], st.1.length + 1)       -- not rooted: append ..
    else st
  else (st.1 ++ [e], st.2)               -- real path element

/-- Go `path.Clean`: the shortest path equivalent to `path` by lexical processing. -/
def Clean (path : Str) : Str :=
  if path = [] then ['.']
  else
    let rooted : Bool := path.head? = some '/'
    let st := (path.splitOn '/').foldl (cleanStep rooted) ([], 0)
    if rooted then '/' :: joinSlash st.1
    else if st.1 = [] then ['.']
    else joinSlash st.1

/-- Go `path.Split`: the text up to and including the final slash, and the rest. -/
def Split (path : Str) : Str × Str :=
  let i := lastIndexByte path '/'
  (path.take (i + 1).toNat, path.drop (i + 1).toNat)

/-- Go `path.Dir`. -/
def Dir (path : Str) : Str := Clean (Split path).1

/-- Go `path.Base`: the last element of the path, trailing slashes removed first. -/
def Base (path : Str) : Str :=
  if path = [] then ['.']
  else
    let p := path.rdropWhile (· = '/')
    let i := lastIndexByte p '/'
    let p := if 0 ≤ i then p.drop (i + 1).toNat else p
    if p = [] then ['/'] else p

/-- Go `path.Join`: the elements from the first non-empty one on, joined by slashes and
cleaned; the empty string when every element is empty. -/
def Join : List Str → Str
  | [] => []
  | e :: es => if e = [] then Join es else Clean (joinSlash (e :: es))

/-- Go `filepath.Separator` on the systems where it is the slash. -/
def Separator : Char := '/'

/-- Go `filepath.ToSlash`: the separator replaced by a slash. -/
def ToSlash (path : Str) : Str :=
  if Separator = '/' then path else path.map fun c => if c = Separator then '/' else c

/-! ## Path resolver (`main.go`, `resolvePath` and `resolveLink`) -/

/-- The constant `markdownSuffix`. -/
def markdownSuffix : Str := ".md".toList

/-- The function `resolvePath`: the output path of a source-relative path. -/
def resolvePath (keepLinks : Bool) (name : Str) : Str :=
  let name := ToSlash name
  if keepLinks then name
  else
    let name := ReplaceAll name "../".toList []
    let dir := Dir name
    let base := Base name
    let dir := if dir = ".".toList then [] else dir
    if base = "README.md".toList then Join [dir, "Home.md".toList]
    else if base = "SUMMARY.md".toList then Join [dir, "_Sidebar.md".toList]
    else if HasPrefix name ".gitbook/assets".toList then
      ReplaceAll name ".gitbook/assets".toList "_assets".toList
    else
      let base := if dir ≠ [] then '-' :: base else base
      let newBase := ReplaceAll dir "/".toList "-".toList ++ base
      Join [dir, newBase]

/-- The function `resolveLink`: the wiki page token of a path, or the full wiki link of
an asset. -/
def resolveLink (keepLinks : Bool) (name : Str) (wikiRepo : Str) : Str :=
  let name := resolvePath keepLinks name
  if keepLinks then name
  else if HasPrefix name "_assets".toList then Join [wikiRepo, name]
  else TrimSuffix (Base name) markdownSuffix


/-! ## Go standard library: `regexp`

Go's `regexp` returns, among the matches that start leftmost, the one a backtracking
search finds first.  The matcher below is that backtracking search for the fragment of
the syntax used by the three patterns of the program, in which repetition is only
applied to single-character classes. -/

/-- Regular expressions: one character of a class, `x*?`, `x+`, concatenation and a
capturing group. -/
inductive Regex where
  | chr (p : Char → Bool)
  | lazyStar (p : Char → Bool)
  | plus (p : Char → Bool)
  | seq (a b : Regex)
  | group (a : Regex)
  | empty

/-- What remains to be matched: it is given the text matched so far in the enclosing
scope, the remaining input, and the groups closed so far. -/
abbrev Cont (α : Type) := Str → Str → List Str → Option α

/-- One character of the class `p`. -/
def chrK {α : Type} (p : Char → Bool) (k : Cont α) : Cont α := fun acc s caps =>
  match s with
  | c :: cs => if p c then k (acc ++ [c]) cs caps else none
  | [] => none

/-- The class `p` repeated, preferring fewer repetitions (`x*?`). -/
def lazyStarK {α : Type} (p : Char → Bool) (k : Cont α) : Str → Str → List Str → Option α
  | [], acc, caps => k acc [] caps
  | c :: cs, acc, caps =>
    match k acc (c :: cs) caps with
    | some r => some r
    | none => if p c then lazyStarK p k cs (acc ++ [c]) caps else none

/-- The class `p` repeated, preferring more repetitions (`x*`). -/
def greedyStarK {α : Type} (p : Char → Bool) (k : Cont α) : Str → Str → List Str → Option α
  | [], acc, caps => k acc [] caps
  | c :: cs, acc, caps =>
    if p c then
      match greedyStarK p k cs (acc ++ [c]) caps with
      | some r => some r
      | none => k acc (c :: cs) caps
    else k acc (c :: cs) caps

/-- The backtracking matcher, in continuation-passing style.  A group is matched in a
scope of its own and its text is appended to the groups when it closes. -/
def Regex.run {α : Type} : Regex → Cont α → Cont α
  | .chr p, k => chrK p k
  | .lazyStar p, k => fun acc s caps => lazyStarK p k s acc caps
  | .plus p, k => chrK p (fun acc s caps => greedyStarK p k s acc caps)
  | .seq a b, k => a.run (b.run k)
  | .group a, k => fun acc s caps =>
      a.run (fun acc' rest caps' => k (acc ++ acc') rest (caps' ++ [acc'])) [] s caps
  | .empty, k => k

/-- A literal text. -/
def Regex.lit : Str → Regex
  | [] => .empty
  | c :: cs => .seq (.chr (· == c)) (Regex.lit cs)

/-- The match of `re` that starts at the beginning of `s`, as the list of submatches of
Go: the whole match first, then the groups. -/
def matchAt (re : Regex) (s : Str) : Option (List Str) :=
  re.run (fun acc _ caps => some (acc :: caps)) [] s []

/-- The scan of `FindAllSubmatch`; the first argument counts the characters of the match
just found that are still to be skipped. -/
def findAllScan (re : Regex) : Nat → Str → List (List Str)
  | _, [] => []
  | k + 1, _ :: cs => findAllScan re k cs
  | 0, c :: cs =>
    match matchAt re (c :: cs) with
    | some m => m :: findAllScan re ((m.headD []).length - 1) cs
    | none => findAllScan re 0 cs

/-- Go `(*Regexp).FindAllSubmatch(src, -1)`: the successive non-overlapping leftmost
matches.  Every pattern of the program matches at least two characters, so an empty match
does not occur. -/
def FindAllSubmatch (re : Regex) (src : Str) : List (List Str) := findAllScan re 0 src

/-- The class `.`: any character but the newline. -/
def dot (c : Char) : Bool := c != '\n'

/-- The class `[^()]`. -/
def notParen (c : Char) : Bool := c != '(' && c != ')'

/-! ## Go standard library: `unicode` and `bytes.Title` -/

/-- Go `unicode.IsSpace`. -/
def IsSpace (r : Char) : Bool :=
  r = '\t' || r = '\n' || r.toNat = 0x0B || r.toNat = 0x0C || r = '\r' || r = ' ' ||
  r.toNat = 0x85 || r.toNat = 0xA0 || r.toNat = 0x1680 ||
  (0x2000 ≤ r.toNat && r.toNat ≤ 0x200A) || r.toNat = 0x2028 || r.toNat = 0x2029 ||
  r.toNat = 0x202F || r.toNat = 0x205F || r.toNat = 0x3000

/-- Go `bytes.TrimSpace`: leading and trailing white space removed. -/
def TrimSpace (s : Str) : Str := (s.dropWhile IsSpace).rdropWhile IsSpace

/-- The tables of Go's `unicode` package that `bytes.Title` consults. -/
structure Unicode where
  /-- Go `unicode.IsLetter`. -/
  IsLetter : Char → Bool
  /-- Go `unicode.IsDigit`. -/
  IsDigit : Char → Bool
  /-- Go `unicode.ToTitle`. -/
  ToTitle : Char → Char

/-- Go `bytes.isSeparator`: whether a character ends a word. -/
def isSeparator (U : Unicode) (r : Char) : Bool :=
  if r.toNat ≤ 0x7F then
    if '0' ≤ r ∧ r ≤ '9' then false
    else if 'a' ≤ r ∧ r ≤ 'z' then false
    else if 'A' ≤ r ∧ r ≤ 'Z' then false
    else if r = '_' then false
    else true
  else if U.IsLetter r || U.IsDigit r then false
  else IsSpace r

/-- The closure of `bytes.Title`, with the previous character as state. -/
def titleMap (U : Unicode) : Char → Str → Str
  | _, [] => []
  | prev, r :: rs => (if isSeparator U prev then U.ToTitle r else r) :: titleMap U r rs

/-- Go `bytes.Title`: the letters that begin words mapped to title case. -/
def Title (U : Unicode) (s : Str) : Str := titleMap U ' ' s

/-! ## Line reader (`main.go`, `parser`) -/

/-- The size of the buffer of `bufio.NewReader`. -/
def defaultBufSize : Nat := 4096

/-- Go `(*bufio.Reader).ReadLine` on the unread input `rd`: the line or line fragment,
whether it is a fragment (`isPrefix`), and the input left; `none` is the end of input.
A fragment is returned when the buffer is full and holds no newline; a carriage return
at the end of a fragment is put back. -/
def ReadLine (rd : Str) : Option (Str × Bool × Str) :=
  if rd = [] then none
  else
    let buf := rd.take defaultBufSize
    let line := buf.takeWhile (· ≠ '\n')
    if line.length < buf.length then
      -- a newline within the buffer: drop it and a carriage return before it
      let rest := rd.drop (line.length + 1)
      if line.getLast? = some '\r' then some (line.dropLast, false, rest)
      else some (line, false, rest)
    else if defaultBufSize ≤ buf.length then
      -- buffer full
      if line.getLast? = some '\r' then
        some (line.dropLast, true, rd.drop (defaultBufSize - 1))
      else some (line, true, rd.drop defaultBufSize)
    else
      -- end of input: the unterminated rest
      some (line, false, [])

/-- The type `parser`: the unread input of its reader and the previous line.  The
previous line is held by value (the source keeps a slice). -/
structure parser where
  /-- The unread input of the `bufio.Reader`. -/
  rd : Str
  /-- The previous emitted line. -/
  prevLine : Str

/-- The loop of `(*parser).readLine`.  The outer `none` is an exhausted recursion
budget; the inner `none` is the error return (end of input). -/
def readLineLoop : Nat → Str → Str → Option (Option (Str × Str))
  | 0, _, _ => none
  | fuel + 1, rd, linePrefix =>
    match ReadLine rd with
    | none => some none
    | some (line, true, rd) => readLineLoop fuel rd (linePrefix ++ line)
    | some (line, false, rd) =>
      some (some (if 0 < linePrefix.length then linePrefix ++ line else line, rd))

/-- The method `(*parser).readLine`. -/
def parser.readLine (p : parser) : Option (Option (Str × parser)) :=
  (readLineLoop (p.rd.length + 1) p.rd []).map fun r =>
    r.map fun x => (x.1, { p with rd := x.2 })

/-- The method `(*parser).skipNextEmptyLine`: `Peek(2)`, and a line is read when the
second byte is a newline. -/
def parser.skipNextEmptyLine (p : parser) : Option (Bool × parser) :=
  match p.rd with
  | _ :: c :: _ =>
    if c = '\n' then
      match p.readLine with
      | none => none
      | some none => some (true, p)
      | some (some (_, p)) => some (true, p)
    else some (false, p)
  | _ => some (false, p)

/-! ## Line replacers (`main.go`) -/

/-- The errors of the line replacers. -/
inductive Err where
  /-- The sentinel `errNotResponsible`. -/
  | notResponsible
  /-- The sentinel `errSkipLine`. -/
  | skipLine
  /-- The error `Title is missing from: ...` of `unescapeLinks`. -/
  | titleMissing (span : Str)
  deriving DecidableEq

/-- The pattern `\\\((.*?)\\\)`. -/
def unescapeParensRegex : Regex :=
  .seq (.lit "\\(".toList) (.seq (.group (.lazyStar dot)) (.lit "\\)".toList))

/-- The pattern `{% page-ref page="(.*?)" %}`. -/
def unescapePageRefRegex : Regex :=
  .seq (.lit "\x7b% page-ref page=\"".toList)
    (.seq (.group (.lazyStar dot)) (.lit "\" %\x7d".toList))

/-- The pattern `\[(.*?)]\(([^()]+)\)`. -/
def unescapeLinksRegex : Regex :=
  .seq (.lit "[".toList) (.seq (.group (.lazyStar dot))
    (.seq (.lit "](".toList) (.seq (.group (.plus notParen)) (.lit ")".toList))))

/-- The function `wrapRegex`: for each match, the first occurrence of the matched text
in the result so far is replaced by the first group between `start` and `stop`. -/
def wrapRegex (regex : Regex) (src start stop : Str) : Str :=
  (FindAllSubmatch regex src).foldl
    (fun result submatches =>
      ReplaceFirst result (submatches.getD 0 []) (start ++ (submatches.getD 1 [] ++ stop)))
    src

/-- The function `unescapeParens`. -/
def unescapeParens (line : Str) : Str × Option Err :=
  (wrapRegex unescapeParensRegex line "(".toList ")".toList, none)

/-- Go `bytes.LastIndex` for a one-character separator. -/
def lastIndexSlash (s : Str) : Int := lastIndexByte s '/'

/-- The body of the loop of `unescapePageRefs` for one match. -/
def pageRefStep (U : Unicode) (result : Str) (submatches : List Str) : Str :=
  let link := submatches.getD 1 []
  let baseIdx := lastIndexSlash link
  let link :=
    if baseIdx ≠ -1 ∧ baseIdx < (link.length : Int) - 1 then link.drop (baseIdx + 1).toNat
    else link
  let title := Title U (TrimSuffix link markdownSuffix)
  let start := "> Reference: ".toList ++ ("[".toList ++ title ++ "]".toList) ++ "(".toList
  ReplaceFirst result (submatches.getD 0 []) (start ++ (submatches.getD 1 [] ++ ")".toList))

/-- The function `unescapePageRefs`. -/
def unescapePageRefs (U : Unicode) (src : Str) : Str × Option Err :=
  ((FindAllSubmatch unescapePageRefRegex src).foldl (pageRefStep U) src, none)

/-- The constant `httpPrefix`. -/
def httpPrefix : Str := "http".toList

/-- The loop of `unescapeLinks` over the matches, with the result so far. -/
def linksLoop (keepLinks : Bool) (wikiRepo : Str) : List (List Str) → Str → Str × Option Err
  | [], result => (result, none)
  | submatches :: rest, result =>
    let name := submatches.getD 2 []
    if HasPrefix name httpPrefix then linksLoop keepLinks wikiRepo rest result
    else
      let link := resolveLink keepLinks name wikiRepo
      if !HasSuffix name markdownSuffix then
        -- not a page: a link to an asset
        linksLoop keepLinks wikiRepo rest (ReplaceFirst result name link)
      else
        let title := submatches.getD 1 []
        if title.length = 0 then ([], some (Err.titleMissing (submatches.getD 0 [])))
        else
          linksLoop keepLinks wikiRepo rest
            (ReplaceFirst result (submatches.getD 0 [])
              ("[[".toList ++ title ++ "|".toList ++ link ++ "]]".toList))

/-- The function `unescapeLinks`. -/
def unescapeLinks (keepLinks : Bool) (wikiRepo : Str) (src : Str) : Str × Option Err :=
  if keepLinks then (src, none)
  else linksLoop keepLinks wikiRepo (FindAllSubmatch unescapeLinksRegex src) src

/-- The constant `asteriskEntry`. -/
def asteriskEntry : Str := "* ".toList

/-- The function `tocEntry`.  The deferred `skipNextEmptyLine` runs after the result is
computed; the outer `none` is an exhausted recursion budget of the reader. -/
def tocEntry (filename : Str) (p : parser) (src : Str) :
    Option ((Str × Option Err) × parser) :=
  if Base filename ≠ "SUMMARY.md".toList then some ((src, some Err.notResponsible), p)
  else
    let src := TrimSpace src
    if src.length = 0 then some (([], none), p)
    else if src.length < 4 then some ((src, none), p)
    else
      let tab := List.replicate 2 ' '
      let result : Str × Option Err :=
        if src[0]? = some '#' then
          if src[1]? ≠ some '#' then ([], some Err.skipLine)
          else if src[2]? = some ' ' then (asteriskEntry ++ src.drop 3, none)
          else (asteriskEntry ++ src.drop 2, none)
        else if src[0]? = some '*' ∧
            (HasPrefix p.prevLine asteriskEntry ∨ HasPrefix p.prevLine (tab ++ asteriskEntry))
          then (tab ++ src, none)
        else (src, none)
      match p.skipNextEmptyLine with
      | none => none
      | some (_, p) => some (result, p)

/-! ## Document pipeline (`main.go`, `parse`) -/

/-- The constant `codeSnippet`, the fence marker. -/
def codeSnippet : Str := "```".toList

/-- The constant `newLine`. -/
def newLine : Str := "\n".toList

/-- A line replacer, with the parser state it may read and advance. -/
abbrev simpleLineReplacer := parser → Str → Option ((Str × Option Err) × parser)

/-- A replacer that does not touch the parser. -/
def pureReplacer (f : Str → Str × Option Err) : simpleLineReplacer :=
  fun p line => some (f line, p)

/-- The list `lineReplacers` of `parse`. -/
def lineReplacers (U : Unicode) (keepLinks : Bool) (wikiRepo filename : Str) :
    List simpleLineReplacer :=
  [tocEntry filename, pureReplacer unescapeParens, pureReplacer (unescapePageRefs U),
    pureReplacer (unescapeLinks keepLinks wikiRepo)]

/-- How the loop over the replacers ends: with the line and the last error value, or
with `return err`. -/
inductive LoopEnd where
  | done (line : Str) (err : Option Err) (p : parser)
  | returned (err : Err)

/-- The loop `for _, rpl := range lineReplacers` of `parse`: `errNotResponsible`
continues with the next replacer, `errSkipLine` leaves the loop, any other error is
returned. -/
def replaceLoop : List simpleLineReplacer → parser → Str → Option Err → Option LoopEnd
  | [], p, line, err => some (.done line err p)
  | rpl :: rest, p, line, _ =>
    match rpl p line with
    | none => none
    | some ((line, none), p) => replaceLoop rest p line none
    | some ((line, some Err.notResponsible), p) =>
      replaceLoop rest p line (some Err.notResponsible)
    | some ((line, some Err.skipLine), p) => some (.done line (some Err.skipLine) p)
    | some ((_, some err), _) => some (.returned err)

/-- The inner loop of `parse`: lines are written without changes up to and including
the line equal to the fence marker, or to the end of input. -/
def snippetLoop : Nat → parser → Str → Option (parser × Str)
  | 0, _, _ => none
  | fuel + 1, p, out =>
    match p.readLine with
    | none => none
    | some none => some (p, out)
    | some (some (line, p)) =>
      let out := out ++ line ++ newLine
      if line = codeSnippet then some ({ p with prevLine := [] }, out)
      else snippetLoop fuel p out

/-- The outer loop of `parse`, with the text written to `out` so far.  The result is the
text written and the error returned; `none` is an exhausted recursion budget. -/
def parseLoop (U : Unicode) (keepLinks : Bool) (wikiRepo filename : Str) :
    Nat → parser → Str → Option (Str × Option Err)
  | 0, _, _ => none
  | fuel + 1, p, out =>
    match p.readLine with
    | none => none
    | some none => some (out, none)
    | some (some (line, p)) =>
      if HasPrefix line codeSnippet then
        match snippetLoop fuel p (out ++ line ++ newLine) with
        | none => none
        | some (p, out) => parseLoop U keepLinks wikiRepo filename fuel p out
      else
        match replaceLoop (lineReplacers U keepLinks wikiRepo filename) p line none with
        | none => none
        | some (.returned err) => some (out, some err)
        | some (.done line err p) =>
          if err = some Err.skipLine then parseLoop U keepLinks wikiRepo filename fuel p out
          else
            let out :=
              if 0 < line.length then
                (if line.head? = some '>' ∧ 0 < p.prevLine.length ∧ p.prevLine.head? = some '>'
                  then out ++ newLine else out) ++ line
              else out
            parseLoop U keepLinks wikiRepo filename fuel { p with prevLine := line }
              (out ++ newLine)

/-- The function `parse` on an in-memory source: the text written to `out` and the error
returned.  On the error path the source returns without flushing `out`. -/
def parse (U : Unicode) (keepLinks : Bool) (wikiRepo filename src : Str) :
    Option (Str × Option Err) :=
  parseLoop U keepLinks wikiRepo filename (src.length + 1) { rd := src, prevLine := [] } []

/-! ## Vocabulary of the statements -/

/-- A proper path element: non-empty, free of slashes, and neither `.` nor `..`. -/
def IsElem (e : Str) : Prop := e ≠ [] ∧ '/' ∉ e ∧ e ≠ ['.'] ∧ e ≠ ['.', '.']

instance (e : Str) : Decidable (IsElem e) := by unfold IsElem; infer_instance

/-- The hyphen-joined rendering of path elements. -/
def joinHyphen (elems : List Str) : Str := ['-'].intercalate elems

/-- The text made of `k` copies of `../`. -/
def parentRefs (k : Nat) : Str := (List.replicate k "../".toList).flatten

/-- The paths `ds/b` handled by the flatten rule of `resolvePath`: proper elements, no
`../` anywhere, not beginning with `.gitbook/assets`, and a base name that is neither
`README.md` nor `SUMMARY.md`. -/
def FlattenInput (ds : List Str) (b : Str) : Prop :=
  (∀ e ∈ ds, IsElem e) ∧ IsElem b ∧
  ¬ "../".toList <:+: joinSlash (ds ++ [b]) ∧
  HasPrefix (joinSlash (ds ++ [b])) ".gitbook/assets".toList = false ∧
  b ≠ "README.md".toList ∧ b ≠ "SUMMARY.md".toList

instance (ds : List Str) (b : Str) : Decidable (FlattenInput ds b) := by
  unfold FlattenInput; infer_instance

/-- The markdown link `[t](p)`. -/
def mdLink (t p : Str) : Str := '[' :: t ++ ']' :: '(' :: p ++ [')']

/-- The wiki link `[[t|k]]`. -/
def wikiLink (t k : Str) : Str := "[[".toList ++ t ++ "|".toList ++ k ++ "]]".toList

/-- A line as `readLine` returns it: the carriage return before the newline is dropped. -/
def chomp (l : Str) : Str := if l.getLast? = some '\r' then l.dropLast else l

/-- The text of the lines `ls`, each followed by a newline. -/
def unlines (ls : List Str) : Str := (ls.map (· ++ ['\n'])).flatten

/-- ASCII stand-ins for the tables of `unicode`, for the examples. -/
def asciiUnicode : Unicode := ⟨Char.isAlpha, Char.isDigit, Char.toUpper⟩

/-- A replacer that always returns and does not give input back to the reader. -/
def Tame (r : simpleLineReplacer) : Prop :=
  ∀ p line, ∃ res p', r p line = some (res, p') ∧ p'.rd.length ≤ p.rd.length

/-- The outer loop of `parse` from the state `p`, with `out` written so far and a
recursion budget that exceeds the unread input. -/
def parseFrom (U : Unicode) (keepLinks : Bool) (wikiRepo filename : Str) (p : parser)
    (out : Str) : Option (Str × Option Err) :=
  parseLoop U keepLinks wikiRepo filename (p.rd.length + 1) p out

/-- The fence state after one more line: inside a snippet or not. -/
def fenceStep (inside : Bool) (l : Str) : Bool :=
  if inside then decide (chomp l ≠ codeSnippet) else HasPrefix (chomp l) codeSnippet

/-- Whether the text made of the lines `ls` ends inside a code fence. -/
def insideFence (ls : List Str) : Bool := ls.foldl fenceStep false

/-- The characters of a link target in a plain file path: letters, digits, `/`, `.`,
`-` and `_`. -/
def targetChar (c : Char) : Bool :=
  c.isAlphanum || c = '/' || c = '.' || c = '-' || c = '_'

/-- A page target of 4092 characters: with `[](` before and `)` after it the link fills
the buffer of the reader exactly. -/
def longTarget : Str := List.replicate 4089 'a' ++ ".md".toList

/-! ## Vocabulary of the statements on `unescapeParens` -/

/-- The scan of Go `(*Regexp).ReplaceAll`, which the description of `unescapeParens`
refers to: every match is replaced at its own position by `f` of its submatches, and the
text outside the matches is copied.  The first argument counts the characters of the
match just found that are still to be skipped. -/
def replaceAllScan (re : Regex) (f : List Str → Str) : Nat → Str → Str
  | _, [] => []
  | k + 1, _ :: cs => replaceAllScan re f k cs
  | 0, c :: cs =>
    match matchAt re (c :: cs) with
    | some m => f m ++ replaceAllScan re f ((m.headD []).length - 1) cs
    | none => c :: replaceAllScan re f 0 cs

/-- Go `(*Regexp).ReplaceAll(src, repl)`, the template given as a function of the
submatches. -/
def RegexReplaceAll (re : Regex) (src : Str) (f : List Str → Str) : Str :=
  replaceAllScan re f 0 src

/-- The template `($1)`. -/
def parenTemplate (m : List Str) : Str := "(".toList ++ (m.getD 1 [] ++ ")".toList)

/-- The escaped group `\(t\)`. -/
def escaped (t : Str) : Str := "\\(".toList ++ (t ++ "\\)".toList)

/-- The text `\(t₁\)g₁\(t₂\)g₂…` of the pairs `(tᵢ, gᵢ)`. -/
def escapedTail : List (Str × Str) → Str
  | [] => []
  | x :: rest => escaped x.1 ++ (x.2 ++ escapedTail rest)

/-- The text `(t₁)g₁(t₂)g₂…` of the pairs `(tᵢ, gᵢ)`. -/
def plainTail : List (Str × Str) → Str
  | [] => []
  | x :: rest => "(".toList ++ (x.1 ++ (")".toList ++ (x.2 ++ plainTail rest)))

/-- The texts of a line `g₀\(t₁\)g₁…` hold no backslash, and the escaped ones no newline:
the backslashes of the line are those of the pairs `\(`, `\)`. -/
def PlainPairs (g : Str) (gs : List (Str × Str)) : Prop :=
  '\\' ∉ g ∧ ∀ x ∈ gs, '\\' ∉ x.1 ∧ '\n' ∉ x.1 ∧ '\\' ∉ x.2

/-! ## Vocabulary of the statements on `unescapePageRefs` -/

/-- The directive `{% page-ref page="p" %}`. -/
def pageRef (p : Str) : Str := "\x7b% page-ref page=\"".toList ++ (p ++ "\" %\x7d".toList)

/-- The line `> Reference: [t](p)`. -/
def reference (t p : Str) : Str :=
  "> Reference: [".toList ++ (t ++ ("](".toList ++ (p ++ ")".toList)))

/-- The final `/`-separated segment of `p`: the text after its last `/`, all of `p` when
it holds none. -/
def lastSegment (p : Str) : Str := p.rtakeWhile (· ≠ '/')

/-- A character of a word, as the description of the title has it: a letter, a digit or
the underscore. -/
def isWordChar (U : Unicode) (r : Char) : Bool :=
  if r.toNat ≤ 0x7F then
    ('0' ≤ r ∧ r ≤ '9') ∨ ('a' ≤ r ∧ r ≤ 'z') ∨ ('A' ≤ r ∧ r ≤ 'Z') ∨ r = '_'
  else U.IsLetter r || U.IsDigit r

/-- The description of the title: the first character of each word mapped to title case,
a word starting after any character that is not a character of a word. -/
def titleWordsMap (U : Unicode) : Char → Str → Str
  | _, [] => []
  | prev, r :: rs => (if isWordChar U prev then r else U.ToTitle r) :: titleWordsMap U r rs

/-- The same, a word starting at the beginning of the text. -/
def titleWords (U : Unicode) (s : Str) : Str := titleWordsMap U ' ' s

/-- A character on which the description of the words and `bytes.Title` agree: ASCII, a
letter, a digit or white space. -/
def SimpleChar (U : Unicode) (r : Char) : Prop :=
  r.toNat ≤ 0x7F ∨ U.IsLetter r = true ∨ U.IsDigit r = true ∨ IsSpace r = true

/-! ## Vocabulary of the statements on the table of contents -/

/-- A text free of `[`, `]`, `(`, `)`, backslash, `{` (and, within a line, of the newline)
and of white space at its ends. -/
def PlainText (s : Str) : Prop :=
  (∀ c ∈ s, c ≠ '[' ∧ c ≠ ']' ∧ c ≠ '(' ∧ c ≠ ')' ∧ c ≠ '\\' ∧ c ≠ '\x7b' ∧ c ≠ '\n') ∧
    TrimSpace s = s

instance (s : Str) : Decidable (PlainText s) := by unfold PlainText; infer_instance

/-- A character that may stand in a root-level page name: any but `/`, `(`, `)`, `[`,
backslash, `{`, `_` and the newline.  Every letter and every digit is one. -/
def nameChar (c : Char) : Bool :=
  c ≠ '/' && c ≠ '(' && c ≠ ')' && c ≠ '[' && c ≠ '\\' && c ≠ '\x7b' && c ≠ '_' && c ≠ '\n'

/-- The table of contents made of the three lines `# H`, `## S`, `* [T](p.md)`. -/
def tocThree (H S T p : Str) : Str :=
  unlines ["# ".toList ++ H, "## ".toList ++ S, "* ".toList ++ mdLink T (p ++ markdownSuffix)]

/-- The sidebar made of the two lines `* S`, `  * [[T|k]]`. -/
def sidebarTwo (S T k : Str) : Str :=
  unlines ["* ".toList ++ S, "  * ".toList ++ wikiLink T k]

/-- A line of 4096 characters that begins with `>`: it fills the buffer of the reader
exactly. -/
def longQuote : Str := '>' :: List.replicate 4095 'b'

/-- A line of 4096 characters: it fills the buffer of the reader exactly. -/
def longLine : Str := List.replicate 4096 'a'

/-! ## Lemmas -/
theorem joinSlash_nil : joinSlash [] = [] := rfl

theorem joinSlash_singleton (e : Str) : joinSlash [e] = e := by
  simp [joinSlash, List.intercalate]

theorem joinSlash_cons_cons (d e : Str) (es : List Str) :
    joinSlash (d :: e :: es) = d ++ '/' :: joinSlash (e :: es) := by
  simp [joinSlash, List.intercalate]

theorem joinSlash_append_singleton (ds : List Str) (b : Str) (h : ds ≠ []) :
    joinSlash (ds ++ [b]) = joinSlash ds ++ '/' :: b := by
  induction ds with
  | nil => exact absurd rfl h
  | cons d ds ih =>
    cases ds with
    | nil => simp [joinSlash_cons_cons, joinSlash_singleton]
    | cons e es =>
      have := ih (by simp)
      simp only [List.cons_append] at this ⊢
      rw [joinSlash_cons_cons, this, joinSlash_cons_cons]
      simp

theorem splitOn_joinSlash (es : List Str) (h : es ≠ []) (hs : ∀ e ∈ es, '/' ∉ e) :
    (joinSlash es).splitOn '/' = es :=
  List.splitOn_intercalate es '/' hs h

theorem foldl_cleanStep_elems (rooted : Bool) (es : List Str) (h : ∀ e ∈ es, IsElem e) :
    ∀ out n, es.foldl (cleanStep rooted) (out, n) = (out ++ es, n) := by
  induction es with
  | nil => intro out n; simp
  | cons e es ih =>
    intro out n
    have he := h e (by simp)
    have : cleanStep rooted (out, n) e = (out ++ [e], n) := by
      simp [cleanStep, he.1, he.2.2.1, he.2.2.2]
    rw [List.foldl_cons, this, ih (fun x hx => h x (by simp [hx]))]
    simp

theorem joinSlash_ne_nil (es : List Str) (h : es ≠ []) (hs : ∀ e ∈ es, IsElem e) :
    joinSlash es ≠ [] := by
  cases es with
  | nil => exact absurd rfl h
  | cons e es =>
    have he := hs e (by simp)
    cases es with
    | nil => simpa [joinSlash_singleton] using he.1
    | cons d ds => simp [joinSlash_cons_cons]

theorem head_joinSlash (es : List Str) (hs : ∀ e ∈ es, IsElem e) :
    (joinSlash es).head? ≠ some '/' := by
  cases es with
  | nil => simp [joinSlash_nil]
  | cons e es =>
    have he := hs e (by simp)
    have : (joinSlash (e :: es)).head? = e.head? := by
      cases es with
      | nil => simp [joinSlash_singleton]
      | cons d ds =>
        rw [joinSlash_cons_cons]
        cases e with
        | nil => exact absurd rfl he.1
        | cons c cs => simp
    rw [this]
    cases e with
    | nil => exact absurd rfl he.1
    | cons c cs =>
      simp only [List.head?_cons, ne_eq, Option.some.injEq]
      intro hc
      exact he.2.1 (by simp [hc])

/-- `path.Clean` leaves a relative path made of proper elements unchanged. -/
theorem Clean_joinSlash (es : List Str) (h : es ≠ []) (hs : ∀ e ∈ es, IsElem e) :
    Clean (joinSlash es) = joinSlash es := by
  have hne := joinSlash_ne_nil es h hs
  have hhd := head_joinSlash es hs
  have hsp := splitOn_joinSlash es h (fun e he => (hs e he).2.1)
  simp [Clean, hne, hhd, hsp, foldl_cleanStep_elems _ es hs, h]


theorem lastIndexByte_of_not_mem (s : Str) (c : Char) (h : c ∉ s) : lastIndexByte s c = -1 := by
  induction s with
  | nil => rfl
  | cons x xs ih =>
    have hx : x ≠ c := fun e => h (by simp [e])
    have := ih (fun m => h (by simp [m]))
    simp [lastIndexByte, this, hx]

theorem lastIndexByte_append (x b : Str) (c : Char) (h : c ∉ b) :
    lastIndexByte (x ++ c :: b) c = x.length := by
  induction x with
  | nil => simp [lastIndexByte, lastIndexByte_of_not_mem b c h]
  | cons y ys ih =>
    simp only [List.cons_append, lastIndexByte, ih, List.length_cons]
    simp
    omega

theorem Split_of_not_mem (b : Str) (h : '/' ∉ b) : Split b = ([], b) := by
  simp [Split, lastIndexByte_of_not_mem b '/' h]

theorem Split_append (x b : Str) (h : '/' ∉ b) : Split (x ++ '/' :: b) = (x ++ ['/'], b) := by
  have e : ((x.length : Int) + 1).toNat = x.length + 1 := by omega
  simp only [Split, lastIndexByte_append x b '/' h, e]
  have : x ++ '/' :: b = (x ++ ['/']) ++ b := by simp
  rw [this]
  have hl : (x ++ ['/']).length = x.length + 1 := by simp
  rw [← hl, List.take_left, List.drop_left]

theorem Base_of_not_mem (b : Str) (hb : b ≠ []) (h : '/' ∉ b) : Base b = b := by
  have h1 : b.rdropWhile (· = '/') = b := by
    rw [List.rdropWhile_eq_self_iff]
    intro hl
    have := List.getLast_mem hl
    simp only [decide_eq_true_eq]
    intro e
    exact h (e ▸ this)
  simp [Base, hb, h1, lastIndexByte_of_not_mem b '/' h]

theorem Base_append (x b : Str) (hb : b ≠ []) (h : '/' ∉ b) : Base (x ++ '/' :: b) = b := by
  have h1 : (x ++ '/' :: b).rdropWhile (· = '/') = x ++ '/' :: b := by
    rw [List.rdropWhile_eq_self_iff]
    intro hl
    have hlast : (x ++ '/' :: b).getLast hl = b.getLast hb := by
      rw [List.getLast_append_of_ne_nil (by simp)]
      · exact List.getLast_cons hb
    have := List.getLast_mem hb
    simp only [decide_eq_true_eq, hlast]
    intro e
    exact h (e ▸ this)
  have e : ((x.length : Int) + 1).toNat = x.length + 1 := by omega
  have h2 : (x ++ '/' :: b).drop (x.length + 1) = b := by
    have : x ++ '/' :: b = (x ++ ['/']) ++ b := by simp
    rw [this]
    simp
  simp [Base, h1, lastIndexByte_append x b '/' h, e, h2, hb]

theorem Clean_joinSlash_slash (es : List Str) (h : es ≠ []) (hs : ∀ e ∈ es, IsElem e) :
    Clean (joinSlash es ++ ['/']) = joinSlash es := by
  have e1 : joinSlash es ++ ['/'] = joinSlash (es ++ [[]]) := by
    rw [joinSlash_append_singleton es [] h]
  have hsp : (joinSlash (es ++ [[]])).splitOn '/' = es ++ [[]] := by
    apply splitOn_joinSlash
    · simp
    · intro e he
      rcases List.mem_append.1 he with he | he
      · exact (hs e he).2.1
      · simp at he; simp [he]
  have hne : joinSlash (es ++ [[]]) ≠ [] := by
    rw [← e1]; simp
  have hhd : (joinSlash (es ++ [[]])).head? ≠ some '/' := by
    rw [← e1]
    have := head_joinSlash es hs
    have hn := joinSlash_ne_nil es h hs
    cases hj : joinSlash es with
    | nil => exact absurd hj hn
    | cons c cs => rw [hj] at this; simpa using this
  rw [e1]
  simp [Clean, hne, hhd, hsp, List.foldl_append, foldl_cleanStep_elems _ es hs, cleanStep, h]

theorem Clean_slash_joinSlash (es : List Str) (h : es ≠ []) (hs : ∀ e ∈ es, IsElem e) :
    Clean ('/' :: joinSlash es) = '/' :: joinSlash es := by
  have e1 : '/' :: joinSlash es = joinSlash ([] :: es) := by
    cases es with
    | nil => exact absurd rfl h
    | cons e es => rw [joinSlash_cons_cons]; simp
  have hsp : (joinSlash ([] :: es)).splitOn '/' = [] :: es := by
    apply splitOn_joinSlash
    · simp
    · intro e he
      rcases List.mem_cons.1 he with he | he
      · simp [he]
      · exact (hs e he).2.1
  have hst : ([] :: es).foldl (cleanStep true) ([], 0) = (es, 0) := by
    rw [List.foldl_cons]
    have : cleanStep true ([], 0) [] = ([], 0) := by simp [cleanStep]
    rw [this, foldl_cleanStep_elems _ es hs]
    simp
  have hc : Clean ('/' :: joinSlash es) = '/' :: joinSlash es := by
    unfold Clean
    simp only [List.head?_cons, decide_True, if_true, reduceCtorEq, if_false]
    rw [e1, hsp, hst, ← e1]
  exact hc

theorem Dir_of_not_mem (b : Str) (h : '/' ∉ b) : Dir b = ['.'] := by
  simp [Dir, Split_of_not_mem b h, Clean]

theorem Dir_joinSlash (ds : List Str) (b : Str) (h : ds ≠ []) (hs : ∀ e ∈ ds, IsElem e)
    (hb : '/' ∉ b) : Dir (joinSlash ds ++ '/' :: b) = joinSlash ds := by
  simp [Dir, Split_append _ b hb, Clean_joinSlash_slash ds h hs]

/-! ### `strings.ReplaceAll` -/

theorem replaceScan_of_absent (old new : Str) :
    ∀ s : Str, ¬ old <:+: s → replaceScan old new 0 s = s := by
  intro s
  induction s with
  | nil => intro _; rfl
  | cons c cs ih =>
    intro h
    have h1 : old.isPrefixOf (c :: cs) = false := by
      cases hp : old.isPrefixOf (c :: cs) with
      | false => rfl
      | true => exact absurd (List.IsPrefix.isInfix (List.isPrefixOf_iff_prefix.1 hp)) h
    have h2 : ¬ old <:+: cs := fun hi => h (hi.trans (List.infix_cons (List.infix_refl cs)))
    simp [replaceScan, h1, ih h2]

theorem replaceScan_skip (old new : Str) :
    ∀ (k : Nat) (s : Str), replaceScan old new k s = replaceScan old new 0 (s.drop k) := by
  intro k
  induction k with
  | zero => intro s; simp
  | succ k ih =>
    intro s
    cases s with
    | nil => simp [replaceScan]
    | cons c cs => simp [replaceScan, ih cs]

theorem replaceScan_append (old new : Str) (h : old ≠ []) (s : Str) :
    replaceScan old new 0 (old ++ s) = new ++ replaceScan old new 0 s := by
  cases old with
  | nil => exact absurd rfl h
  | cons c cs =>
    have hp : (c :: cs).isPrefixOf (c :: (cs ++ s)) = true := by
      rw [List.isPrefixOf_iff_prefix]
      exact ⟨s, by simp⟩
    simp only [List.cons_append, replaceScan, hp, if_true, List.length_cons, Nat.add_sub_cancel]
    rw [replaceScan_skip]
    simp

theorem replaceScan_char (a b : Char) :
    ∀ s : Str, replaceScan [a] [b] 0 s = s.map fun c => if c = a then b else c := by
  intro s
  induction s with
  | nil => rfl
  | cons c cs ih =>
    by_cases hc : c = a
    · subst hc
      simp [replaceScan, ih]
    · have : ¬ a = c := fun e => hc e.symm
      simp [replaceScan, ih, hc, this]

/-! ### `resolvePath` on paths made of proper elements -/

theorem joinHyphen_singleton (e : Str) : joinHyphen [e] = e := by
  simp [joinHyphen, List.intercalate]

theorem joinHyphen_cons_cons (d e : Str) (es : List Str) :
    joinHyphen (d :: e :: es) = d ++ '-' :: joinHyphen (e :: es) := by
  simp [joinHyphen, List.intercalate]

theorem joinHyphen_append_singleton (ds : List Str) (b : Str) (h : ds ≠ []) :
    joinHyphen (ds ++ [b]) = joinHyphen ds ++ '-' :: b := by
  induction ds with
  | nil => exact absurd rfl h
  | cons d ds ih =>
    cases ds with
    | nil => simp [joinHyphen_cons_cons, joinHyphen_singleton]
    | cons e es =>
      have := ih (by simp)
      simp only [List.cons_append] at this ⊢
      rw [joinHyphen_cons_cons, this, joinHyphen_cons_cons]
      simp

theorem map_joinSlash (ds : List Str) (hs : ∀ e ∈ ds, '/' ∉ e) :
    (joinSlash ds).map (fun c => if c = '/' then '-' else c) = joinHyphen ds := by
  have hmap : ∀ e : Str, '/' ∉ e → e.map (fun c => if c = '/' then '-' else c) = e := by
    intro e he
    induction e with
    | nil => rfl
    | cons c cs ih =>
      have hc : c ≠ '/' := fun h => he (by simp [h])
      simp [hc, ih (fun m => he (by simp [m]))]
  induction ds with
  | nil => rfl
  | cons d ds ih =>
    cases ds with
    | nil => simpa [joinSlash_singleton, joinHyphen_singleton] using hmap d (hs d (by simp))
    | cons e es =>
      rw [joinSlash_cons_cons, joinHyphen_cons_cons, List.map_append, List.map_cons,
        ih (fun x hx => hs x (by simp [hx])), hmap d (hs d (by simp))]
      simp

theorem not_mem_joinHyphen (c : Char) (hc : c ≠ '-') (ds : List Str) (hs : ∀ e ∈ ds, c ∉ e) :
    c ∉ joinHyphen ds := by
  induction ds with
  | nil => simp [joinHyphen, List.intercalate]
  | cons d ds ih =>
    cases ds with
    | nil => simpa [joinHyphen_singleton] using hs d (by simp)
    | cons e es =>
      rw [joinHyphen_cons_cons]
      have h1 := hs d (by simp)
      have h2 := ih (fun x hx => hs x (by simp [hx]))
      simp [h1, h2, hc]

theorem ReplaceAll_of_absent (s old new : Str) (h : ¬ old <:+: s) :
    ReplaceAll s old new = s := by
  have hne : old ≠ [] := by
    intro e
    exact h (e ▸ List.nil_infix)
  simp [ReplaceAll, hne, replaceScan_of_absent old new s h]

/-- The flattened base name of `ds/b` is a proper path element. -/
theorem isElem_flat (ds : List Str) (b : Str) (hds : ∀ e ∈ ds, IsElem e)
    (hb : IsElem b) : IsElem (joinHyphen ds ++ '-' :: b) := by
  have hm : '-' ∈ joinHyphen ds ++ '-' :: b := by simp
  refine ⟨by simp, ?_, ?_, ?_⟩
  · have := not_mem_joinHyphen '/' (by decide) ds (fun e he => (hds e he).2.1)
    simp only [List.mem_append, List.mem_cons, not_or]
    exact ⟨this, by decide, hb.2.1⟩
  · intro e
    rw [e] at hm
    revert hm
    decide
  · intro e
    rw [e] at hm
    revert hm
    decide

/-- What `resolvePath` computes before it looks at the base name, on a path `ds/b` of
proper elements without `../`. -/
theorem path_parts (ds : List Str) (b : Str) (hds : ∀ e ∈ ds, IsElem e) (hb : IsElem b)
    (hdd : ¬ "../".toList <:+: joinSlash (ds ++ [b])) :
    ReplaceAll (joinSlash (ds ++ [b])) "../".toList [] = joinSlash (ds ++ [b]) ∧
    Dir (joinSlash (ds ++ [b])) = (if ds = [] then ['.'] else joinSlash ds) ∧
    Base (joinSlash (ds ++ [b])) = b := by
  refine ⟨ReplaceAll_of_absent _ _ _ hdd, ?_, ?_⟩
  · by_cases h : ds = []
    · subst h
      simp [joinSlash_singleton, Dir_of_not_mem b hb.2.1]
    · rw [joinSlash_append_singleton ds b h, Dir_joinSlash ds b h hds hb.2.1]
      simp [h]
  · by_cases h : ds = []
    · subst h
      simp [joinSlash_singleton, Base_of_not_mem b hb.1 hb.2.1]
    · rw [joinSlash_append_singleton ds b h, Base_append _ b hb.1 hb.2.1]

theorem Join_dir_elem (ds : List Str) (b : Str) (hds : ∀ e ∈ ds, IsElem e) (hb : IsElem b) :
    Join [if (if ds = [] then ['.'] else joinSlash ds) = ".".toList then [] else
      (if ds = [] then ['.'] else joinSlash ds), b] = joinSlash (ds ++ [b]) := by
  have hall : ∀ e ∈ ds ++ [b], IsElem e := by
    intro e he
    rcases List.mem_append.1 he with he | he
    · exact hds e he
    · simp at he; exact he ▸ hb
  by_cases h : ds = []
  · subst h
    have : Clean b = b := by
      have := Clean_joinSlash [b] (by simp) (by simpa using hb)
      simpa [joinSlash_singleton] using this
    simp [Join, hb.1, joinSlash_singleton, this]
  · have hne := joinSlash_ne_nil ds h hds
    have hdot : joinSlash ds ≠ ".".toList := by
      intro e
      have hsp := splitOn_joinSlash ds h (fun x hx => (hds x hx).2.1)
      rw [e] at hsp
      have hd : ds = [['.']] := by rw [← hsp]; decide
      exact (hds ['.'] (by simp [hd])).2.2.1 rfl
    have e2 : joinSlash [joinSlash ds, b] = joinSlash (ds ++ [b]) := by
      rw [joinSlash_append_singleton ds b h, joinSlash_cons_cons, joinSlash_singleton]
    simp only [h, if_false, hdot, Join, hne]
    rw [e2, Clean_joinSlash _ (by simp) hall]

theorem ReplaceAll_parentRefs (k : Nat) (p : Str) :
    ReplaceAll (parentRefs k ++ p) "../".toList [] = ReplaceAll p "../".toList [] := by
  have hne : "../".toList ≠ [] := by decide
  simp only [ReplaceAll, hne, if_false]
  induction k with
  | zero => simp [parentRefs]
  | succ k ih =>
    have : parentRefs (k + 1) ++ p = "../".toList ++ (parentRefs k ++ p) := by
      simp [parentRefs, List.replicate_succ]
    rw [this, replaceScan_append _ _ hne, ih]
    simp

/-- The flatten rule of `resolvePath` on a path `ds/b` of proper elements. -/
theorem resolvePath_flat (ds : List Str) (b : Str) (hds : ∀ e ∈ ds, IsElem e) (hb : IsElem b)
    (hdd : ¬ "../".toList <:+: joinSlash (ds ++ [b]))
    (hga : HasPrefix (joinSlash (ds ++ [b])) ".gitbook/assets".toList = false)
    (hr : b ≠ "README.md".toList) (hs : b ≠ "SUMMARY.md".toList) :
    resolvePath false (joinSlash (ds ++ [b])) =
      if ds = [] then b else joinSlash (ds ++ [joinHyphen (ds ++ [b])]) := by
  obtain ⟨h1, h2, h3⟩ := path_parts ds b hds hb hdd
  have hT : ToSlash (joinSlash (ds ++ [b])) = joinSlash (ds ++ [b]) := by
    simp [ToSlash, Separator]
  unfold resolvePath
  simp only [hT, Bool.false_eq_true, if_false, h1, h2, h3, hr, hs, hga]
  by_cases h : ds = []
  · subst h
    have := Join_dir_elem [] b (by simp) hb
    simp only [if_true] at this
    have hR : ReplaceAll [] "/".toList "-".toList = [] := by decide
    simpa [hR, joinSlash_singleton] using this
  · have hne := joinSlash_ne_nil ds h hds
    have hdot : joinSlash ds ≠ ".".toList := by
      intro e
      have hsp := splitOn_joinSlash ds h (fun x hx => (hds x hx).2.1)
      rw [e] at hsp
      have hd : ds = [['.']] := by rw [← hsp]; decide
      exact (hds ['.'] (by simp [hd])).2.2.1 rfl
    have hR : ReplaceAll (joinSlash ds) "/".toList "-".toList = joinHyphen ds := by
      have : "/".toList ≠ [] := by decide
      simp only [ReplaceAll, this, if_false]
      exact (replaceScan_char '/' '-' _).trans (map_joinSlash ds (fun e he => (hds e he).2.1))
    have hJ := Join_dir_elem ds (joinHyphen ds ++ '-' :: b) hds (isElem_flat ds b hds hb)
    simp only [h, if_false, hdot] at hJ ⊢
    simp only [ne_eq, hne, not_false_eq_true, if_true, hR]
    rw [hJ, joinHyphen_append_singleton ds b h]

theorem resolvePath_parentRefs (k : Nat) (p : Str) :
    resolvePath false (parentRefs k ++ p) = resolvePath false p := by
  simp only [resolvePath, ToSlash, Separator, if_true, ReplaceAll_parentRefs,
    Bool.false_eq_true, if_false]

theorem resolvePath_flatInput (ds : List Str) (b : Str) (h : FlattenInput ds b) :
    resolvePath false (joinSlash (ds ++ [b])) =
      if ds = [] then b else joinSlash (ds ++ [joinHyphen (ds ++ [b])]) :=
  resolvePath_flat ds b h.1 h.2.1 h.2.2.1 h.2.2.2.1 h.2.2.2.2.1 h.2.2.2.2.2

theorem Base_resolvePath_flat (ds : List Str) (b : Str) (h : FlattenInput ds b) :
    Base (resolvePath false (joinSlash (ds ++ [b]))) = joinHyphen (ds ++ [b]) := by
  rw [resolvePath_flatInput ds b h]
  by_cases hd : ds = []
  · subst hd
    simp [joinHyphen_singleton, Base_of_not_mem b h.2.1.1 h.2.1.2.1]
  · have he := isElem_flat ds b h.1 h.2.1
    simp only [hd, if_false]
    rw [joinSlash_append_singleton ds _ hd, joinHyphen_append_singleton ds b hd,
      Base_append _ _ he.1 he.2.1]

/-! ## The flatten rule (C2, C4) -/

/-- C2: with keep-links off, for every `k` and every relative path `d1/.../dn/b` of
proper elements (non-empty, free of `/`, not `.` or `..`) that contains no `../`, does
not begin with `.gitbook/assets` and whose base name is neither `README.md` nor
`SUMMARY.md`, `resolvePath` applied to `k` copies of `../` followed by the path returns
`b` itself when `n = 0` and `d1/.../dn/d1-...-dn-b` when `n ≥ 1`. -/
theorem resolvePath_flatten (k : Nat) (ds : List Str) (b : Str) (h : FlattenInput ds b) :
    resolvePath false (parentRefs k ++ joinSlash (ds ++ [b])) =
      if ds = [] then b else joinSlash (ds ++ [joinHyphen (ds ++ [b])]) := by
  rw [resolvePath_parentRefs, resolvePath_flatInput ds b h]

/-- The two examples of C2: `responses/sub/other.md` and `../view/view.md`. -/
theorem resolvePath_flatten_witness :
    resolvePath false "responses/sub/other.md".toList
        = "responses/sub/responses-sub-other.md".toList ∧
      resolvePath false "../view/view.md".toList = "view/view-view.md".toList :=
  ⟨resolvePath_flatten 0 ["responses".toList, "sub".toList] "other.md".toList (by decide),
   resolvePath_flatten 1 ["view".toList] "view.md".toList (by decide)⟩

/-- C4 as stated fails: `a/b.md` and `a-b.md` are distinct inputs of the flatten rule
and both get the base name `a-b.md`. -/
theorem flatten_base_collision :
    ¬ ∀ (ds₁ ds₂ : List Str) (b₁ b₂ : Str), FlattenInput ds₁ b₁ → FlattenInput ds₂ b₂ →
        joinSlash (ds₁ ++ [b₁]) ≠ joinSlash (ds₂ ++ [b₂]) →
        Base (resolvePath false (joinSlash (ds₁ ++ [b₁])))
          ≠ Base (resolvePath false (joinSlash (ds₂ ++ [b₂]))) := by
  intro h
  exact h ["a".toList] [] "b.md".toList "a-b.md".toList (by decide) (by decide) (by decide)
    (by decide)

/-- C4, amended: with keep-links off, two distinct paths handled by the flatten rule
none of whose elements contains a hyphen get distinct base names. -/
theorem flatten_base_injective (ds₁ ds₂ : List Str) (b₁ b₂ : Str)
    (h₁ : FlattenInput ds₁ b₁) (h₂ : FlattenInput ds₂ b₂)
    (n₁ : ∀ e ∈ ds₁ ++ [b₁], '-' ∉ e) (n₂ : ∀ e ∈ ds₂ ++ [b₂], '-' ∉ e)
    (hne : joinSlash (ds₁ ++ [b₁]) ≠ joinSlash (ds₂ ++ [b₂])) :
    Base (resolvePath false (joinSlash (ds₁ ++ [b₁])))
      ≠ Base (resolvePath false (joinSlash (ds₂ ++ [b₂]))) := by
  rw [Base_resolvePath_flat ds₁ b₁ h₁, Base_resolvePath_flat ds₂ b₂ h₂]
  intro e
  have s₁ := List.splitOn_intercalate (ds₁ ++ [b₁]) '-' n₁ (by simp)
  have s₂ := List.splitOn_intercalate (ds₂ ++ [b₂]) '-' n₂ (by simp)
  have : ds₁ ++ [b₁] = ds₂ ++ [b₂] := by
    rw [← s₁, ← s₂]
    exact congrArg (List.splitOn '-') e
  exact hne (by rw [this])

/-- An instance of the amended C4: `a/b.md` and `a/c.md`. -/
theorem flatten_base_injective_witness :
    Base (resolvePath false "a/b.md".toList) ≠ Base (resolvePath false "a/c.md".toList) :=
  flatten_base_injective ["a".toList] ["a".toList] "b.md".toList "c.md".toList
    (by decide) (by decide) (by decide) (by decide) (by decide)

/-! ## `README.md` and `SUMMARY.md` (C5) -/

theorem parent_toList : "../".toList = ['.', '.', '/'] := by decide

theorem not_parent_infix_of_not_mem (b : Str) (h : '/' ∉ b) : ¬ "../".toList <:+: b := by
  intro hi
  exact h (hi.subset (by decide))

theorem not_parent_infix_cons (d R : Str) (hd : '/' ∉ d) (hs : ¬ "..".toList <:+ d)
    (hR : ¬ "../".toList <:+: R) : ¬ "../".toList <:+: d ++ '/' :: R := by
  induction d with
  | nil =>
    rw [List.nil_append, List.infix_cons_iff, parent_toList, List.cons_prefix_cons]
    rintro (⟨h, -⟩ | h)
    · exact absurd h (by decide)
    · exact hR (parent_toList ▸ h)
  | cons c d ih =>
    rw [List.cons_append, List.infix_cons_iff]
    rintro (h | h)
    · rw [parent_toList, List.cons_prefix_cons] at h
      obtain ⟨hc, h⟩ := h
      cases d with
      | nil =>
        rw [List.nil_append, List.cons_prefix_cons] at h
        exact absurd h.1 (by decide)
      | cons y d =>
        rw [List.cons_append, List.cons_prefix_cons] at h
        obtain ⟨hy, h⟩ := h
        cases d with
        | nil =>
          apply hs
          rw [← hc, ← hy]
          exact List.suffix_refl _
        | cons z d =>
          rw [List.cons_append, List.cons_prefix_cons] at h
          exact hd (by simp [← h.1])
    · exact ih (fun m => hd (by simp [m])) (fun s => hs (s.trans (List.suffix_cons c d))) h

theorem not_parent_infix_joinSlash (ds : List Str) (b : Str)
    (hds : ∀ e ∈ ds, '/' ∉ e ∧ ¬ "..".toList <:+ e) (hb : '/' ∉ b) :
    ¬ "../".toList <:+: joinSlash (ds ++ [b]) := by
  induction ds with
  | nil => simpa [joinSlash_singleton] using not_parent_infix_of_not_mem b hb
  | cons d ds ih =>
    have hd := hds d (by simp)
    have hR := ih (fun e he => hds e (by simp [he]))
    have : joinSlash (d :: ds ++ [b]) = d ++ '/' :: joinSlash (ds ++ [b]) := by
      cases ds with
      | nil => simp [joinSlash_cons_cons]
      | cons e es => simp [joinSlash_cons_cons]
    rw [this]
    exact not_parent_infix_cons d _ hd.1 hd.2 hR

/-- The renaming rule of `resolvePath` on `ds/b` when `b` is one of the two special
names and `c` is what it is renamed to. -/
theorem resolvePath_rename (ds : List Str) (b c : Str) (hds : ∀ e ∈ ds, IsElem e)
    (hb : IsElem b) (hc : IsElem c) (hdd : ¬ "../".toList <:+: joinSlash (ds ++ [b]))
    (h : b = "README.md".toList ∧ c = "Home.md".toList ∨
      b = "SUMMARY.md".toList ∧ c = "_Sidebar.md".toList) :
    resolvePath false (joinSlash (ds ++ [b])) = joinSlash (ds ++ [c]) := by
  obtain ⟨h1, h2, h3⟩ := path_parts ds b hds hb hdd
  have hT : ToSlash (joinSlash (ds ++ [b])) = joinSlash (ds ++ [b]) := by
    simp [ToSlash, Separator]
  have hJ := Join_dir_elem ds c hds hc
  unfold resolvePath
  simp only [hT, Bool.false_eq_true, if_false, h1, h2, h3]
  rcases h with ⟨hb', hc'⟩ | ⟨hb', hc'⟩
  · subst hb' hc'
    simpa using hJ
  · subst hb' hc'
    have : ¬ "SUMMARY.md".toList = "README.md".toList := by decide
    simpa [this] using hJ

/-- C5 as stated fails: the directory `a..` is a proper element, and
`a../README.md` resolves to `aREADME.md`. -/
theorem resolvePath_readme_parent_suffix :
    ¬ ∀ ds : List Str, (∀ e ∈ ds, IsElem e) →
        resolvePath false (joinSlash (ds ++ ["README.md".toList]))
            = joinSlash (ds ++ ["Home.md".toList]) ∧
          resolvePath false (joinSlash (ds ++ ["SUMMARY.md".toList]))
            = joinSlash (ds ++ ["_Sidebar.md".toList]) := by
  intro h
  exact absurd (h ["a..".toList] (by decide)).1 (by decide)

/-- C5, amended: with keep-links off, for every directory path `d` of proper elements
none of which ends in `..` (possibly empty), `resolvePath (d/README.md) = d/Home.md` and
`resolvePath (d/SUMMARY.md) = d/_Sidebar.md`. -/
theorem resolvePath_readme_summary (ds : List Str) (hds : ∀ e ∈ ds, IsElem e)
    (hs : ∀ e ∈ ds, ¬ "..".toList <:+ e) :
    resolvePath false (joinSlash (ds ++ ["README.md".toList]))
        = joinSlash (ds ++ ["Home.md".toList]) ∧
      resolvePath false (joinSlash (ds ++ ["SUMMARY.md".toList]))
        = joinSlash (ds ++ ["_Sidebar.md".toList]) := by
  have hp : ∀ b : Str, '/' ∉ b → ¬ "../".toList <:+: joinSlash (ds ++ [b]) := fun b hb =>
    not_parent_infix_joinSlash ds b (fun e he => ⟨(hds e he).2.1, hs e he⟩) hb
  exact ⟨resolvePath_rename ds _ _ hds (by decide) (by decide) (hp _ (by decide))
      (Or.inl ⟨rfl, rfl⟩),
    resolvePath_rename ds _ _ hds (by decide) (by decide) (hp _ (by decide))
      (Or.inr ⟨rfl, rfl⟩)⟩

/-- The root-level instances of C5 and one nested instance. -/
theorem resolvePath_readme_summary_witness :
    (resolvePath false "README.md".toList = "Home.md".toList ∧
      resolvePath false "SUMMARY.md".toList = "_Sidebar.md".toList) ∧
    (resolvePath false "a/b/README.md".toList = "a/b/Home.md".toList ∧
      resolvePath false "a/b/SUMMARY.md".toList = "a/b/_Sidebar.md".toList) :=
  ⟨resolvePath_readme_summary [] (by decide) (by decide),
   resolvePath_readme_summary ["a".toList, "b".toList] (by decide) (by decide)⟩

/-! ## Assets (C9, C10) -/

/-- C9 as stated fails: `ReplaceAll` also rewrites a second `.gitbook/assets` inside the
remainder, so the remainder is not preserved. -/
theorem resolvePath_assets_nested :
    ¬ ∀ r : Str, ¬ "../".toList <:+: ".gitbook/assets".toList ++ r →
        Base (".gitbook/assets".toList ++ r) ≠ "README.md".toList →
        Base (".gitbook/assets".toList ++ r) ≠ "SUMMARY.md".toList →
        resolvePath false (".gitbook/assets".toList ++ r) = "_assets".toList ++ r := by
  intro h
  exact absurd (h "/.gitbook/assets/a.png".toList (by decide) (by decide) (by decide))
    (by decide)

/-- C9, amended: with keep-links off, for every path `p = .gitbook/assets ++ r` that
contains no `../`, whose base name is neither `README.md` nor `SUMMARY.md`, and whose
remainder `r` contains no further `.gitbook/assets`, `resolvePath p = _assets ++ r`. -/
theorem resolvePath_assets (r : Str)
    (hdd : ¬ "../".toList <:+: ".gitbook/assets".toList ++ r)
    (hr : Base (".gitbook/assets".toList ++ r) ≠ "README.md".toList)
    (hs : Base (".gitbook/assets".toList ++ r) ≠ "SUMMARY.md".toList)
    (hn : ¬ ".gitbook/assets".toList <:+: r) :
    resolvePath false (".gitbook/assets".toList ++ r) = "_assets".toList ++ r := by
  have hT : ToSlash (".gitbook/assets".toList ++ r) = ".gitbook/assets".toList ++ r := by
    simp [ToSlash, Separator]
  have hP : HasPrefix (".gitbook/assets".toList ++ r) ".gitbook/assets".toList = true := by
    simp only [HasPrefix, List.isPrefixOf_iff_prefix]
    exact List.prefix_append _ _
  have hne : ".gitbook/assets".toList ≠ [] := by decide
  have hR : ReplaceAll (".gitbook/assets".toList ++ r) ".gitbook/assets".toList
      "_assets".toList = "_assets".toList ++ r := by
    simp only [ReplaceAll, hne, if_false]
    rw [replaceScan_append _ _ hne, replaceScan_of_absent _ _ r hn]
  unfold resolvePath
  simp only [hT, Bool.false_eq_true, if_false, ReplaceAll_of_absent _ _ _ hdd, hr, hs, hP,
    if_true, hR]

/-- The example of C9: `.gitbook/assets/image.png`. -/
theorem resolvePath_assets_witness :
    resolvePath false ".gitbook/assets/image.png".toList = "_assets/image.png".toList :=
  resolvePath_assets "/image.png".toList (by decide) (by decide) (by decide) (by decide)

theorem joinSlash_append (ws ns : List Str) (hw : ws ≠ []) (hn : ns ≠ []) :
    joinSlash (ws ++ ns) = joinSlash ws ++ '/' :: joinSlash ns := by
  induction ws with
  | nil => exact absurd rfl hw
  | cons w ws ih =>
    cases ws with
    | nil =>
      cases ns with
      | nil => exact absurd rfl hn
      | cons n ns => simp [joinSlash_cons_cons, joinSlash_singleton]
    | cons v vs =>
      have := ih (by simp)
      simp only [List.cons_append] at this ⊢
      rw [joinSlash_cons_cons, this, joinSlash_cons_cons]
      simp

/-- C10 as stated fails: with an empty wiki base `path.Join` yields the bare asset
path, without the leading slash of `wikiBase + "/" + path`. -/
theorem resolveLink_assets_empty_base :
    ¬ ∀ w p : Str, HasPrefix (resolvePath false p) "_assets/".toList = true →
        resolveLink false p w = w ++ '/' :: resolvePath false p := by
  intro h
  exact absurd (h [] "../.gitbook/assets/image.png".toList (by decide)) (by decide)

/-- C10, amended: with keep-links off, for every wiki base made of one or more proper
elements separated by single slashes, with or without one leading slash, and every path
`p` whose output path begins with `_assets` and is itself made of proper elements
separated by single slashes, `resolveLink p wikiBase = wikiBase + "/" + resolvePath p`. -/
theorem resolveLink_assets (rooted : Bool) (ws ns : List Str) (p : Str) (hws : ws ≠ [])
    (hw : ∀ e ∈ ws, IsElem e) (hn : ∀ e ∈ ns, IsElem e)
    (hp : resolvePath false p = joinSlash ns)
    (ha : HasPrefix (resolvePath false p) "_assets".toList = true) :
    resolveLink false p ((if rooted then ['/'] else []) ++ joinSlash ws) =
      ((if rooted then ['/'] else []) ++ joinSlash ws) ++ '/' :: resolvePath false p := by
  have hns : ns ≠ [] := by
    intro e
    rw [hp, e] at ha
    revert ha
    decide
  have hall : ∀ e ∈ ws ++ ns, IsElem e := by
    intro e he
    rcases List.mem_append.1 he with he | he
    · exact hw e he
    · exact hn e he
  have hwne := joinSlash_ne_nil ws hws hw
  have hJ : joinSlash [(if rooted then ['/'] else []) ++ joinSlash ws, joinSlash ns] =
      (if rooted then ['/'] else []) ++ joinSlash (ws ++ ns) := by
    rw [joinSlash_cons_cons, joinSlash_singleton, joinSlash_append ws ns hws hns]
    simp
  unfold resolveLink
  simp only [Bool.false_eq_true, if_false, ha, if_true]
  rw [hp]
  have hne : (if rooted then ['/'] else []) ++ joinSlash ws ≠ [] := by
    cases rooted <;> simp [hwne]
  simp only [Join, hne, if_false]
  rw [hJ, joinSlash_append ws ns hws hns]
  cases rooted
  · simp only [Bool.false_eq_true, if_false, List.nil_append]
    rw [← joinSlash_append ws ns hws hns, Clean_joinSlash _ (by simp [hws]) hall]
  · simp only [if_true, List.singleton_append, List.cons_append, List.nil_append]
    rw [← joinSlash_append ws ns hws hns, Clean_slash_joinSlash _ (by simp [hws]) hall]

/-- The example of C10: wiki base `/kataras/iris/wiki`. -/
theorem resolveLink_assets_witness :
    resolveLink false "../.gitbook/assets/image.png".toList "/kataras/iris/wiki".toList
      = "/kataras/iris/wiki/_assets/image.png".toList :=
  resolveLink_assets true ["kataras".toList, "iris".toList, "wiki".toList]
    ["_assets".toList, "image.png".toList] "../.gitbook/assets/image.png".toList
    (by decide) (by decide) (by decide) (by decide) (by decide)

/-! ## Link tokens of pages (C3) -/

theorem isElem_md (x v : Str) (hx : '/' ∉ x) (hv : '/' ∉ v) :
    IsElem (x ++ (v ++ markdownSuffix)) := by
  have hd : 'd' ∈ x ++ (v ++ markdownSuffix) := by simp [markdownSuffix]
  have hm : '/' ∉ markdownSuffix := by decide
  refine ⟨by simp [markdownSuffix], by simp [hx, hv, hm], ?_, ?_⟩
  · intro e
    rw [e] at hd
    revert hd
    decide
  · intro e
    rw [e] at hd
    revert hd
    decide

theorem lazyStarK_stop {α : Type} (p : Char → Bool) (k : Cont α) (s acc : Str)
    (caps : List Str) (r : α) (h : k acc s caps = some r) :
    lazyStarK p k s acc caps = some r := by
  cases s with
  | nil => simpa [lazyStarK] using h
  | cons c cs => simp [lazyStarK, h]

theorem lazyStarK_skip {α : Type} (p : Char → Bool) (k : Cont α) (caps : List Str) (s : Str) :
    ∀ (t acc : Str), (∀ c ∈ t, p c = true) →
      (∀ c ∈ t, ∀ a cs, k a (c :: cs) caps = none) →
      lazyStarK p k (t ++ s) acc caps = lazyStarK p k s (acc ++ t) caps := by
  intro t
  induction t with
  | nil => intro acc _ _; simp
  | cons c t ih =>
    intro acc hp hk
    have h1 := hk c (by simp) acc (t ++ s)
    have h2 := hp c (by simp)
    have h3 := ih (acc ++ [c]) (fun x hx => hp x (by simp [hx])) (fun x hx => hk x (by simp [hx]))
    simp only [List.cons_append, lazyStarK, List.append_eq, h1, h2, if_true, h3]
    simp

theorem greedyStarK_all {α : Type} (q : Char → Bool) (k : Cont α) (caps : List Str)
    (rest : Str) (r : α) (hrest : ∀ c cs, rest = c :: cs → q c = false) :
    ∀ (p acc : Str), (∀ c ∈ p, q c = true) → k (acc ++ p) rest caps = some r →
      greedyStarK q k (p ++ rest) acc caps = some r := by
  intro p
  induction p with
  | nil =>
    intro acc _ h
    cases rest with
    | nil => simpa [greedyStarK] using h
    | cons c cs =>
      have := hrest c cs rfl
      simpa [greedyStarK, this] using h
  | cons x p ih =>
    intro acc hq h
    have hx := hq x (by simp)
    have := ih (acc ++ [x]) (fun c hc => hq c (by simp [hc])) (by simpa using h)
    simp only [List.cons_append, greedyStarK, List.append_eq, hx, if_true, this]

theorem run_seq {α : Type} (a b : Regex) (k : Cont α) : (Regex.seq a b).run k = a.run (b.run k) :=
  rfl

theorem run_lit {α : Type} (k : Cont α) (s : Str) (caps : List Str) :
    ∀ (l acc : Str), (Regex.lit l).run k acc (l ++ s) caps = k (acc ++ l) s caps := by
  intro l
  induction l with
  | nil => intro acc; simp [Regex.lit, Regex.run]
  | cons c l ih =>
    intro acc
    simp only [Regex.lit, Regex.run, chrK, List.cons_append, beq_self_eq_true, if_true]
    rw [ih]
    simp

theorem run_lit_cons_ne {α : Type} (k : Cont α) (c d : Char) (l acc cs : Str)
    (caps : List Str) (h : d ≠ c) : (Regex.lit (c :: l)).run k acc (d :: cs) caps = none := by
  have : (d == c) = false := by simp [h]
  simp [Regex.lit, Regex.run, chrK, this]

theorem run_lit_nil_input {α : Type} (k : Cont α) (c : Char) (l acc : Str) (caps : List Str) :
    (Regex.lit (c :: l)).run k acc [] caps = none := by
  simp [Regex.lit, Regex.run, chrK]

/-- A group `(x*?)` stops at the first place from which the rest of the pattern matches. -/
theorem run_group_lazy {α : Type} (p : Char → Bool) (k : Cont α) (t s acc : Str)
    (caps : List Str) (r : α) (hp : ∀ c ∈ t, p c = true)
    (hk : ∀ c ∈ t, ∀ a cs cp, k a (c :: cs) cp = none)
    (h : k (acc ++ t) s (caps ++ [t]) = some r) :
    (Regex.group (Regex.lazyStar p)).run k acc (t ++ s) caps = some r := by
  simp only [Regex.run]
  rw [lazyStarK_skip p (fun acc' rest caps' => k (acc ++ acc') rest (caps' ++ [acc'])) caps s t []
    hp (fun c hc a cs => hk c hc _ cs _)]
  exact lazyStarK_stop _ _ _ _ _ _ (by simpa using h)

/-- A group `(x+)` takes the longest run of the class when the rest of the pattern
matches after it. -/
theorem run_group_plus {α : Type} (q : Char → Bool) (k : Cont α) (x : Char) (p rest acc : Str)
    (caps : List Str) (r : α) (hx : q x = true) (hq : ∀ c ∈ p, q c = true)
    (hrest : ∀ c cs, rest = c :: cs → q c = false)
    (h : k (acc ++ x :: p) rest (caps ++ [x :: p]) = some r) :
    (Regex.group (Regex.plus q)).run k acc (x :: p ++ rest) caps = some r := by
  simp only [Regex.run, chrK, List.cons_append, hx, if_true, List.nil_append]
  exact greedyStarK_all q _ caps rest r hrest p [x] hq (by simpa using h)

theorem findAllScan_skip (re : Regex) :
    ∀ (s : Str) (k : Nat), s.length ≤ k → findAllScan re k s = [] := by
  intro s
  induction s with
  | nil => intro k _; cases k <;> rfl
  | cons c cs ih =>
    intro k hk
    cases k with
    | zero => simp at hk
    | succ k => simpa [findAllScan] using ih k (by simpa using hk)

/-- The pattern of links on a text that begins with `[t](p)`: the whole link is matched,
with the groups `t` and `p`. -/
theorem matchAt_link (t p rest : Str) (ht : ∀ c ∈ t, c ≠ ']' ∧ c ≠ '\n') (hp : p ≠ [])
    (hpp : ∀ c ∈ p, c ≠ '(' ∧ c ≠ ')') :
    matchAt unescapeLinksRegex ('[' :: t ++ ']' :: '(' :: p ++ ')' :: rest)
      = some ['[' :: t ++ ']' :: '(' :: p ++ [')'], t, p] := by
  cases p with
  | nil => exact absurd rfl hp
  | cons x p =>
    have hx := hpp x (by simp)
    have hxq : notParen x = true := by simp [notParen, hx.1, hx.2]
    have hq : ∀ c ∈ p, notParen c = true := by
      intro c hc
      have := hpp c (by simp [hc])
      simp [notParen, this.1, this.2]
    have hd : ∀ c ∈ t, dot c = true := by
      intro c hc
      simp [dot, (ht c hc).2]
    have e1 : '[' :: t ++ ']' :: '(' :: (x :: p) ++ ')' :: rest
        = "[".toList ++ (t ++ ("](".toList ++ (x :: p ++ (")".toList ++ rest)))) := by
      simp
    simp only [matchAt, unescapeLinksRegex, run_seq]
    rw [e1, run_lit]
    apply run_group_lazy dot _ t _ _ _ _ hd
    · intro c hc a cs cp
      exact run_lit_cons_ne _ _ _ _ _ _ _ (ht c hc).1
    · rw [run_lit]
      apply run_group_plus notParen _ x p _ _ _ _ hxq hq
      · intro c cs h
        have : c = ')' := by
          have := congrArg List.head? h
          simpa using this.symm
        subst this
        rfl
      · rw [run_lit]
        simp

/-! ## Link unescaping on a line that is one link (C1, C8) -/

theorem FindAllSubmatch_link (t p : Str) (ht : ∀ c ∈ t, c ≠ ']' ∧ c ≠ '\n') (hp : p ≠ [])
    (hpp : ∀ c ∈ p, c ≠ '(' ∧ c ≠ ')') :
    FindAllSubmatch unescapeLinksRegex (mdLink t p) = [[mdLink t p, t, p]] := by
  have hm := matchAt_link t p [] ht hp hpp
  have e : mdLink t p = '[' :: (t ++ ']' :: '(' :: p ++ [')']) := by simp [mdLink]
  have e2 : '[' :: t ++ ']' :: '(' :: p ++ [')'] = '[' :: (t ++ ']' :: '(' :: p ++ [')']) := by
    simp
  rw [e2] at hm
  simp only [FindAllSubmatch]
  rw [e]
  simp only [findAllScan, hm]
  rw [findAllScan_skip _ _ _ (by simp)]

theorem ReplaceFirst_self (s new : Str) (h : s ≠ []) : ReplaceFirst s s new = new := by
  cases s with
  | nil => exact absurd rfl h
  | cons c cs =>
    have : (c :: cs).isPrefixOf (c :: cs) = true := List.isPrefixOf_iff_prefix.2 (List.prefix_refl _)
    simp [ReplaceFirst, replaceFirstScan, this]

theorem replaceFirstScan_paren (old new : Str) (hne : old ≠ []) (ho : '(' ∉ old) (B : Str) :
    ∀ A : Str, ¬ old <:+: A →
      replaceFirstScan old new (A ++ '(' :: B) = A ++ '(' :: replaceFirstScan old new B := by
  intro A
  induction A with
  | nil =>
    intro _
    cases old with
    | nil => exact absurd rfl hne
    | cons o os =>
      have hoc : o ≠ '(' := fun e => ho (by simp [e])
      have hpre : (o :: os).isPrefixOf ('(' :: B) = false := by
        simp [List.isPrefixOf, hoc]
      simp [replaceFirstScan, hpre]
  | cons a A ih =>
    intro hA
    have hpre : old.isPrefixOf (a :: A ++ '(' :: B) = false := by
      cases h : old.isPrefixOf (a :: A ++ '(' :: B) with
      | false => rfl
      | true =>
        exfalso
        have h1 := List.isPrefixOf_iff_prefix.1 h
        have h2 : (a :: A) ++ ['('] <+: a :: A ++ '(' :: B := ⟨B, by simp⟩
        have h3 : (a :: A) <+: a :: A ++ '(' :: B := ⟨'(' :: B, by simp⟩
        by_cases hl : old.length ≤ (a :: A).length
        · exact hA (List.prefix_of_prefix_length_le h1 h3 hl).isInfix
        · have := List.prefix_of_prefix_length_le h2 h1 (by simp at hl ⊢; omega)
          exact ho (this.subset (by simp))
    have hA' : ¬ old <:+: A := fun h => hA (h.trans (List.infix_cons (List.infix_refl A)))
    have := ih hA'
    simp only [List.cons_append] at hpre ⊢
    simp only [replaceFirstScan, hpre, this, Bool.false_eq_true, if_false]

/-- C1 as stated fails: a page target that starts with `http` but with no HTTP scheme
is left untouched. -/
theorem unescapeLinks_http_page :
    ¬ ∀ w t p : Str, t ≠ [] → (∀ c ∈ t, c ≠ '[' ∧ c ≠ ']' ∧ c ≠ '\n') →
        HasSuffix p markdownSuffix = true → (∀ c ∈ p, c ≠ '(' ∧ c ≠ ')') →
        HasPrefix p "http://".toList = false → HasPrefix p "https://".toList = false →
        unescapeLinks false w (mdLink t p) = (wikiLink t (resolveLink false p w), none) := by
  intro h
  exact absurd (h "/kataras/iris/wiki".toList "Guide".toList "http-guide.md".toList (by decide)
    (by decide) (by decide) (by decide) (by decide) (by decide)) (by decide)

/-- C1, amended: with keep-links off, for every non-empty title `t` without `[`, `]`
(and, being part of a line, without newline) and every target `p` that ends in `.md`,
contains no parenthesis and does not start with `http`, `unescapeLinks` applied to the
line `[t](p)` succeeds and returns exactly `[[t|k]]` with `k = resolveLink p wikiBase`. -/
theorem unescapeLinks_page (w t p : Str) (ht0 : t ≠ [])
    (ht : ∀ c ∈ t, c ≠ '[' ∧ c ≠ ']' ∧ c ≠ '\n')
    (hmd : HasSuffix p markdownSuffix = true) (hpp : ∀ c ∈ p, c ≠ '(' ∧ c ≠ ')')
    (hh : HasPrefix p httpPrefix = false) :
    unescapeLinks false w (mdLink t p) = (wikiLink t (resolveLink false p w), none) := by
  have hp : p ≠ [] := by
    intro e
    rw [e] at hmd
    revert hmd
    decide
  have hl : t.length ≠ 0 := by simpa using ht0
  have hne : mdLink t p ≠ [] := by simp [mdLink]
  simp only [unescapeLinks, Bool.false_eq_true, if_false,
    FindAllSubmatch_link t p (fun c hc => ⟨(ht c hc).2.1, (ht c hc).2.2⟩) hp hpp, linksLoop,
    List.getD_cons_succ, List.getD_cons_zero, hh, hmd, Bool.not_true, hl,
    ReplaceFirst_self _ _ hne, wikiLink]

/-- An instance of the amended C1: `[JSON](responses/json.md)`. -/
theorem unescapeLinks_page_witness :
    unescapeLinks false "/kataras/iris/wiki".toList "[JSON](responses/json.md)".toList
      = ("[[JSON|responses-json]]".toList, none) :=
  unescapeLinks_page "/kataras/iris/wiki".toList "JSON".toList "responses/json.md".toList
    (by decide) (by decide) (by decide) (by decide) (by decide)

/-- C8 as stated fails: the first occurrence of the target text is replaced, and in
`[d/a.png](d/a.png)` that is the title. -/
theorem unescapeLinks_asset_in_title :
    ¬ ∀ w t p : Str, (∀ c ∈ t, c ≠ '[' ∧ c ≠ ']' ∧ c ≠ '\n') → p ≠ [] →
        HasSuffix p markdownSuffix = false → (∀ c ∈ p, c ≠ '(' ∧ c ≠ ')') →
        HasPrefix p httpPrefix = false →
        unescapeLinks false w (mdLink t p) = (mdLink t (resolveLink false p w), none) := by
  intro h
  exact absurd (h "/kataras/iris/wiki".toList "d/a.png".toList "d/a.png".toList (by decide)
    (by decide) (by decide) (by decide) (by decide)) (by decide)

/-- C8, amended: with keep-links off, for every title `t` without `[`, `]` (and without
newline) and every non-empty target `p` that does not end in `.md`, contains no
parenthesis, does not start with `http` and does not occur in `[t]`, `unescapeLinks`
applied to the line `[t](p)` returns `[t](k)` with `k = resolveLink p wikiBase`. -/
theorem unescapeLinks_asset (w t p : Str) (ht : ∀ c ∈ t, c ≠ '[' ∧ c ≠ ']' ∧ c ≠ '\n')
    (hp : p ≠ []) (hmd : HasSuffix p markdownSuffix = false)
    (hpp : ∀ c ∈ p, c ≠ '(' ∧ c ≠ ')') (hh : HasPrefix p httpPrefix = false)
    (hocc : ¬ p <:+: '[' :: t ++ [']']) :
    unescapeLinks false w (mdLink t p) = (mdLink t (resolveLink false p w), none) := by
  have hR : ReplaceFirst (mdLink t p) p (resolveLink false p w)
      = mdLink t (resolveLink false p w) := by
    have e : mdLink t p = ('[' :: t ++ [']']) ++ '(' :: (p ++ [')']) := by simp [mdLink]
    have hpre : replaceFirstScan p (resolveLink false p w) (p ++ [')'])
        = resolveLink false p w ++ [')'] := by
      cases p with
      | nil => exact absurd rfl hp
      | cons x p =>
        have : (x :: p).isPrefixOf (x :: (p ++ [')'])) = true :=
          List.isPrefixOf_iff_prefix.2 ⟨[')'], by simp⟩
        simp only [List.cons_append, replaceFirstScan, this, if_true]
        simp
    simp only [ReplaceFirst, hp, if_false]
    rw [e, replaceFirstScan_paren p _ hp (fun h => (hpp _ h).1 rfl) _ _ hocc, hpre]
    simp [mdLink]
  simp only [unescapeLinks, Bool.false_eq_true, if_false,
    FindAllSubmatch_link t p (fun c hc => ⟨(ht c hc).2.1, (ht c hc).2.2⟩) hp hpp, linksLoop,
    List.getD_cons_succ, List.getD_cons_zero, hh, hmd, Bool.not_false, if_true, hR]

/-- An instance of the amended C8: an image below `.gitbook/assets`. -/
theorem unescapeLinks_asset_witness :
    unescapeLinks false "/kataras/iris/wiki".toList
        "[logo](../.gitbook/assets/image.png)".toList
      = ("[logo](/kataras/iris/wiki/_assets/image.png)".toList, none) :=
  unescapeLinks_asset "/kataras/iris/wiki".toList "logo".toList
    "../.gitbook/assets/image.png".toList (by decide) (by decide) (by decide) (by decide)
    (by decide) (by decide)

/-! ## The line reader -/

theorem bufSize_ge : 2 ≤ defaultBufSize := by decide

theorem takeWhile_line (l x : Str) (hl : '\n' ∉ l) :
    (l ++ '\n' :: x).takeWhile (fun c => decide (c ≠ '\n')) = l := by
  rw [List.takeWhile_append_of_pos]
  · simp
  · intro a ha
    simp only [ne_eq, decide_not, Bool.not_eq_true', decide_eq_false_iff_not]
    intro e
    exact hl (e ▸ ha)

theorem takeWhile_no_newline (l : Str) (hl : '\n' ∉ l) :
    l.takeWhile (fun c => decide (c ≠ '\n')) = l := by
  rw [List.takeWhile_eq_self_iff]
  intro a ha
  simp only [ne_eq, decide_not, Bool.not_eq_true', decide_eq_false_iff_not]
  intro e
  exact hl (e ▸ ha)

/-- `ReadLine` on a line that ends within the buffer. -/
theorem ReadLine_short (l rest : Str) (hl : '\n' ∉ l) (hlen : l.length < defaultBufSize) :
    ReadLine (l ++ '\n' :: rest) = some (chomp l, false, rest) := by
  have hne : l ++ '\n' :: rest ≠ [] := by simp
  obtain ⟨X, hbuf⟩ : ∃ X, (l ++ '\n' :: rest).take defaultBufSize = l ++ '\n' :: X := by
    obtain ⟨m, hm⟩ : ∃ m, defaultBufSize - l.length = m + 1 := ⟨defaultBufSize - l.length - 1, by omega⟩
    exact ⟨rest.take m, by
      rw [List.take_append_eq_append_take, List.take_of_length_le (Nat.le_of_lt hlen), hm,
        List.take_succ_cons]⟩
  have hdrop : (l ++ '\n' :: rest).drop (l.length + 1) = rest := by
    have : l ++ '\n' :: rest = (l ++ ['\n']) ++ rest := by simp
    rw [this]
    have hl' : (l ++ ['\n']).length = l.length + 1 := by simp
    rw [← hl', List.drop_left]
  unfold ReadLine
  simp only [hne, if_false, hbuf, takeWhile_line l _ hl, hdrop]
  have : l.length < (l ++ '\n' :: X).length := by
    simp
  simp only [this, if_true, chomp]
  split <;> rfl

/-- `ReadLine` on a full buffer without newline: a fragment. -/
theorem ReadLine_full (X Z : Str) (hX : '\n' ∉ X) (hlen : X.length = defaultBufSize) :
    ReadLine (X ++ Z) =
      if X.getLast? = some '\r' then some (X.dropLast, true, '\r' :: Z)
      else some (X, true, Z) := by
  have hXne : X ≠ [] := by
    intro e
    rw [e] at hlen
    exact absurd hlen (by decide)
  have hne : X ++ Z ≠ [] := by simp [hXne]
  have hbuf : (X ++ Z).take defaultBufSize = X := by
    rw [← hlen, List.take_left]
  have hd1 : (X ++ Z).drop defaultBufSize = Z := by
    rw [← hlen, List.drop_left]
  unfold ReadLine
  simp only [hne, if_false, hbuf, takeWhile_no_newline X hX, Nat.lt_irrefl, hlen,
    Nat.le_refl, if_true, hd1]
  by_cases hcr : X.getLast? = some '\r'
  · simp only [hcr, if_true]
    obtain ⟨Y, hY⟩ := List.getLast?_eq_some_iff.1 hcr
    have hYl : Y.length = defaultBufSize - 1 := by
      have := congrArg List.length hY
      simp at this
      omega
    have : (X ++ Z).drop (defaultBufSize - 1) = '\r' :: Z := by
      rw [hY, ← hYl]
      have : Y ++ ['\r'] ++ Z = Y ++ ('\r' :: Z) := by simp
      rw [this, List.drop_left]
    rw [this]
  · simp only [hcr, if_false]

theorem chomp_append (a l : Str) (h : l ≠ []) : chomp (a ++ l) = a ++ chomp l := by
  have h1 : (a ++ l).getLast? = l.getLast? := by
    rw [List.getLast?_append]
    cases hl : l.getLast? with
    | none => exact absurd (List.getLast?_eq_none_iff.1 hl) h
    | some x => rfl
  simp only [chomp, h1]
  split
  · exact List.dropLast_append_of_ne_nil _ h
  · rfl

/-- The loop of `readLine` on a terminated line: the fragments are merged into the line,
whatever its length. -/
theorem readLineLoop_line (rest : Str) :
    ∀ (fuel : Nat) (l acc : Str), l.length < fuel → '\n' ∉ l →
      readLineLoop fuel (l ++ '\n' :: rest) acc = some (some (acc ++ chomp l, rest)) := by
  intro fuel
  induction fuel with
  | zero => intro l acc h; exact absurd h (Nat.not_lt_zero _)
  | succ fuel ih =>
    intro l acc hlen hl
    by_cases hs : l.length < defaultBufSize
    · simp only [readLineLoop, ReadLine_short l rest hl hs]
      split <;> simp_all
    · have hge : defaultBufSize ≤ l.length := Nat.le_of_not_lt hs
      have hsplit : l = l.take defaultBufSize ++ l.drop defaultBufSize :=
        (List.take_append_drop _ _).symm
      have hXl : (l.take defaultBufSize).length = defaultBufSize := by
        simp [List.length_take, hge]
      have hX : '\n' ∉ l.take defaultBufSize := fun h => hl (List.mem_of_mem_take h)
      have hY : '\n' ∉ l.drop defaultBufSize := fun h => hl (List.mem_of_mem_drop h)
      have hYl : (l.drop defaultBufSize).length = l.length - defaultBufSize := by simp
      have e : l ++ '\n' :: rest
          = l.take defaultBufSize ++ (l.drop defaultBufSize ++ '\n' :: rest) := by
        rw [← List.append_assoc, ← hsplit]
      have h2 := bufSize_ge
      rw [e]
      simp only [readLineLoop, ReadLine_full _ _ hX hXl]
      by_cases hcr : (l.take defaultBufSize).getLast? = some '\r'
      · simp only [hcr, if_true]
        obtain ⟨Y, hYe⟩ := List.getLast?_eq_some_iff.1 hcr
        have hYlen : Y.length + 1 = defaultBufSize := by
          have := congrArg List.length hYe
          simp at this
          omega
        have e2 : '\r' :: (l.drop defaultBufSize ++ '\n' :: rest)
            = ('\r' :: l.drop defaultBufSize) ++ '\n' :: rest := by simp
        rw [e2, ih ('\r' :: l.drop defaultBufSize) _ (by simp; omega)
          (by simp [hY])]
        have : chomp l = Y ++ chomp ('\r' :: l.drop defaultBufSize) := by
          have : l = Y ++ ('\r' :: l.drop defaultBufSize) := by
            conv_lhs => rw [hsplit, hYe]
            simp
          conv_lhs => rw [this]
          exact chomp_append _ _ (by simp)
        rw [this, hYe]
        simp
      · simp only [hcr, if_false]
        rw [ih (l.drop defaultBufSize) _ (by omega) hY]
        have : chomp l = l.take defaultBufSize ++ chomp (l.drop defaultBufSize) := by
          by_cases hd : l.drop defaultBufSize = []
          · have hl' : l = l.take defaultBufSize := by
              conv_lhs => rw [hsplit, hd]
              simp
            rw [hd]
            have : chomp l = l := by
              rw [hl'] 
              simp only [chomp, hcr, if_false]
            rw [this]
            simpa [chomp] using hl'
          · conv_lhs => rw [hsplit]
            exact chomp_append _ _ hd
        rw [this]
        simp

/-- The method `readLine` on a terminated line returns the line and advances past it. -/
theorem readLine_line (l rest prev : Str) (hl : '\n' ∉ l) :
    parser.readLine ⟨l ++ '\n' :: rest, prev⟩ = some (some (chomp l, ⟨rest, prev⟩)) := by
  simp only [parser.readLine]
  rw [readLineLoop_line rest _ l [] (by simp; omega) hl]
  simp

theorem readLine_nil (prev : Str) : parser.readLine ⟨[], prev⟩ = some none := by
  simp [parser.readLine, readLineLoop, ReadLine]

/-! ## Progress and totality of the pipeline -/

theorem ReadLine_progress (rd l rest : Str) (b : Bool) (h : ReadLine rd = some (l, b, rest)) :
    rest.length < rd.length := by
  have h2 := bufSize_ge
  unfold ReadLine at h
  by_cases hne : rd = []
  · simp [hne] at h
  · have hpos : 0 < rd.length := List.length_pos.2 hne
    simp only [hne, if_false] at h
    split at h
    · split at h
      · simp only [Option.some.injEq, Prod.mk.injEq] at h
        rw [← h.2.2, List.length_drop]
        omega
      · simp only [Option.some.injEq, Prod.mk.injEq] at h
        rw [← h.2.2, List.length_drop]
        omega
    · split at h
      · split at h
        · simp only [Option.some.injEq, Prod.mk.injEq] at h
          rw [← h.2.2, List.length_drop]
          omega
        · simp only [Option.some.injEq, Prod.mk.injEq] at h
          rw [← h.2.2, List.length_drop]
          omega
      · simp only [Option.some.injEq, Prod.mk.injEq] at h
        rw [← h.2.2]
        simpa using hpos

theorem readLineLoop_total :
    ∀ (fuel : Nat) (rd acc : Str), rd.length < fuel →
      ∃ r, readLineLoop fuel rd acc = some r ∧
        ∀ l rest, r = some (l, rest) → rest.length < rd.length := by
  intro fuel
  induction fuel with
  | zero => intro rd acc h; exact absurd h (Nat.not_lt_zero _)
  | succ fuel ih =>
    intro rd acc hlen
    cases hr : ReadLine rd with
    | none => exact ⟨none, by simp [readLineLoop, hr], by intro l rest h; cases h⟩
    | some x =>
      obtain ⟨line, b, rd'⟩ := x
      have hp := ReadLine_progress rd line rd' b hr
      cases b with
      | true =>
        obtain ⟨r, h1, h2⟩ := ih rd' (acc ++ line) (by omega)
        refine ⟨r, by simp [readLineLoop, hr, h1], ?_⟩
        intro l rest e
        exact Nat.lt_trans (h2 l rest e) hp
      | false =>
        refine ⟨some (if 0 < acc.length then acc ++ line else line, rd'),
          by simp [readLineLoop, hr], ?_⟩
        intro l rest e
        simp only [Option.some.injEq, Prod.mk.injEq] at e
        rw [← e.2]
        exact hp

theorem readLine_total (p : parser) :
    ∃ r, p.readLine = some r ∧
      ∀ l p', r = some (l, p') → p'.rd.length < p.rd.length ∧ p'.prevLine = p.prevLine := by
  obtain ⟨r, h1, h2⟩ := readLineLoop_total (p.rd.length + 1) p.rd [] (Nat.lt_succ_self _)
  refine ⟨r.map fun x => (x.1, { p with rd := x.2 }), by simp [parser.readLine, h1], ?_⟩
  intro l p' e
  cases r with
  | none => simp at e
  | some x =>
    simp only [Option.map_some', Option.some.injEq, Prod.mk.injEq] at e
    rw [← e.2]
    exact ⟨h2 x.1 x.2 rfl, rfl⟩

theorem skipNextEmptyLine_total (p : parser) :
    ∃ b p', p.skipNextEmptyLine = some (b, p') ∧ p'.rd.length ≤ p.rd.length ∧
      p'.prevLine = p.prevLine := by
  obtain ⟨r, h1, h2⟩ := readLine_total p
  unfold parser.skipNextEmptyLine
  split
  · split
    · rw [h1]
      cases r with
      | none => exact ⟨true, p, rfl, Nat.le_refl _, rfl⟩
      | some x =>
        obtain ⟨l, p'⟩ := x
        have := h2 l p' rfl
        exact ⟨true, p', rfl, Nat.le_of_lt this.1, this.2⟩
    · exact ⟨false, p, rfl, Nat.le_refl _, rfl⟩
  · exact ⟨false, p, rfl, Nat.le_refl _, rfl⟩

theorem tame_pure (f : Str → Str × Option Err) : Tame (pureReplacer f) :=
  fun p line => ⟨f line, p, rfl, Nat.le_refl _⟩

theorem tame_tocEntry (filename : Str) : Tame (tocEntry filename) := by
  intro p line
  obtain ⟨b, p', h1, h2, _⟩ := skipNextEmptyLine_total p
  unfold tocEntry
  split
  · exact ⟨_, p, rfl, Nat.le_refl _⟩
  · simp only
    split
    · exact ⟨_, p, rfl, Nat.le_refl _⟩
    · split
      · exact ⟨_, p, rfl, Nat.le_refl _⟩
      · rw [h1]
        exact ⟨_, p', rfl, h2⟩

theorem tame_lineReplacers (U : Unicode) (keepLinks : Bool) (wikiRepo filename : Str) :
    ∀ r ∈ lineReplacers U keepLinks wikiRepo filename, Tame r := by
  intro r hr
  simp only [lineReplacers, List.mem_cons, List.mem_singleton, List.not_mem_nil, or_false] at hr
  rcases hr with h | h | h | h <;> subst h
  · exact tame_tocEntry filename
  · exact tame_pure _
  · exact tame_pure _
  · exact tame_pure _

theorem replaceLoop_total :
    ∀ (rs : List simpleLineReplacer), (∀ r ∈ rs, Tame r) → ∀ (p : parser) (line : Str)
      (err : Option Err), ∃ e, replaceLoop rs p line err = some e ∧
        ∀ l er p', e = LoopEnd.done l er p' → p'.rd.length ≤ p.rd.length := by
  intro rs
  induction rs with
  | nil =>
    intro _ p line err
    refine ⟨_, rfl, ?_⟩
    intro l er p' e
    cases e
    exact Nat.le_refl _
  | cons r rs ih =>
    intro hr p line err
    obtain ⟨res, p1, h1, h2⟩ := hr r (by simp) p line
    have ih' := ih (fun x hx => hr x (by simp [hx])) p1
    obtain ⟨l1, e1⟩ := res
    cases e1 with
    | none =>
      obtain ⟨e, h3, h4⟩ := ih' l1 none
      refine ⟨e, by simp [replaceLoop, h1, h3], ?_⟩
      intro l er p' he
      exact Nat.le_trans (h4 l er p' he) h2
    | some er1 =>
      cases er1 with
      | notResponsible =>
        obtain ⟨e, h3, h4⟩ := ih' l1 (some Err.notResponsible)
        refine ⟨e, by simp [replaceLoop, h1, h3], ?_⟩
        intro l er p' he
        exact Nat.le_trans (h4 l er p' he) h2
      | skipLine =>
        refine ⟨LoopEnd.done l1 (some Err.skipLine) p1, by simp [replaceLoop, h1], ?_⟩
        intro l er p' he
        cases he
        exact h2
      | titleMissing s =>
        refine ⟨LoopEnd.returned (Err.titleMissing s), by simp [replaceLoop, h1], ?_⟩
        intro l er p' he
        cases he

theorem snippetLoop_total :
    ∀ (fuel : Nat) (p : parser) (out : Str), p.rd.length < fuel →
      ∃ p' out', snippetLoop fuel p out = some (p', out') ∧ p'.rd.length ≤ p.rd.length := by
  intro fuel
  induction fuel with
  | zero => intro p out h; exact absurd h (Nat.not_lt_zero _)
  | succ fuel ih =>
    intro p out hlen
    obtain ⟨r, h1, h2⟩ := readLine_total p
    cases r with
    | none => exact ⟨p, out, by simp [snippetLoop, h1], Nat.le_refl _⟩
    | some x =>
      obtain ⟨line, p1⟩ := x
      have hp := (h2 line p1 rfl).1
      by_cases hc : line = codeSnippet
      · exact ⟨{ p1 with prevLine := [] }, out ++ line ++ newLine,
          by simp only [snippetLoop, h1, hc, if_true], Nat.le_of_lt hp⟩
      · obtain ⟨p', out', h3, h4⟩ := ih p1 (out ++ line ++ newLine) (by omega)
        exact ⟨p', out', by simp only [snippetLoop, h1, hc, if_false, h3], by omega⟩

/-- The outer loop of `parse` returns whenever its budget exceeds the unread input. -/
theorem parseLoop_total (U : Unicode) (keepLinks : Bool) (wikiRepo filename : Str) :
    ∀ (fuel : Nat) (p : parser) (out : Str), p.rd.length < fuel →
      ∃ r, parseLoop U keepLinks wikiRepo filename fuel p out = some r := by
  intro fuel
  induction fuel with
  | zero => intro p out h; exact absurd h (Nat.not_lt_zero _)
  | succ fuel ih =>
    intro p out hlen
    obtain ⟨r, h1, h2⟩ := readLine_total p
    cases r with
    | none => exact ⟨(out, none), by simp [parseLoop, h1]⟩
    | some x =>
      obtain ⟨line, p1⟩ := x
      have hp := (h2 line p1 rfl).1
      by_cases hc : HasPrefix line codeSnippet = true
      · obtain ⟨p2, out2, h3, h4⟩ := snippetLoop_total fuel p1 (out ++ line ++ newLine) (by omega)
        obtain ⟨r, h5⟩ := ih p2 out2 (by omega)
        exact ⟨r, by simp only [parseLoop, h1, hc, if_true, h3, h5]⟩
      · obtain ⟨e, h3, h4⟩ := replaceLoop_total _
          (tame_lineReplacers U keepLinks wikiRepo filename) p1 line none
        cases e with
        | returned err => exact ⟨(out, some err), by simp [parseLoop, h1, hc, h3]⟩
        | done l er p2 =>
          have hp2 := h4 l er p2 rfl
          by_cases hs : er = some Err.skipLine
          · obtain ⟨r, h5⟩ := ih p2 out (by omega)
            exact ⟨r, by simp [parseLoop, h1, hc, h3, hs, h5]⟩
          · obtain ⟨r, h5⟩ := ih { p2 with prevLine := l }
              ((if 0 < l.length then
                (if l.head? = some '>' ∧ 0 < p2.prevLine.length ∧ p2.prevLine.head? = some '>'
                  then out ++ newLine else out) ++ l
              else out) ++ newLine) (by simp; omega)
            exact ⟨r, by simp only [parseLoop, h1, hc, h3, hs, if_false]; exact h5⟩

theorem snippetLoop_fuel :
    ∀ (f1 f2 : Nat) (p : parser) (out : Str), p.rd.length < f1 → p.rd.length < f2 →
      snippetLoop f1 p out = snippetLoop f2 p out := by
  intro f1
  induction f1 with
  | zero => intro f2 p out h; exact absurd h (Nat.not_lt_zero _)
  | succ a ih =>
    intro f2 p out h1 h2
    cases f2 with
    | zero => exact absurd h2 (Nat.not_lt_zero _)
    | succ b =>
      obtain ⟨r, hr, hp⟩ := readLine_total p
      cases r with
      | none => simp only [snippetLoop, hr]
      | some x =>
        obtain ⟨line, p1⟩ := x
        have := (hp line p1 rfl).1
        simp only [snippetLoop, hr]
        split
        · rfl
        · exact ih b p1 _ (by omega) (by omega)

/-- The result of the outer loop does not depend on the budget, once it exceeds the
unread input. -/
theorem parseLoop_fuel (U : Unicode) (keepLinks : Bool) (wikiRepo filename : Str) :
    ∀ (f1 f2 : Nat) (p : parser) (out : Str), p.rd.length < f1 → p.rd.length < f2 →
      parseLoop U keepLinks wikiRepo filename f1 p out
        = parseLoop U keepLinks wikiRepo filename f2 p out := by
  intro f1
  induction f1 with
  | zero => intro f2 p out h; exact absurd h (Nat.not_lt_zero _)
  | succ a ih =>
    intro f2 p out h1 h2
    cases f2 with
    | zero => exact absurd h2 (Nat.not_lt_zero _)
    | succ b =>
      obtain ⟨r, hr, hp⟩ := readLine_total p
      cases r with
      | none => simp only [parseLoop, hr]
      | some x =>
        obtain ⟨line, p1⟩ := x
        have hp1 := (hp line p1 rfl).1
        simp only [parseLoop, hr]
        split
        · obtain ⟨p2, out2, h3, h4⟩ :=
            snippetLoop_total a p1 (out ++ line ++ newLine) (by omega)
          rw [← snippetLoop_fuel a b p1 _ (by omega) (by omega), h3]
          exact ih b p2 out2 (by omega) (by omega)
        · obtain ⟨e, h3, h4⟩ := replaceLoop_total _
            (tame_lineReplacers U keepLinks wikiRepo filename) p1 line none
          rw [h3]
          cases e with
          | returned err => rfl
          | done l er p2 =>
            have hp2 := h4 l er p2 rfl
            simp only
            split
            · exact ih b p2 out (by omega) (by omega)
            · exact ih b _ _ (by simp; omega) (by simp; omega)

theorem parseFrom_eq (U : Unicode) (keepLinks : Bool) (wikiRepo filename : Str) (fuel : Nat)
    (p : parser) (out : Str) (h : p.rd.length < fuel) :
    parseLoop U keepLinks wikiRepo filename fuel p out
      = parseFrom U keepLinks wikiRepo filename p out :=
  parseLoop_fuel U keepLinks wikiRepo filename fuel _ p out h (Nat.lt_succ_self _)

theorem parse_eq_parseFrom (U : Unicode) (keepLinks : Bool) (wikiRepo filename src : Str) :
    parse U keepLinks wikiRepo filename src
      = parseFrom U keepLinks wikiRepo filename ⟨src, []⟩ [] := rfl

/-! ## Code fences (C6) -/

theorem unlines_cons (b : Str) (bs : List Str) : unlines (b :: bs) = b ++ '\n' :: unlines bs := by
  simp [unlines]

theorem length_le_unlines (bs : List Str) : bs.length ≤ (unlines bs).length := by
  induction bs with
  | nil => simp [unlines]
  | cons b bs ih =>
    rw [unlines_cons]
    simp
    omega

/-- The inner loop on the lines of a snippet up to its closing fence. -/
theorem snippetLoop_block (c rest : Str) (hc : '\n' ∉ c) (hcc : chomp c = codeSnippet) :
    ∀ (bs : List Str) (fuel : Nat) (prev out : Str), bs.length < fuel →
      (∀ b ∈ bs, '\n' ∉ b ∧ chomp b ≠ codeSnippet) →
      snippetLoop fuel ⟨unlines bs ++ (c ++ '\n' :: rest), prev⟩ out
        = some (⟨rest, []⟩, out ++ unlines (bs.map chomp) ++ (codeSnippet ++ newLine)) := by
  intro bs
  induction bs with
  | nil =>
    intro fuel prev out hf _
    cases fuel with
    | zero => exact absurd hf (Nat.not_lt_zero _)
    | succ fuel =>
      simp only [unlines, List.map_nil, List.flatten_nil, List.nil_append, snippetLoop,
        readLine_line c rest prev hc, hcc, if_true, List.append_nil, List.append_assoc]
  | cons b bs ih =>
    intro fuel prev out hf hbs
    cases fuel with
    | zero => exact absurd hf (Nat.not_lt_zero _)
    | succ fuel =>
      have hb := hbs b (by simp)
      have e : unlines (b :: bs) ++ (c ++ '\n' :: rest)
          = b ++ '\n' :: (unlines bs ++ (c ++ '\n' :: rest)) := by
        rw [unlines_cons]
        simp
      rw [e]
      simp only [snippetLoop, readLine_line b _ prev hb.1, hb.2, if_false]
      rw [ih fuel prev _ (by simpa using hf) (fun x hx => hbs x (by simp [hx]))]
      simp [unlines_cons, newLine]

theorem parseLoop_fence (U : Unicode) (keepLinks : Bool) (wikiRepo filename : Str)
    (f c rest prev out : Str) (bs : List Str) (fuel : Nat) (hfuel : bs.length < fuel)
    (hf : '\n' ∉ f) (hfp : HasPrefix (chomp f) codeSnippet = true)
    (hbs : ∀ b ∈ bs, '\n' ∉ b ∧ chomp b ≠ codeSnippet)
    (hc : '\n' ∉ c) (hcc : chomp c = codeSnippet) :
    parseLoop U keepLinks wikiRepo filename (fuel + 1)
        ⟨f ++ '\n' :: (unlines bs ++ (c ++ '\n' :: rest)), prev⟩ out
      = parseLoop U keepLinks wikiRepo filename fuel ⟨rest, []⟩
          (out ++ (chomp f ++ newLine) ++ unlines (bs.map chomp) ++ (codeSnippet ++ newLine)) := by
  simp only [parseLoop, readLine_line f _ prev hf, hfp, if_true]
  rw [snippetLoop_block c rest hc hcc bs _ prev _ hfuel hbs]
  simp only [List.append_assoc]

/-- A fenced block in front of the outer loop: the loop goes on after the block, with the
block written as read. -/
theorem parseFrom_fence (U : Unicode) (keepLinks : Bool) (wikiRepo filename : Str)
    (f c rest prev out : Str) (bs : List Str) (hf : '\n' ∉ f)
    (hfp : HasPrefix (chomp f) codeSnippet = true)
    (hbs : ∀ b ∈ bs, '\n' ∉ b ∧ chomp b ≠ codeSnippet)
    (hc : '\n' ∉ c) (hcc : chomp c = codeSnippet) :
    parseFrom U keepLinks wikiRepo filename
        ⟨f ++ '\n' :: (unlines bs ++ (c ++ '\n' :: rest)), prev⟩ out
      = parseFrom U keepLinks wikiRepo filename ⟨rest, []⟩
          (out ++ (chomp f ++ newLine) ++ unlines (bs.map chomp) ++ (codeSnippet ++ newLine)) := by
  have hlen := length_le_unlines bs
  unfold parseFrom
  have e : (f ++ '\n' :: (unlines bs ++ (c ++ '\n' :: rest))).length
      = (f.length + (unlines bs).length + c.length + rest.length + 1) + 1 := by
    simp
    omega
  simp only [e]
  rw [parseLoop_fence U keepLinks wikiRepo filename f c rest prev out bs _ (by omega) hf hfp
    hbs hc hcc]
  exact parseLoop_fuel U keepLinks wikiRepo filename _ _ _ _ (by simp; omega) (by simp)

theorem findAllScan_none (re : Regex) :
    ∀ s : Str, (∀ c ∈ s, ∀ cs, matchAt re (c :: cs) = none) → findAllScan re 0 s = [] := by
  intro s
  induction s with
  | nil => intro _; rfl
  | cons c cs ih =>
    intro h
    simp only [findAllScan, h c (by simp) cs]
    exact ih (fun x hx => h x (by simp [hx]))

/-- A line without backslash is left alone by `unescapeParens`. -/
theorem unescapeParens_id (line : Str) (h : '\\' ∉ line) : unescapeParens line = (line, none) := by
  have : FindAllSubmatch unescapeParensRegex line = [] := by
    apply findAllScan_none
    intro c hc cs
    have hne : c ≠ '\\' := fun e => h (e ▸ hc)
    simp only [matchAt, unescapeParensRegex, run_seq]
    exact run_lit_cons_ne _ _ _ _ _ _ _ hne
  simp [unescapeParens, wrapRegex, this]

/-- A line without opening brace is left alone by `unescapePageRefs`. -/
theorem unescapePageRefs_id (U : Unicode) (line : Str) (h : '\x7b' ∉ line) :
    unescapePageRefs U line = (line, none) := by
  have : FindAllSubmatch unescapePageRefRegex line = [] := by
    apply findAllScan_none
    intro c hc cs
    have hne : c ≠ '\x7b' := fun e => h (e ▸ hc)
    simp only [matchAt, unescapePageRefRegex, run_seq]
    exact run_lit_cons_ne _ _ _ _ _ _ _ hne
  simp [unescapePageRefs, this]

/-- The replacer-level half of C7: a page link with an empty title is an error. -/
theorem unescapeLinks_empty_title (w p : Str) (hmd : HasSuffix p markdownSuffix = true)
    (hpp : ∀ c ∈ p, c ≠ '(' ∧ c ≠ ')') (hh : HasPrefix p httpPrefix = false) :
    unescapeLinks false w (mdLink [] p) = ([], some (Err.titleMissing (mdLink [] p))) := by
  have hp : p ≠ [] := by
    intro e
    rw [e] at hmd
    revert hmd
    decide
  simp only [unescapeLinks, Bool.false_eq_true, if_false,
    FindAllSubmatch_link [] p (by simp) hp hpp, linksLoop,
    List.getD_cons_succ, List.getD_cons_zero, hh, hmd, Bool.not_true, List.length_nil, if_true]

theorem targetChar_ne (c : Char) (h : targetChar c = true) :
    c ≠ '\\' ∧ c ≠ '\x7b' ∧ c ≠ '(' ∧ c ≠ ')' ∧ c ≠ '\n' := by
  refine ⟨?_, ?_, ?_, ?_, ?_⟩ <;> intro e <;> rw [e] at h <;> revert h <;> decide

theorem TrimSpace_mdLink (t p : Str) : TrimSpace (mdLink t p) = mdLink t p := by
  have e : mdLink t p = ('[' :: t ++ ']' :: '(' :: p) ++ [')'] := by simp [mdLink]
  have h1 : IsSpace '[' = false := by decide
  have h2 : IsSpace ')' = false := by decide
  have hd : (mdLink t p).dropWhile IsSpace = mdLink t p := by
    simp [mdLink, List.dropWhile, h1]
  simp only [TrimSpace, hd]
  rw [e, List.rdropWhile_concat_neg _ _ _ (by simp [h2])]

theorem tocEntry_mdLink (filename : Str) (p1 : parser) (p : Str) (hp : p ≠ []) :
    ∃ er p2, tocEntry filename p1 (mdLink [] p) = some ((mdLink [] p, er), p2) ∧
      (er = none ∨ er = some Err.notResponsible) := by
  obtain ⟨b, p2, hs, -, -⟩ := skipNextEmptyLine_total p1
  by_cases hf : Base filename ≠ "SUMMARY.md".toList
  · exact ⟨some Err.notResponsible, p1, by rw [tocEntry, if_pos hf], Or.inr rfl⟩
  · refine ⟨none, p2, ?_, Or.inl rfl⟩
    obtain ⟨x, xs, hx⟩ : ∃ x xs, p = x :: xs := by
      cases p with
      | nil => exact absurd rfl hp
      | cons x xs => exact ⟨x, xs, rfl⟩
    have hlen : (mdLink [] p).length = p.length + 4 := by simp [mdLink]
    have h0 : (mdLink [] p)[0]? = some '[' := by simp [mdLink]
    rw [tocEntry, if_neg hf]
    simp only [TrimSpace_mdLink, hlen, h0, hs]
    simp

theorem replaceLoop_empty_title (U : Unicode) (w filename : Str) (p1 : parser) (p : Str)
    (hp : p ≠ []) (hpc : ∀ c ∈ p, targetChar c = true)
    (hmd : HasSuffix p markdownSuffix = true) (hh : HasPrefix p httpPrefix = false) :
    replaceLoop (lineReplacers U false w filename) p1 (mdLink [] p) none
      = some (LoopEnd.returned (Err.titleMissing (mdLink [] p))) := by
  have hb : '\\' ∉ mdLink [] p := by
    intro h
    simp [mdLink] at h
    exact (targetChar_ne _ (hpc _ h)).1 rfl
  have hc : '\x7b' ∉ mdLink [] p := by
    intro h
    simp [mdLink] at h
    exact (targetChar_ne _ (hpc _ h)).2.1 rfl
  have hpp : ∀ c ∈ p, c ≠ '(' ∧ c ≠ ')' := fun c h =>
    ⟨(targetChar_ne _ (hpc _ h)).2.2.1, (targetChar_ne _ (hpc _ h)).2.2.2.1⟩
  obtain ⟨er, p2, ht, her⟩ := tocEntry_mdLink filename p1 p hp
  have h1 := unescapeParens_id _ hb
  have h2 := unescapePageRefs_id U _ hc
  have h3 := unescapeLinks_empty_title w p hmd hpp hh
  rcases her with rfl | rfl <;>
    simp only [lineReplacers, replaceLoop, ht, pureReplacer, h1, h2, h3]

theorem fence_split :
    ∀ ls : List Str, ls.foldl fenceStep true = false →
      ∃ bs c ls', ls = bs ++ c :: ls' ∧ (∀ b ∈ bs, chomp b ≠ codeSnippet) ∧
        chomp c = codeSnippet ∧ ls'.foldl fenceStep false = false := by
  intro ls
  induction ls with
  | nil => intro h; simp at h
  | cons l ls ih =>
    intro h
    by_cases hc : chomp l = codeSnippet
    · refine ⟨[], l, ls, rfl, by simp, hc, ?_⟩
      simpa [fenceStep, hc] using h
    · have h' : ls.foldl fenceStep true = false := by simpa [fenceStep, hc] using h
      obtain ⟨bs, c, ls', e, h1, h2, h3⟩ := ih h'
      refine ⟨l :: bs, c, ls', by simp [e], ?_, h2, h3⟩
      intro b hb
      rcases List.mem_cons.1 hb with hb | hb
      · exact hb ▸ hc
      · exact h1 b hb

theorem fenceStep_short (l : Str) (h : l.length ≤ 1) : fenceStep false l = false := by
  have : (chomp l).length ≤ 1 := by
    simp only [chomp]
    split
    · simp; omega
    · exact h
  simp only [fenceStep, Bool.false_eq_true, if_false, HasPrefix]
  cases hp : codeSnippet.isPrefixOf (chomp l) with
  | false => rfl
  | true =>
    have := (List.isPrefixOf_iff_prefix.1 hp).length_le
    have h3 : codeSnippet.length = 3 := by decide
    omega

/-- What `skipNextEmptyLine` does in front of the lines `ls` followed by a text that
begins with `[]`: it may take the first line, which is then at most one character long
and does not change the fence state. -/
theorem skip_state (prev r : Str) :
    ∀ ls : List Str, (∀ l ∈ ls, '\n' ∉ l) →
      ∃ b ls₂, parser.skipNextEmptyLine ⟨unlines ls ++ '[' :: ']' :: r, prev⟩
          = some (b, ⟨unlines ls₂ ++ '[' :: ']' :: r, prev⟩) ∧
        ls₂.length ≤ ls.length ∧ (unlines ls₂).length ≤ (unlines ls).length ∧
        (∀ l ∈ ls₂, '\n' ∉ l) ∧ insideFence ls₂ = insideFence ls := by
  intro ls hls
  have keep : parser.skipNextEmptyLine ⟨unlines ls ++ '[' :: ']' :: r, prev⟩
      = some (false, ⟨unlines ls ++ '[' :: ']' :: r, prev⟩) →
      ∃ b ls₂, parser.skipNextEmptyLine ⟨unlines ls ++ '[' :: ']' :: r, prev⟩
          = some (b, ⟨unlines ls₂ ++ '[' :: ']' :: r, prev⟩) ∧
        ls₂.length ≤ ls.length ∧ (unlines ls₂).length ≤ (unlines ls).length ∧
        (∀ l ∈ ls₂, '\n' ∉ l) ∧ insideFence ls₂ = insideFence ls :=
    fun h => ⟨false, ls, h, Nat.le_refl _, Nat.le_refl _, hls, rfl⟩
  cases ls with
  | nil =>
    apply keep
    simp [unlines, parser.skipNextEmptyLine]
  | cons l ls' =>
    have hl := hls l (by simp)
    have hls' : ∀ x ∈ ls', '\n' ∉ x := fun x hx => hls x (by simp [hx])
    have take : l.length ≤ 1 →
        parser.skipNextEmptyLine ⟨unlines (l :: ls') ++ '[' :: ']' :: r, prev⟩
          = some (true, ⟨unlines ls' ++ '[' :: ']' :: r, prev⟩) →
        ∃ b ls₂, parser.skipNextEmptyLine ⟨unlines (l :: ls') ++ '[' :: ']' :: r, prev⟩
            = some (b, ⟨unlines ls₂ ++ '[' :: ']' :: r, prev⟩) ∧
          ls₂.length ≤ (l :: ls').length ∧
          (unlines ls₂).length ≤ (unlines (l :: ls')).length ∧
          (∀ l ∈ ls₂, '\n' ∉ l) ∧ insideFence ls₂ = insideFence (l :: ls') := by
      intro hlen h
      refine ⟨true, ls', h, by simp, by rw [unlines_cons]; simp; omega, hls', ?_⟩
      simp [insideFence, fenceStep_short l hlen]
    have e : unlines (l :: ls') ++ '[' :: ']' :: r
        = l ++ '\n' :: (unlines ls' ++ '[' :: ']' :: r) := by
      rw [unlines_cons]
      simp
    cases l with
    | nil =>
      obtain ⟨y, Y, hY⟩ : ∃ y Y, unlines ls' ++ '[' :: ']' :: r = y :: Y := by
        cases h : unlines ls' ++ '[' :: ']' :: r with
        | nil => simp at h
        | cons y Y => exact ⟨y, Y, rfl⟩
      by_cases hy : y = '\n'
      · apply take (by simp)
        subst hy
        have := readLine_line [] (unlines ls' ++ '[' :: ']' :: r) prev (by simp)
        rw [e]
        simp only [List.nil_append] at this ⊢
        rw [hY] at this ⊢
        simp only [parser.skipNextEmptyLine, if_true, this]
      · apply keep
        rw [e]
        simp only [List.nil_append, parser.skipNextEmptyLine, hY, hy, if_false]
    | cons x l' =>
      cases l' with
      | nil =>
        apply take (by simp)
        have := readLine_line [x] (unlines ls' ++ '[' :: ']' :: r) prev hl
        rw [e]
        simp only [List.cons_append, List.nil_append] at this ⊢
        simp only [parser.skipNextEmptyLine, if_true, this]
      | cons y l'' =>
        apply keep
        have hy : y ≠ '\n' := fun h => hl (by simp [h])
        rw [e]
        simp only [List.cons_append, parser.skipNextEmptyLine, hy, if_false]

/-- The reader after `tocEntry`, in front of the lines `ls` followed by a text that
begins with `[]`. -/
theorem toc_state (filename prev r line : Str) (ls : List Str) (hls : ∀ l ∈ ls, '\n' ∉ l) :
    ∃ res ls₂, tocEntry filename ⟨unlines ls ++ '[' :: ']' :: r, prev⟩ line
        = some (res, ⟨unlines ls₂ ++ '[' :: ']' :: r, prev⟩) ∧
      ls₂.length ≤ ls.length ∧ (unlines ls₂).length ≤ (unlines ls).length ∧
      (∀ l ∈ ls₂, '\n' ∉ l) ∧ insideFence ls₂ = insideFence ls := by
  obtain ⟨b, ls₂, hs, h1, h2, h3, h4⟩ := skip_state prev r ls hls
  unfold tocEntry
  split
  · exact ⟨_, ls, rfl, Nat.le_refl _, Nat.le_refl _, hls, rfl⟩
  · simp only
    split
    · exact ⟨_, ls, rfl, Nat.le_refl _, Nat.le_refl _, hls, rfl⟩
    · split
      · exact ⟨_, ls, rfl, Nat.le_refl _, Nat.le_refl _, hls, rfl⟩
      · rw [hs]
        exact ⟨_, ls₂, rfl, h1, h2, h3, h4⟩

theorem replaceLoop_pure (fs : List (Str → Str × Option Err)) :
    ∀ (p : parser) (line : Str) (err : Option Err),
      ∃ e, replaceLoop (fs.map pureReplacer) p line err = some e ∧
        ∀ l er p2, e = LoopEnd.done l er p2 → p2 = p := by
  induction fs with
  | nil =>
    intro p line err
    exact ⟨_, rfl, by intro l er p2 h; cases h; rfl⟩
  | cons f fs ih =>
    intro p line err
    cases hf : f line with
    | mk l1 e1 =>
      cases e1 with
      | none =>
        obtain ⟨e, h1, h2⟩ := ih p l1 none
        exact ⟨e, by simp [replaceLoop, pureReplacer, hf, h1], h2⟩
      | some er1 =>
        cases er1 with
        | notResponsible =>
          obtain ⟨e, h1, h2⟩ := ih p l1 (some Err.notResponsible)
          exact ⟨e, by simp [replaceLoop, pureReplacer, hf, h1], h2⟩
        | skipLine =>
          exact ⟨LoopEnd.done l1 (some Err.skipLine) p,
            by simp [replaceLoop, pureReplacer, hf], by intro l er p2 h; cases h; rfl⟩
        | titleMissing s =>
          exact ⟨LoopEnd.returned (Err.titleMissing s),
            by simp [replaceLoop, pureReplacer, hf], by intro l er p2 h; cases h⟩

theorem lineReplacers_eq (U : Unicode) (keepLinks : Bool) (wikiRepo filename : Str) :
    lineReplacers U keepLinks wikiRepo filename
      = tocEntry filename ::
        [unescapeParens, unescapePageRefs U, unescapeLinks keepLinks wikiRepo].map
          pureReplacer := rfl

/-- The reader after the replacers, in front of the lines `ls` followed by a text that
begins with `[]`. -/
theorem replace_state (U : Unicode) (keepLinks : Bool) (wikiRepo filename prev r line : Str)
    (ls : List Str) (hls : ∀ l ∈ ls, '\n' ∉ l) :
    ∃ e, replaceLoop (lineReplacers U keepLinks wikiRepo filename)
        ⟨unlines ls ++ '[' :: ']' :: r, prev⟩ line none = some e ∧
      ∀ l er p2, e = LoopEnd.done l er p2 →
        ∃ ls₂, p2 = ⟨unlines ls₂ ++ '[' :: ']' :: r, prev⟩ ∧
          ls₂.length ≤ ls.length ∧ (unlines ls₂).length ≤ (unlines ls).length ∧
          (∀ l ∈ ls₂, '\n' ∉ l) ∧ insideFence ls₂ = insideFence ls := by
  obtain ⟨res, ls₂, ht, h1, h2, h3, h4⟩ := toc_state filename prev r line ls hls
  have key : ∀ (l1 : Str) (err : Option Err),
      ∃ e, replaceLoop ([unescapeParens, unescapePageRefs U,
          unescapeLinks keepLinks wikiRepo].map pureReplacer)
          ⟨unlines ls₂ ++ '[' :: ']' :: r, prev⟩ l1 err = some e ∧
        ∀ l er p2, e = LoopEnd.done l er p2 →
          ∃ ls₂, p2 = ⟨unlines ls₂ ++ '[' :: ']' :: r, prev⟩ ∧
            ls₂.length ≤ ls.length ∧ (unlines ls₂).length ≤ (unlines ls).length ∧
            (∀ l ∈ ls₂, '\n' ∉ l) ∧ insideFence ls₂ = insideFence ls := by
    intro l1 err
    obtain ⟨e, h5, h6⟩ := replaceLoop_pure
      [unescapeParens, unescapePageRefs U, unescapeLinks keepLinks wikiRepo]
      ⟨unlines ls₂ ++ '[' :: ']' :: r, prev⟩ l1 err
    exact ⟨e, h5, fun l er p2 he => ⟨ls₂, h6 l er p2 he, h1, h2, h3, h4⟩⟩
  rw [lineReplacers_eq]
  obtain ⟨l1, e1⟩ := res
  cases e1 with
  | none =>
    obtain ⟨e, h5, h6⟩ := key l1 none
    exact ⟨e, by rw [replaceLoop, ht]; exact h5, h6⟩
  | some er1 =>
    cases er1 with
    | notResponsible =>
      obtain ⟨e, h5, h6⟩ := key l1 (some Err.notResponsible)
      exact ⟨e, by rw [replaceLoop, ht]; exact h5, h6⟩
    | skipLine =>
      refine ⟨LoopEnd.done l1 (some Err.skipLine) _, by rw [replaceLoop, ht], ?_⟩
      intro l er p2 he
      cases he
      exact ⟨ls₂, rfl, h1, h2, h3, h4⟩
    | titleMissing s =>
      exact ⟨LoopEnd.returned (Err.titleMissing s), by rw [replaceLoop, ht],
        by intro l er p2 he; cases he⟩

theorem chomp_mdLink (t p : Str) : chomp (mdLink t p) = mdLink t p := by
  have e : mdLink t p = ('[' :: t ++ ']' :: '(' :: p) ++ [')'] := by simp [mdLink]
  have : (mdLink t p).getLast? = some ')' := by rw [e, List.getLast?_concat]
  simp [chomp, this]

/-- The outer loop reaches a page link with an empty title that stands outside any code
fence, unless it has returned an error before; either way `parse` returns an error. -/
theorem parseFrom_empty_title (U : Unicode) (w filename p post : Str) (hp : p ≠ [])
    (hpc : ∀ c ∈ p, targetChar c = true) (hmd : HasSuffix p markdownSuffix = true)
    (hh : HasPrefix p httpPrefix = false) :
    ∀ (n : Nat) (ls : List Str), ls.length ≤ n → (∀ l ∈ ls, '\n' ∉ l) →
      insideFence ls = false → ∀ prev out : Str,
      ∃ o e, parseFrom U false w filename
        ⟨unlines ls ++ (mdLink [] p ++ '\n' :: post), prev⟩ out = some (o, some e) := by
  have hT : mdLink [] p ++ '\n' :: post = '[' :: ']' :: ('(' :: p ++ ')' :: '\n' :: post) := by
    simp [mdLink]
  have hnl : '\n' ∉ mdLink [] p := by
    intro h
    simp [mdLink] at h
    exact (targetChar_ne _ (hpc _ h)).2.2.2.2 rfl
  have hnf : HasPrefix (mdLink [] p) codeSnippet = false := by
    simp [HasPrefix, mdLink, codeSnippet, List.isPrefixOf]
  intro n
  induction n with
  | zero =>
    intro ls hlen _ _ prev out
    have : ls = [] := List.length_eq_zero.1 (Nat.le_zero.1 hlen)
    subst this
    refine ⟨out, Err.titleMissing (mdLink [] p), ?_⟩
    simp only [unlines, List.map_nil, List.flatten_nil, List.nil_append, parseFrom, parseLoop,
      readLine_line _ post prev hnl, chomp_mdLink, hnf, Bool.false_eq_true, if_false,
      replaceLoop_empty_title U w filename _ p hp hpc hmd hh]
  | succ n ih =>
    intro ls hlen hls hfence prev out
    cases ls with
    | nil => exact ih [] (Nat.zero_le _) hls hfence prev out
    | cons l ls' =>
      have hl := hls l (by simp)
      have hls' : ∀ x ∈ ls', '\n' ∉ x := fun x hx => hls x (by simp [hx])
      have hlen' : ls'.length ≤ n := by simpa using hlen
      have e : unlines (l :: ls') ++ (mdLink [] p ++ '\n' :: post)
          = l ++ '\n' :: (unlines ls' ++ (mdLink [] p ++ '\n' :: post)) := by
        rw [unlines_cons]
        simp
      rw [e]
      by_cases hf : HasPrefix (chomp l) codeSnippet = true
      · have hin : ls'.foldl fenceStep true = false := by
          simpa [insideFence, fenceStep, hf] using hfence
        obtain ⟨bs, c, ls₂, hsplit, hbs, hc, hrest⟩ := fence_split ls' hin
        have hbs' : ∀ b ∈ bs, '\n' ∉ b ∧ chomp b ≠ codeSnippet := fun b hb =>
          ⟨hls' b (by simp [hsplit, hb]), hbs b hb⟩
        have hcn : '\n' ∉ c := hls' c (by simp [hsplit])
        have e2 : unlines ls' ++ (mdLink [] p ++ '\n' :: post)
            = unlines bs ++ (c ++ '\n' :: (unlines ls₂ ++ (mdLink [] p ++ '\n' :: post))) := by
          rw [hsplit]
          simp [unlines]
        rw [e2, parseFrom_fence U false w filename l c _ prev out bs hl hf hbs' hcn hc]
        exact ih ls₂ (by rw [hsplit] at hlen'; simp at hlen'; omega)
          (fun x hx => hls' x (by simp [hsplit, hx])) hrest _ _
      · have hin : insideFence ls' = false := by
          simpa [insideFence, fenceStep, hf] using hfence
        rw [hT] at ih ⊢
        obtain ⟨e', h1, h2⟩ := replace_state U false w filename prev
          ('(' :: p ++ ')' :: '\n' :: post) (chomp l) ls' hls'
        simp only [parseFrom, parseLoop, readLine_line l _ prev hl, hf, Bool.false_eq_true,
          if_false, h1]
        cases e' with
        | returned err => exact ⟨out, err, rfl⟩
        | done l' er p2 =>
          obtain ⟨ls₂, hp2, h3, h4, h5, h6⟩ := h2 l' er p2 rfl
          subst hp2
          have hfuel : ∀ pl : Str,
              (⟨unlines ls₂ ++ '[' :: ']' :: ('(' :: p ++ ')' :: '\n' :: post), pl⟩
                : parser).rd.length
              < (l ++ '\n' :: (unlines ls' ++
                  '[' :: ']' :: ('(' :: p ++ ')' :: '\n' :: post))).length := by
            intro pl
            simp
            omega
          simp only
          split
          · rw [parseFrom_eq U false w filename _ _ _ (hfuel prev)]
            exact ih ls₂ (Nat.le_trans h3 hlen') h5 (h6.trans hin) _ _
          · rw [parseFrom_eq U false w filename _ _ _ (hfuel l')]
            exact ih ls₂ (Nat.le_trans h3 hlen') h5 (h6.trans hin) _ _

/-- With keep-links off, a document in which a page link with an empty title stands on
a line of its own, terminated by a newline and outside any code fence, makes `parse`
return an error, whatever the file name; at replacer level `unescapeLinks` returns the
error and no line. -/
theorem parse_empty_title_fails (U : Unicode) (w filename p post : Str) (ls : List Str)
    (hls : ∀ l ∈ ls, '\n' ∉ l) (hfence : insideFence ls = false) (hp : p ≠ [])
    (hpc : ∀ c ∈ p, targetChar c = true) (hmd : HasSuffix p markdownSuffix = true)
    (hh : HasPrefix p httpPrefix = false) :
    (∃ o e, parse U false w filename (unlines ls ++ (mdLink [] p ++ '\n' :: post))
        = some (o, some e)) ∧
      unescapeLinks false w (mdLink [] p) = ([], some (Err.titleMissing (mdLink [] p))) :=
  ⟨parseFrom_empty_title U w filename p post hp hpc hmd hh ls.length ls (Nat.le_refl _) hls
      hfence [] [],
    unescapeLinks_empty_title w p hmd
      (fun _ h => ⟨(targetChar_ne _ (hpc _ h)).2.2.1, (targetChar_ne _ (hpc _ h)).2.2.2.1⟩) hh⟩

/-- An instance: an empty-title link after a closed fence. -/
theorem parse_empty_title_fails_example :
    (∃ o e, parse asciiUnicode false "/kataras/iris/wiki".toList "SUMMARY.md".toList
        "# T\n```\n[](x.md)\n```\n[](a/b.md)\nrest".toList = some (o, some e)) ∧
      unescapeLinks false "/kataras/iris/wiki".toList "[](a/b.md)".toList
        = ([], some (Err.titleMissing "[](a/b.md)".toList)) :=
  parse_empty_title_fails asciiUnicode "/kataras/iris/wiki".toList "SUMMARY.md".toList
    "a/b.md".toList "rest".toList ["# T".toList, "```".toList, "[](x.md)".toList, "```".toList]
    (by decide) (by decide) (by decide) (by decide) (by decide) (by decide)

theorem readLineLoop_succ (fuel : Nat) (rd linePrefix : Str) :
    readLineLoop (fuel + 1) rd linePrefix =
      match ReadLine rd with
      | none => some none
      | some (line, true, rd) => readLineLoop fuel rd (linePrefix ++ line)
      | some (line, false, rd) =>
        some (some (if 0 < linePrefix.length then linePrefix ++ line else line, rd)) := rfl

/-- The method `readLine` on an unterminated last line that fills the buffer exactly:
the fragment is dropped and the end of input is reported. -/
theorem readLine_full_rest (X prev : Str) (hX : '\n' ∉ X) (hlen : X.length = defaultBufSize)
    (hcr : X.getLast? ≠ some '\r') : parser.readLine ⟨X, prev⟩ = some none := by
  have h := ReadLine_full X [] hX hlen
  simp only [List.append_nil, hcr, if_false] at h
  obtain ⟨n, hn⟩ : ∃ n, X.length = n + 1 := ⟨defaultBufSize - 1, by rw [hlen]; rfl⟩
  have hnil : ReadLine [] = none := rfl
  simp only [parser.readLine]
  rw [readLineLoop_succ, h]
  simp only
  rw [hn, readLineLoop_succ, hnil]
  rfl

theorem longTarget_facts :
    longTarget ≠ [] ∧ (∀ c ∈ longTarget, targetChar c = true) ∧
      HasSuffix longTarget markdownSuffix = true ∧ HasPrefix longTarget httpPrefix = false := by
  have e : longTarget = 'a' :: (List.replicate 4088 'a' ++ ".md".toList) := by
    rw [longTarget, show 4089 = 4088 + 1 from rfl, List.replicate_succ]
    rfl
  refine ⟨by rw [e]; exact List.cons_ne_nil _ _, ?_, ?_, ?_⟩
  rotate_right
  · rw [e]
    simp [HasPrefix, httpPrefix, List.isPrefixOf]
  · intro c hc
    simp only [longTarget, List.mem_append, List.mem_replicate] at hc
    rcases hc with ⟨-, rfl⟩ | hc
    · decide
    · revert c
      decide
  · exact List.isSuffixOf_iff_suffix.2 ⟨List.replicate 4089 'a', rfl⟩

theorem parseLoop_eof (U : Unicode) (keepLinks : Bool) (wikiRepo filename : Str) (fuel : Nat)
    (p : parser) (out : Str) (h : p.readLine = some none) :
    parseLoop U keepLinks wikiRepo filename (fuel + 1) p out = some (out, none) := by
  simp only [parseLoop, h]

/-- C7 at its failing input: the document is the single line `[](p)`, 4096 bytes long
and not terminated by a newline, where `p` is a page target as in the claim; `readLine`
loses the line and `parse` succeeds, having written nothing. -/
theorem parse_empty_title_lost (U : Unicode) (w filename : Str) :
    (longTarget ≠ [] ∧ (∀ c ∈ longTarget, targetChar c = true) ∧
      HasSuffix longTarget markdownSuffix = true ∧ HasPrefix longTarget httpPrefix = false) ∧
      parse U false w filename (mdLink [] longTarget) = some ([], none) := by
  refine ⟨longTarget_facts, ?_⟩
  have hX : '\n' ∉ mdLink [] longTarget := by
    intro h
    simp [mdLink] at h
    exact (targetChar_ne _ (longTarget_facts.2.1 _ h)).2.2.2.2 rfl
  have hlen : (mdLink [] longTarget).length = defaultBufSize := by
    simp only [mdLink, longTarget, List.length_cons, List.length_append, List.length_replicate,
      List.length_nil, List.length_singleton, String.toList, defaultBufSize]
  have hcr : (mdLink [] longTarget).getLast? ≠ some '\r' := by
    have e : mdLink [] longTarget = ('[' :: [] ++ ']' :: '(' :: longTarget) ++ [')'] := by
      simp [mdLink]
    rw [e, List.getLast?_concat]
    decide
  exact parseLoop_eof U false w filename _ _ _ (readLine_full_rest _ [] hX hlen hcr)

/-! ## `unescapeParens` (C11, C12) -/

theorem matchAt_escaped (t rest : Str) (h1 : '\\' ∉ t) (h2 : '\n' ∉ t) :
    matchAt unescapeParensRegex (escaped t ++ rest) = some [escaped t, t] := by
  have e1 : escaped t ++ rest = "\\(".toList ++ (t ++ ("\\)".toList ++ rest)) := by
    simp [escaped]
  simp only [matchAt, unescapeParensRegex, run_seq]
  rw [e1, run_lit]
  apply run_group_lazy dot _ t _ _ _ _
  · intro c hc
    have : c ≠ '\n' := fun e => h2 (e ▸ hc)
    simp [dot, this]
  · intro c hc a cs cp
    exact run_lit_cons_ne _ _ _ _ _ _ _ (fun e => h1 (e ▸ hc))
  · rw [run_lit]
    simp [escaped]

theorem matchAt_parens_none (c : Char) (cs : Str) (h : c ≠ '\\') :
    matchAt unescapeParensRegex (c :: cs) = none := by
  simp only [matchAt, unescapeParensRegex, run_seq]
  exact run_lit_cons_ne _ _ _ _ _ _ _ h

theorem findAllScan_drop (re : Regex) (s : Str) :
    ∀ pre : Str, findAllScan re pre.length (pre ++ s) = findAllScan re 0 s := by
  intro pre
  induction pre with
  | nil => rfl
  | cons c pre ih => simpa [findAllScan] using ih

theorem findAllScan_gap (s : Str) :
    ∀ g : Str, '\\' ∉ g →
      findAllScan unescapeParensRegex 0 (g ++ s) = findAllScan unescapeParensRegex 0 s := by
  intro g
  induction g with
  | nil => intro _; rfl
  | cons c g ih =>
    intro h
    have hc : c ≠ '\\' := fun e => h (by simp [e])
    have hg : '\\' ∉ g := fun e => h (by simp [e])
    simp only [List.cons_append, findAllScan, matchAt_parens_none c _ hc]
    exact ih hg

theorem findAllScan_escaped (t rest : Str) (h1 : '\\' ∉ t) (h2 : '\n' ∉ t) :
    findAllScan unescapeParensRegex 0 (escaped t ++ rest)
      = [escaped t, t] :: findAllScan unescapeParensRegex 0 rest := by
  have hm := matchAt_escaped t rest h1 h2
  have e : escaped t ++ rest = '\\' :: (('(' :: t ++ "\\)".toList) ++ rest) := by
    simp [escaped]
  rw [e] at hm ⊢
  simp only [findAllScan, hm, List.headD_cons]
  congr 1
  simpa using findAllScan_drop unescapeParensRegex rest (t ++ "\\)".toList)

theorem FindAllSubmatch_escapedTail :
    ∀ (gs : List (Str × Str)) (g : Str), PlainPairs g gs →
      FindAllSubmatch unescapeParensRegex (g ++ escapedTail gs)
        = gs.map (fun x => [escaped x.1, x.1]) := by
  intro gs
  induction gs with
  | nil =>
    intro g h
    have := findAllScan_gap [] g h.1
    simpa [FindAllSubmatch, escapedTail, findAllScan] using this
  | cons x rest ih =>
    intro g h
    have hx := h.2 x (by simp)
    have hr : PlainPairs x.2 rest := ⟨hx.2.2, fun y hy => h.2 y (by simp [hy])⟩
    have := ih x.2 hr
    simp only [FindAllSubmatch] at this ⊢
    rw [findAllScan_gap _ g h.1, escapedTail, findAllScan_escaped _ _ hx.1 hx.2.1, this]
    rfl

theorem replaceFirstScan_at (o : Char) (os new R : Str) :
    ∀ P : Str, o ∉ P →
      replaceFirstScan (o :: os) new (P ++ ((o :: os) ++ R)) = P ++ (new ++ R) := by
  intro P
  induction P with
  | nil =>
    intro _
    have hp : (o :: os).isPrefixOf (o :: (os ++ R)) = true :=
      List.isPrefixOf_iff_prefix.2 ⟨R, by simp⟩
    have hd : List.drop (os.length + 1) (o :: (os ++ R)) = R := by simp
    simp only [List.nil_append, List.cons_append, replaceFirstScan, List.append_eq, hp,
      if_true, List.length_cons, hd]
  | cons a P ih =>
    intro h
    have ha : o ≠ a := fun e => h (by simp [e])
    have hP : o ∉ P := fun e => h (by simp [e])
    have hp : (o :: os).isPrefixOf (a :: (P ++ ((o :: os) ++ R))) = false := by
      simp [List.isPrefixOf, ha]
    have hp2 : (o :: os).isPrefixOf (a :: (P ++ o :: (os ++ R))) = false := by
      simpa using hp
    have ih2 := ih hP
    simp only [List.cons_append] at ih2
    simp only [List.cons_append, replaceFirstScan, List.append_eq, hp2, Bool.false_eq_true,
      if_false, List.cons.injEq, true_and]
    exact ih2

theorem wrap_escapedTail :
    ∀ (gs : List (Str × Str)) (P : Str), PlainPairs P gs →
      (gs.map (fun x => [escaped x.1, x.1])).foldl
          (fun result submatches =>
            ReplaceFirst result (submatches.getD 0 [])
              ("(".toList ++ (submatches.getD 1 [] ++ ")".toList)))
          (P ++ escapedTail gs)
        = P ++ plainTail gs := by
  intro gs
  induction gs with
  | nil => intro P _; rfl
  | cons x rest ih =>
    intro P h
    have hx := h.2 x (by simp)
    have hP' : PlainPairs (P ++ ("(".toList ++ (x.1 ++ (")".toList ++ x.2)))) rest := by
      refine ⟨?_, fun y hy => h.2 y (by simp [hy])⟩
      intro hm
      rcases List.mem_append.1 hm with hm | hm
      · exact h.1 hm
      · rcases List.mem_append.1 hm with hm | hm
        · revert hm; decide
        · rcases List.mem_append.1 hm with hm | hm
          · exact hx.1 hm
          · rcases List.mem_append.1 hm with hm | hm
            · revert hm; decide
            · exact hx.2.2 hm
    have hstep : ReplaceFirst (P ++ escapedTail (x :: rest)) (escaped x.1)
        ("(".toList ++ (x.1 ++ ")".toList))
        = (P ++ ("(".toList ++ (x.1 ++ (")".toList ++ x.2)))) ++ escapedTail rest := by
      have he : escaped x.1 = '\\' :: ('(' :: (x.1 ++ "\\)".toList)) := by simp [escaped]
      have hne : escaped x.1 ≠ [] := by simp [he]
      simp only [ReplaceFirst, hne, if_false, escapedTail]
      rw [he, replaceFirstScan_at '\\' _ _ _ P h.1]
      simp
    simp only [List.map_cons, List.foldl_cons, List.getD_cons_zero, List.getD_cons_succ]
    rw [hstep, ih _ hP']
    simp [plainTail]

theorem replaceAllScan_drop (re : Regex) (f : List Str → Str) (s : Str) :
    ∀ pre : Str, replaceAllScan re f pre.length (pre ++ s) = replaceAllScan re f 0 s := by
  intro pre
  induction pre with
  | nil => rfl
  | cons c pre ih => simpa [replaceAllScan] using ih

theorem replaceAllScan_gap (f : List Str → Str) (s : Str) :
    ∀ g : Str, '\\' ∉ g →
      replaceAllScan unescapeParensRegex f 0 (g ++ s)
        = g ++ replaceAllScan unescapeParensRegex f 0 s := by
  intro g
  induction g with
  | nil => intro _; rfl
  | cons c g ih =>
    intro h
    have hc : c ≠ '\\' := fun e => h (by simp [e])
    have hg : '\\' ∉ g := fun e => h (by simp [e])
    simp only [List.cons_append, replaceAllScan, List.append_eq, matchAt_parens_none c _ hc]
    rw [ih hg]

theorem replaceAllScan_escaped (f : List Str → Str) (t rest : Str) (h1 : '\\' ∉ t)
    (h2 : '\n' ∉ t) :
    replaceAllScan unescapeParensRegex f 0 (escaped t ++ rest)
      = f [escaped t, t] ++ replaceAllScan unescapeParensRegex f 0 rest := by
  have hm := matchAt_escaped t rest h1 h2
  have e : escaped t ++ rest = '\\' :: (('(' :: t ++ "\\)".toList) ++ rest) := by
    simp [escaped]
  rw [e] at hm ⊢
  simp only [replaceAllScan, hm, List.headD_cons]
  congr 1
  simpa using replaceAllScan_drop unescapeParensRegex f rest (t ++ "\\)".toList)

theorem RegexReplaceAll_escapedTail :
    ∀ (gs : List (Str × Str)) (g : Str), PlainPairs g gs →
      RegexReplaceAll unescapeParensRegex (g ++ escapedTail gs) parenTemplate
        = g ++ plainTail gs := by
  intro gs
  induction gs with
  | nil =>
    intro g h
    have := replaceAllScan_gap parenTemplate [] g h.1
    simpa [RegexReplaceAll, escapedTail, plainTail, replaceAllScan] using this
  | cons x rest ih =>
    intro g h
    have hx := h.2 x (by simp)
    have hr : PlainPairs x.2 rest := ⟨hx.2.2, fun y hy => h.2 y (by simp [hy])⟩
    have := ih x.2 hr
    simp only [RegexReplaceAll] at this ⊢
    rw [replaceAllScan_gap _ _ g h.1, escapedTail, replaceAllScan_escaped _ _ _ hx.1 hx.2.1,
      this]
    simp [parenTemplate, plainTail]

/-- The result of `unescapeParens` on a line whose backslashes are those of its escaped
groups. -/
theorem unescapeParens_plainPairs (g : Str) (gs : List (Str × Str)) (h : PlainPairs g gs) :
    unescapeParens (g ++ escapedTail gs) = (g ++ plainTail gs, none) := by
  simp only [unescapeParens, wrapRegex, FindAllSubmatch_escapedTail gs g h]
  rw [wrap_escapedTail gs g h]

theorem plainTail_no_backslash :
    ∀ gs : List (Str × Str), (∀ x ∈ gs, '\\' ∉ x.1 ∧ '\n' ∉ x.1 ∧ '\\' ∉ x.2) →
      '\\' ∉ plainTail gs := by
  intro gs
  induction gs with
  | nil => intro _; simp [plainTail]
  | cons x rest ih =>
    intro h hm
    have hx := h x (by simp)
    simp only [plainTail] at hm
    rcases List.mem_append.1 hm with hm | hm
    · revert hm; decide
    · rcases List.mem_append.1 hm with hm | hm
      · exact hx.1 hm
      · rcases List.mem_append.1 hm with hm | hm
        · revert hm; decide
        · rcases List.mem_append.1 hm with hm | hm
          · exact hx.2.2 hm
          · exact ih (fun y hy => h y (by simp [hy])) hm

/-- C11 (as stated, refuted): `unescapeParens` is not the regex replace-all by `($1)`.
On `\(\(a\)b\) \(a)b\)` the matches are `\(\(a\)` and `\(a)b\)`; the replace-all gives
`(\(a)b\) (a)b)`, but the program replaces the first occurrence of the text of the second
match in the result so far, which the first replacement has just created at index 1, and
returns `((a)b) \(a)b\)`. -/
theorem unescapeParens_not_replaceAll :
    ¬ ∀ line : Str,
        unescapeParens line
          = (RegexReplaceAll unescapeParensRegex line parenTemplate, none) := by
  intro h
  have := h "\\(\\(a\\)b\\) \\(a)b\\)".toList
  revert this
  decide

/-- C11 (amended): `unescapeParens` never fails, and on every line `g₀\(t₁\)g₁…\(tₙ\)gₙ`
whose texts `gᵢ`, `tᵢ` hold no backslash (the `tᵢ` no newline) it returns
`g₀(t₁)g₁…(tₙ)gₙ`, which is the regex replace-all of the pattern by `($1)`. -/
theorem unescapeParens_escaped_groups (g : Str) (gs : List (Str × Str)) (h : PlainPairs g gs) :
    (∀ line : Str, (unescapeParens line).2 = none) ∧
      unescapeParens (g ++ escapedTail gs) = (g ++ plainTail gs, none) ∧
      unescapeParens (g ++ escapedTail gs)
        = (RegexReplaceAll unescapeParensRegex (g ++ escapedTail gs) parenTemplate, none) := by
  refine ⟨fun _ => rfl, unescapeParens_plainPairs g gs h, ?_⟩
  rw [unescapeParens_plainPairs g gs h, RegexReplaceAll_escapedTail gs g h]

theorem unescapeParens_escaped_groups_witness :
    PlainPairs "this ".toList
        [("should be unescaped".toList, " always and ".toList), ("that as well".toList, ".".toList)] ∧
      unescapeParens "this \\(should be unescaped\\) always and \\(that as well\\).".toList
        = ("this (should be unescaped) always and (that as well).".toList, none) :=
  ⟨by simp [PlainPairs],
    (unescapeParens_escaped_groups "this ".toList
      [("should be unescaped".toList, " always and ".toList), ("that as well".toList, ".".toList)]
      (by simp [PlainPairs])).2.1⟩

/-- C12 (as stated, refuted): `unescapeParens` is not idempotent.  On `\(\(a\)\)` the only
match is `\(\(a\)`, so the first pass gives `(\(a)\)`; this holds the match `\(a)\)`, and
the second pass gives `((a))`. -/
theorem unescapeParens_not_idempotent :
    ¬ ∀ line : Str, unescapeParens (unescapeParens line).1 = unescapeParens line := by
  intro h
  have := h "\\(\\(a\\)\\)".toList
  revert this
  decide

/-- C12 (amended): on every line `g₀\(t₁\)g₁…\(tₙ\)gₙ` whose texts `gᵢ`, `tᵢ` hold no
backslash (the `tᵢ` no newline) the result of `unescapeParens` holds no backslash, and
applying `unescapeParens` to it again returns it unchanged. -/
theorem unescapeParens_idempotent (g : Str) (gs : List (Str × Str)) (h : PlainPairs g gs) :
    '\\' ∉ (unescapeParens (g ++ escapedTail gs)).1 ∧
      unescapeParens (unescapeParens (g ++ escapedTail gs)).1
        = unescapeParens (g ++ escapedTail gs) := by
  have hb : '\\' ∉ g ++ plainTail gs := by
    intro hm
    rcases List.mem_append.1 hm with hm | hm
    · exact h.1 hm
    · exact plainTail_no_backslash gs h.2 hm
  rw [unescapeParens_plainPairs g gs h]
  exact ⟨hb, unescapeParens_id _ hb⟩

theorem unescapeParens_idempotent_witness :
    PlainPairs "this ".toList [("that".toList, ".".toList)] ∧
      unescapeParens (unescapeParens "this \\(that\\).".toList).1
        = ("this (that).".toList, none) :=
  ⟨by simp [PlainPairs],
    (unescapeParens_idempotent "this ".toList [("that".toList, ".".toList)]
      (by simp [PlainPairs])).2⟩

/-! ## `unescapePageRefs` (C13) -/

theorem matchAt_pageRef (p rest : Str) (h1 : '"' ∉ p) (h2 : '\n' ∉ p) :
    matchAt unescapePageRefRegex (pageRef p ++ rest) = some [pageRef p, p] := by
  have e1 : pageRef p ++ rest
      = "\x7b% page-ref page=\"".toList ++ (p ++ ("\" %\x7d".toList ++ rest)) := by
    simp [pageRef]
  simp only [matchAt, unescapePageRefRegex, run_seq]
  rw [e1, run_lit]
  apply run_group_lazy dot _ p _ _ _ _
  · intro c hc
    have : c ≠ '\n' := fun e => h2 (e ▸ hc)
    simp [dot, this]
  · intro c hc a cs cp
    exact run_lit_cons_ne _ _ _ _ _ _ _ (fun e => h1 (e ▸ hc))
  · rw [run_lit]
    simp [pageRef]

theorem FindAllSubmatch_pageRef (p : Str) (h1 : '"' ∉ p) (h2 : '\n' ∉ p) :
    FindAllSubmatch unescapePageRefRegex (pageRef p) = [[pageRef p, p]] := by
  have hm := matchAt_pageRef p [] h1 h2
  have e : pageRef p = '\x7b' :: ("% page-ref page=\"".toList ++ (p ++ "\" %\x7d".toList)) := by
    simp [pageRef]
  rw [List.append_nil] at hm
  rw [FindAllSubmatch]
  rw [e] at hm ⊢
  simp only [findAllScan, hm, List.headD_cons]
  rw [findAllScan_skip]
  simp

theorem takeWhile_stop {α : Type} (q : α → Bool) (d : α) (b : List α) (hd : q d = false) :
    ∀ a : List α, (∀ c ∈ a, q c = true) → (a ++ d :: b).takeWhile q = a := by
  intro a
  induction a with
  | nil => intro _; simp [List.takeWhile, hd]
  | cons x a ih =>
    intro h
    have hx := h x (by simp)
    simp [List.takeWhile, hx, ih (fun c hc => h c (by simp [hc]))]

theorem split_last_slash (p : Str) (h : '/' ∈ p) : ∃ x seg, p = x ++ '/' :: seg ∧ '/' ∉ seg := by
  induction p with
  | nil => simp at h
  | cons c cs ih =>
    by_cases hc : '/' ∈ cs
    · obtain ⟨x, seg, e, hs⟩ := ih hc
      exact ⟨c :: x, seg, by simp [e], hs⟩
    · have : c = '/' := by
        rcases List.mem_cons.1 h with e | e
        · exact e.symm
        · exact absurd e hc
      exact ⟨[], cs, by simp [this], hc⟩

theorem lastSegment_of_not_mem (p : Str) (h : '/' ∉ p) : lastSegment p = p := by
  have : ∀ c ∈ p.reverse, (decide (c ≠ '/')) = true := by
    intro c hc
    have : c ≠ '/' := fun e => h (e ▸ List.mem_reverse.1 hc)
    simp [this]
  unfold lastSegment List.rtakeWhile
  rw [List.takeWhile_eq_self_iff.2 this, List.reverse_reverse]

theorem lastSegment_append (x seg : Str) (h : '/' ∉ seg) :
    lastSegment (x ++ '/' :: seg) = seg := by
  have e : (x ++ '/' :: seg).reverse = seg.reverse ++ '/' :: x.reverse := by simp
  have hq : ∀ c ∈ seg.reverse, (decide (c ≠ '/')) = true := by
    intro c hc
    have : c ≠ '/' := fun e => h (e ▸ List.mem_reverse.1 hc)
    simp [this]
  simp only [lastSegment, List.rtakeWhile, e]
  rw [takeWhile_stop _ '/' _ (by simp) _ hq]
  simp

/-- The part of the target that `unescapePageRefs` makes the title from is the final
segment, for a target that does not end in `/`. -/
theorem pageRef_link (p : Str) (h : p.getLast? ≠ some '/') :
    (if lastIndexSlash p ≠ -1 ∧ lastIndexSlash p < (p.length : Int) - 1
      then p.drop (lastIndexSlash p + 1).toNat else p) = lastSegment p := by
  by_cases hs : '/' ∈ p
  · obtain ⟨x, seg, e, hseg⟩ := split_last_slash p hs
    subst e
    have hne : seg ≠ [] := by
      intro e
      apply h
      simp [e]
    have hl : 0 < seg.length := List.length_pos.2 hne
    have hi : lastIndexSlash (x ++ '/' :: seg) = x.length := by
      simp [lastIndexSlash, lastIndexByte_append x seg '/' hseg]
    have hc : (x.length : Int) ≠ -1 ∧
        (x.length : Int) < ((x ++ '/' :: seg).length : Int) - 1 := by
      constructor
      · omega
      · simp only [List.length_append, List.length_cons]
        push_cast
        omega
    rw [hi, if_pos hc, lastSegment_append x seg hseg]
    have : ((x.length : Int) + 1).toNat = x.length + 1 := by omega
    rw [this]
    simp
  · have hi : lastIndexSlash p = -1 := by
      simp [lastIndexSlash, lastIndexByte_of_not_mem p '/' hs]
    simp [hi, lastSegment_of_not_mem p hs]

theorem unescapePageRefs_pageRef (U : Unicode) (p : Str) (h1 : '"' ∉ p) (h2 : '\n' ∉ p)
    (h3 : p.getLast? ≠ some '/') :
    unescapePageRefs U (pageRef p)
      = (reference (Title U (TrimSuffix (lastSegment p) markdownSuffix)) p, none) := by
  have hne : pageRef p ≠ [] := by simp [pageRef]
  simp only [unescapePageRefs, FindAllSubmatch_pageRef p h1 h2, List.foldl_cons, List.foldl_nil,
    pageRefStep, List.getD_cons_zero, List.getD_cons_succ]
  rw [pageRef_link p h3, ReplaceFirst_self _ _ hne]
  simp [reference]

theorem titleMap_simple (U : Unicode) :
    ∀ (s : Str) (prev : Char), SimpleChar U prev → (∀ c ∈ s, SimpleChar U c) →
      titleMap U prev s = titleWordsMap U prev s := by
  intro s
  induction s with
  | nil => intro _ _ _; rfl
  | cons r rs ih =>
    intro prev hp h
    have hsep : isSeparator U prev = !isWordChar U prev := by
      unfold isSeparator isWordChar
      by_cases ha : prev.toNat ≤ 0x7F
      · simp only [ha, if_true]
        by_cases c1 : '0' ≤ prev ∧ prev ≤ '9'
        · simp [c1]
        · by_cases c2 : 'a' ≤ prev ∧ prev ≤ 'z'
          · simp [c1, c2]
          · by_cases c3 : 'A' ≤ prev ∧ prev ≤ 'Z'
            · simp [c1, c2, c3]
            · by_cases c4 : prev = '_'
              · simp [c1, c2, c3, c4]
              · simp [c1, c2, c3, c4]
      · simp only [ha, if_false]
        rcases hp with hp | hp | hp | hp
        · exact absurd hp ha
        · simp [hp]
        · simp [hp]
        · by_cases hl : (U.IsLetter prev || U.IsDigit prev) = true
          · simp [hl]
          · simp only [hl, Bool.false_eq_true, if_false, hp]
            simp at hl
            simp [hl]
    simp only [titleMap, titleWordsMap, hsep]
    rw [ih r (h r (by simp)) (fun c hc => h c (by simp [hc]))]
    cases isWordChar U prev <;> simp

theorem mem_of_mem_TrimSuffix (s suffix : Str) (c : Char) (h : c ∈ TrimSuffix s suffix) :
    c ∈ s := by
  unfold TrimSuffix at h
  split at h
  · exact List.mem_of_mem_take h
  · exact h

/-- C13 (as stated, refuted): the words of `bytes.Title` are not those of the description.
A non-ASCII character that is neither letter, digit nor white space, such as the dash
U+2014, does not end a word for `bytes.Title`: the target `a—b.md` gets the title `A—b`,
not `A—B`.  The tables used here agree with Go's on every character of this input. -/
theorem unescapePageRefs_title_words_fails :
    ¬ ∀ (U : Unicode) (p : Str), '"' ∉ p → '\n' ∉ p → p.getLast? ≠ some '/' →
        unescapePageRefs U (pageRef p)
          = (reference (titleWords U (TrimSuffix (lastSegment p) markdownSuffix)) p, none) := by
  intro h
  have := h asciiUnicode "a—b.md".toList (by decide) (by decide) (by decide)
  revert this
  decide

/-- C13 (amended): for every target `p` without `"` (and, within a line, without
newline) that does not end in `/`, `unescapePageRefs` returns `> Reference: [T](p)` for the
directive of `p`, where `T` is `bytes.Title` of the final segment of `p` without a trailing
`.md`; for `bytes.Title` a word starts at the beginning, after an ASCII character other
than a letter, digit or underscore, and after non-ASCII white space.  When every character
of the segment is ASCII, a letter, a digit or white space, these are the words of the
description. -/
theorem unescapePageRefs_reference (U : Unicode) (p : Str) (h1 : '"' ∉ p) (h2 : '\n' ∉ p)
    (h3 : p.getLast? ≠ some '/') :
    unescapePageRefs U (pageRef p)
        = (reference (Title U (TrimSuffix (lastSegment p) markdownSuffix)) p, none) ∧
      ((∀ c ∈ lastSegment p, SimpleChar U c) →
        Title U (TrimSuffix (lastSegment p) markdownSuffix)
          = titleWords U (TrimSuffix (lastSegment p) markdownSuffix)) := by
  refine ⟨unescapePageRefs_pageRef U p h1 h2 h3, fun h => ?_⟩
  exact titleMap_simple U _ ' ' (Or.inl (by decide))
    (fun c hc => h c (mem_of_mem_TrimSuffix _ _ c hc))

theorem unescapePageRefs_reference_witness :
    '"' ∉ "../view/view.md".toList ∧ '\n' ∉ "../view/view.md".toList ∧
      "../view/view.md".toList.getLast? ≠ some '/' ∧
      unescapePageRefs asciiUnicode "\x7b% page-ref page=\"../view/view.md\" %\x7d".toList
        = ("> Reference: [View](../view/view.md)".toList, none) :=
  ⟨by decide, by decide, by decide,
    (unescapePageRefs_reference asciiUnicode "../view/view.md".toList (by decide) (by decide)
      (by decide)).1⟩

/-! ## One turn of the outer loop -/

/-- One turn of the outer loop of `parse` on a terminated line outside a code fence, when
the loop over the replacers ends with a line. -/
theorem parseFrom_line (U : Unicode) (keepLinks : Bool) (wikiRepo filename : Str)
    (l rest prev out : Str) (hl : '\n' ∉ l) (hf : HasPrefix (chomp l) codeSnippet = false)
    (line : Str) (err : Option Err) (p2 : parser)
    (hr : replaceLoop (lineReplacers U keepLinks wikiRepo filename) ⟨rest, prev⟩ (chomp l) none
      = some (LoopEnd.done line err p2)) :
    parseFrom U keepLinks wikiRepo filename ⟨l ++ '\n' :: rest, prev⟩ out =
      if err = some Err.skipLine then parseFrom U keepLinks wikiRepo filename p2 out
      else parseFrom U keepLinks wikiRepo filename { p2 with prevLine := line }
        ((if 0 < line.length then
            (if line.head? = some '>' ∧ 0 < p2.prevLine.length ∧ p2.prevLine.head? = some '>'
              then out ++ newLine else out) ++ line
          else out) ++ newLine) := by
  obtain ⟨e, h3, h4⟩ := replaceLoop_total _
    (tame_lineReplacers U keepLinks wikiRepo filename) ⟨rest, prev⟩ (chomp l) none
  rw [hr] at h3
  have hp2 : p2.rd.length ≤ rest.length := by
    have := h4 line err p2 (Option.some.inj h3).symm
    simpa using this
  have hfuel : p2.rd.length < (l ++ '\n' :: rest).length := by
    simp
    omega
  simp only [parseFrom, parseLoop, readLine_line l rest prev hl, hf, Bool.false_eq_true,
    if_false, hr]
  split
  · exact parseFrom_eq U keepLinks wikiRepo filename _ _ _ hfuel
  · exact parseFrom_eq U keepLinks wikiRepo filename _ _ _ hfuel

/-- One turn of the outer loop on a line for which a replacer returns an error. -/
theorem parseFrom_returned (U : Unicode) (keepLinks : Bool) (wikiRepo filename : Str)
    (l rest prev out : Str) (hl : '\n' ∉ l) (hf : HasPrefix (chomp l) codeSnippet = false)
    (err : Err)
    (hr : replaceLoop (lineReplacers U keepLinks wikiRepo filename) ⟨rest, prev⟩ (chomp l) none
      = some (LoopEnd.returned err)) :
    parseFrom U keepLinks wikiRepo filename ⟨l ++ '\n' :: rest, prev⟩ out
      = some (out, some err) := by
  simp only [parseFrom, parseLoop, readLine_line l rest prev hl, hf, Bool.false_eq_true,
    if_false, hr]

theorem parseFrom_nil (U : Unicode) (keepLinks : Bool) (wikiRepo filename prev out : Str) :
    parseFrom U keepLinks wikiRepo filename ⟨[], prev⟩ out = some (out, none) :=
  parseLoop_eof U keepLinks wikiRepo filename _ _ out (readLine_nil prev)

/-! ## Lines without the characters the replacers look for -/

theorem matchAt_links_none (c : Char) (cs : Str) (h : c ≠ '[') :
    matchAt unescapeLinksRegex (c :: cs) = none := by
  simp only [matchAt, unescapeLinksRegex, run_seq]
  exact run_lit_cons_ne _ _ _ _ _ _ _ h

theorem findAllScan_links_gap (s : Str) :
    ∀ g : Str, '[' ∉ g →
      findAllScan unescapeLinksRegex 0 (g ++ s) = findAllScan unescapeLinksRegex 0 s := by
  intro g
  induction g with
  | nil => intro _; rfl
  | cons c g ih =>
    intro h
    have hc : c ≠ '[' := fun e => h (by simp [e])
    have hg : '[' ∉ g := fun e => h (by simp [e])
    simp only [List.cons_append, findAllScan, List.append_eq, matchAt_links_none c _ hc]
    exact ih hg

/-- A line without opening bracket is left alone by `unescapeLinks`. -/
theorem unescapeLinks_id (keepLinks : Bool) (w line : Str) (h : '[' ∉ line) :
    unescapeLinks keepLinks w line = (line, none) := by
  have : FindAllSubmatch unescapeLinksRegex line = [] := by
    have := findAllScan_links_gap [] line h
    simpa [FindAllSubmatch, findAllScan] using this
  cases keepLinks <;> simp [unescapeLinks, this, linksLoop]

/-- The three replacers after `tocEntry` leave a line without backslash, opening brace and
opening bracket alone. -/
theorem replaceLoop_plain (U : Unicode) (keepLinks : Bool) (w : Str) (p : parser) (line : Str)
    (err : Option Err) (h1 : '\\' ∉ line) (h2 : '\x7b' ∉ line) (h3 : '[' ∉ line) :
    replaceLoop ([unescapeParens, unescapePageRefs U, unescapeLinks keepLinks w].map
      pureReplacer) p line err = some (LoopEnd.done line none p) := by
  simp only [List.map, replaceLoop, pureReplacer, unescapeParens_id line h1,
    unescapePageRefs_id U line h2, unescapeLinks_id keepLinks w line h3]

/-- A page link after a text without opening bracket: the link is replaced where it
stands. -/
theorem unescapeLinks_after (w pre t p : Str) (hpre : '[' ∉ pre) (ht0 : t ≠ [])
    (ht : ∀ c ∈ t, c ≠ ']' ∧ c ≠ '\n')
    (hmd : HasSuffix p markdownSuffix = true) (hpp : ∀ c ∈ p, c ≠ '(' ∧ c ≠ ')')
    (hh : HasPrefix p httpPrefix = false) :
    unescapeLinks false w (pre ++ mdLink t p)
      = (pre ++ wikiLink t (resolveLink false p w), none) := by
  have hp : p ≠ [] := by
    intro e
    rw [e] at hmd
    revert hmd
    decide
  have hl : t.length ≠ 0 := by simpa using ht0
  have hf : FindAllSubmatch unescapeLinksRegex (pre ++ mdLink t p) = [[mdLink t p, t, p]] := by
    have := FindAllSubmatch_link t p ht hp hpp
    simp only [FindAllSubmatch] at this ⊢
    rw [findAllScan_links_gap _ pre hpre, this]
  have hr : ∀ new : Str, ReplaceFirst (pre ++ mdLink t p) (mdLink t p) new = pre ++ new := by
    intro new
    have hne : mdLink t p ≠ [] := by simp [mdLink]
    have e : mdLink t p = '[' :: (t ++ ']' :: '(' :: p ++ [')']) := by simp [mdLink]
    simp only [ReplaceFirst, hne, if_false]
    have := replaceFirstScan_at '[' (t ++ ']' :: '(' :: p ++ [')']) new [] pre hpre
    rw [e]
    simpa using this
  simp only [unescapeLinks, Bool.false_eq_true, if_false, hf, linksLoop,
    List.getD_cons_succ, List.getD_cons_zero, hh, hmd, Bool.not_true, hl, hr, wikiLink]

/-! ## White space at the ends of a line -/

theorem TrimSpace_of_ends (c : Char) (s : Str) (h1 : IsSpace c = false)
    (h2 : ∀ d, (c :: s).getLast? = some d → IsSpace d = false) :
    TrimSpace (c :: s) = c :: s := by
  have hd : (c :: s).dropWhile IsSpace = c :: s := by simp [List.dropWhile, h1]
  rw [TrimSpace, hd, List.rdropWhile_eq_self_iff]
  intro hl
  have := h2 _ (List.getLast?_eq_getLast _ hl)
  simp [this]

theorem last_not_space (s : Str) (h : TrimSpace s = s) (d : Char)
    (hd : s.getLast? = some d) : IsSpace d = false := by
  have hne : s ≠ [] := by
    intro e
    rw [e] at hd
    simp at hd
  have hne2 : (s.dropWhile IsSpace).rdropWhile IsSpace ≠ [] := by
    rw [TrimSpace] at h
    rw [h]
    exact hne
  have := List.rdropWhile_last_not IsSpace (s.dropWhile IsSpace) hne2
  have e : ((s.dropWhile IsSpace).rdropWhile IsSpace).getLast hne2 = d := by
    have h3 : ((s.dropWhile IsSpace).rdropWhile IsSpace).getLast? = some d := by
      rw [TrimSpace] at h
      rw [h, hd]
    rw [List.getLast?_eq_getLast _ hne2] at h3
    exact Option.some.inj h3
  rw [e] at this
  simpa using this

theorem getLast?_append_of_ne_nil (a s : Str) (h : s ≠ []) :
    (a ++ s).getLast? = s.getLast? := by
  rw [List.getLast?_append]
  cases hl : s.getLast? with
  | none => exact absurd (List.getLast?_eq_none_iff.1 hl) h
  | some x => rfl

theorem chomp_of_last (s : Str) (h : ∀ d, s.getLast? = some d → IsSpace d = false) :
    chomp s = s := by
  unfold chomp
  split
  · rename_i hcr
    have hsp : IsSpace '\r' = false := h _ hcr
    exact absurd hsp (by decide)
  · rfl

/-! ## The table of contents (C14) -/

theorem skip_second (a b : Char) (r prev : Str) (h : b ≠ '\n') :
    parser.skipNextEmptyLine ⟨a :: b :: r, prev⟩ = some (false, ⟨a :: b :: r, prev⟩) := by
  simp only [parser.skipNextEmptyLine, h, if_false]

theorem skip_nil (prev : Str) :
    parser.skipNextEmptyLine ⟨[], prev⟩ = some (false, ⟨[], prev⟩) := rfl

/-- The replacer `tocEntry` on a title line `# …`: the line is to be skipped. -/
theorem tocEntry_title (filename : Str) (p p2 : parser) (b : Bool) (c : Char) (s : Str)
    (hfn : Base filename = "SUMMARY.md".toList) (hc : c ≠ '#')
    (ht : TrimSpace ('#' :: c :: s) = '#' :: c :: s) (hlen : 2 ≤ s.length)
    (hsk : p.skipNextEmptyLine = some (b, p2)) :
    tocEntry filename p ('#' :: c :: s) = some (([], some Err.skipLine), p2) := by
  have hl4 : ¬ (s.length + 1 + 1 < 4) := by omega
  have hc2 : ¬ (some c = some '#') := fun e => hc (Option.some.inj e)
  rw [tocEntry, if_neg (not_not.2 hfn)]
  simp only [ht, List.length_cons, hl4, if_false, hsk, List.getElem?_cons_zero,
    List.getElem?_cons_succ, if_true, ne_eq, hc2, not_false_eq_true]
  simp

/-- The replacer `tocEntry` on a section line `## s`: the bullet `* s`. -/
theorem tocEntry_section (filename : Str) (p p2 : parser) (b : Bool) (s : Str)
    (hfn : Base filename = "SUMMARY.md".toList)
    (ht : TrimSpace ('#' :: '#' :: ' ' :: s) = '#' :: '#' :: ' ' :: s) (hlen : 1 ≤ s.length)
    (hsk : p.skipNextEmptyLine = some (b, p2)) :
    tocEntry filename p ('#' :: '#' :: ' ' :: s) = some ((asteriskEntry ++ s, none), p2) := by
  have hl4 : ¬ (s.length + 1 + 1 + 1 < 4) := by omega
  rw [tocEntry, if_neg (not_not.2 hfn)]
  simp only [ht, List.length_cons, hl4, if_false, hsk, List.getElem?_cons_zero,
    List.getElem?_cons_succ, if_true, ne_eq, not_true_eq_false, List.drop_succ_cons,
    List.drop_zero]
  simp

/-- The replacer `tocEntry` on a bullet line `*…` without white space at its ends: two
spaces are put before it when the line before begins with `* ` or with `  * `. -/
theorem tocEntry_bullet (filename : Str) (p p2 : parser) (b : Bool) (s : Str)
    (hfn : Base filename = "SUMMARY.md".toList)
    (ht : TrimSpace ('*' :: s) = '*' :: s) (hlen : 3 ≤ s.length)
    (hsk : p.skipNextEmptyLine = some (b, p2)) :
    tocEntry filename p ('*' :: s)
      = some ((if HasPrefix p.prevLine asteriskEntry ∨
            HasPrefix p.prevLine (List.replicate 2 ' ' ++ asteriskEntry)
          then List.replicate 2 ' ' ++ '*' :: s else '*' :: s, none), p2) := by
  have hl4 : ¬ (s.length + 1 < 4) := by omega
  have h1 : ¬ (some '*' = some '#') := by decide
  rw [tocEntry, if_neg (not_not.2 hfn)]
  simp only [ht, List.length_cons, hl4, if_false, hsk, List.getElem?_cons_zero, h1, true_and]
  by_cases hq : HasPrefix p.prevLine asteriskEntry ∨
      HasPrefix p.prevLine (List.replicate 2 ' ' ++ asteriskEntry)
  · simp only [if_pos hq]
    simp
  · simp only [if_neg hq]
    simp

theorem TrimSuffix_md (p : Str) : TrimSuffix (p ++ markdownSuffix) markdownSuffix = p := by
  have : HasSuffix (p ++ markdownSuffix) markdownSuffix = true :=
    List.isSuffixOf_iff_suffix.2 ⟨p, rfl⟩
  simp [TrimSuffix, this]

/-- The wiki token of a root-level page `p.md` is `p`, unless `p` is `README` or
`SUMMARY`. -/
theorem resolveLink_root (w p : Str) (hp : ∀ c ∈ p, nameChar c = true)
    (hr : p ≠ "README".toList) (hs : p ≠ "SUMMARY".toList) :
    resolveLink false (p ++ markdownSuffix) w = p := by
  have hm : '/' ∉ markdownSuffix := by decide
  have hsl : '/' ∉ p := by
    intro h
    have := hp _ h
    revert this
    decide
  have hus : '_' ∉ p ++ markdownSuffix := by
    intro h
    rcases List.mem_append.1 h with h | h
    · have := hp _ h
      revert this
      decide
    · revert h
      decide
  have hb : IsElem (p ++ markdownSuffix) := by
    simpa using isElem_md [] p (by simp) hsl
  have hdd : ¬ "../".toList <:+: p ++ markdownSuffix := by
    intro h
    have : '/' ∈ p ++ markdownSuffix := h.subset (by decide)
    exact hb.2.1 this
  have hga : HasPrefix (p ++ markdownSuffix) ".gitbook/assets".toList = false := by
    cases h : HasPrefix (p ++ markdownSuffix) ".gitbook/assets".toList with
    | false => rfl
    | true =>
      have : '/' ∈ p ++ markdownSuffix :=
        (List.isPrefixOf_iff_prefix.1 h).subset (by decide)
      exact absurd this hb.2.1
  have hua : HasPrefix (p ++ markdownSuffix) "_assets".toList = false := by
    cases h : HasPrefix (p ++ markdownSuffix) "_assets".toList with
    | false => rfl
    | true =>
      have : '_' ∈ p ++ markdownSuffix :=
        (List.isPrefixOf_iff_prefix.1 h).subset (by decide)
      exact absurd this hus
  have hr2 : p ++ markdownSuffix ≠ "README.md".toList := by
    intro e
    have e2 : p ++ markdownSuffix = "README".toList ++ markdownSuffix := by rw [e]; rfl
    exact hr (List.append_cancel_right e2)
  have hs2 : p ++ markdownSuffix ≠ "SUMMARY.md".toList := by
    intro e
    have e2 : p ++ markdownSuffix = "SUMMARY".toList ++ markdownSuffix := by rw [e]; rfl
    exact hs (List.append_cancel_right e2)
  have hflat := resolvePath_flat [] (p ++ markdownSuffix) (by simp) hb
    (by simpa [joinSlash_singleton] using hdd) (by simpa [joinSlash_singleton] using hga) hr2 hs2
  simp only [List.nil_append, joinSlash_singleton, if_true] at hflat
  simp only [resolveLink, hflat, hua, Bool.false_eq_true, if_false,
    Base_of_not_mem _ hb.1 hb.2.1, TrimSuffix_md]

theorem not_http_md (p : Str) (h : HasPrefix p httpPrefix = false) :
    HasPrefix (p ++ markdownSuffix) httpPrefix = false := by
  match p, h with
  | [], _ => decide
  | [a], _ => simp [HasPrefix, httpPrefix, markdownSuffix, List.isPrefixOf]
  | [a, b], _ => simp [HasPrefix, httpPrefix, markdownSuffix, List.isPrefixOf]
  | [a, b, c], _ => simp [HasPrefix, httpPrefix, markdownSuffix, List.isPrefixOf]
  | a :: b :: c :: d :: r, h =>
    simpa [HasPrefix, httpPrefix, markdownSuffix, List.isPrefixOf] using h

/-- The table of contents `# H`, `## S`, `* [T](p.md)` becomes the sidebar `* S`,
`  * [[T|p]]`, for a page `p` other than `README` and `SUMMARY`. -/
theorem parseFrom_toc_three (U : Unicode) (w filename H S T p : Str)
    (hfn : Base filename = "SUMMARY.md".toList)
    (hH : 2 ≤ H.length) (hHn : '\n' ∉ H) (hHt : TrimSpace H = H)
    (hS : S ≠ []) (hSp : PlainText S) (hT : T ≠ []) (hTp : PlainText T)
    (hp : ∀ c ∈ p, nameChar c = true) (hh : HasPrefix p httpPrefix = false)
    (hr : p ≠ "README".toList) (hs : p ≠ "SUMMARY".toList) :
    parseFrom U false w filename ⟨tocThree H S T p, []⟩ []
      = some (sidebarTwo S T p, none) := by
  -- the three lines
  have hHne : H ≠ [] := by
    intro e
    rw [e] at hH
    simp at hH
  have e0 : tocThree H S T p
      = ('#' :: ' ' :: H) ++ '\n' :: (('#' :: '#' :: ' ' :: S) ++ '\n' ::
          (('*' :: ' ' :: mdLink T (p ++ markdownSuffix)) ++ '\n' :: [])) := by
    simp [tocThree, unlines]
  have hl1 : ∀ d, ('#' :: ' ' :: H).getLast? = some d → IsSpace d = false := by
    intro d hd
    have : ('#' :: ' ' :: H).getLast? = H.getLast? :=
      getLast?_append_of_ne_nil ['#', ' '] H hHne
    exact last_not_space H hHt d (this ▸ hd)
  have hl2 : ∀ d, ('#' :: '#' :: ' ' :: S).getLast? = some d → IsSpace d = false := by
    intro d hd
    have : ('#' :: '#' :: ' ' :: S).getLast? = S.getLast? :=
      getLast?_append_of_ne_nil ['#', '#', ' '] S hS
    exact last_not_space S hSp.2 d (this ▸ hd)
  have hl3 : ∀ d, ('*' :: ' ' :: mdLink T (p ++ markdownSuffix)).getLast? = some d →
      IsSpace d = false := by
    intro d hd
    have e : '*' :: ' ' :: mdLink T (p ++ markdownSuffix)
        = ('*' :: ' ' :: '[' :: T ++ ']' :: '(' :: (p ++ markdownSuffix)) ++ [')'] := by
      simp [mdLink]
    rw [e, List.getLast?_concat] at hd
    rw [← Option.some.inj hd]
    decide
  have hn1 : '\n' ∉ '#' :: ' ' :: H := by
    simp only [List.mem_cons, not_or]
    exact ⟨by decide, by decide, hHn⟩
  have hn2 : '\n' ∉ '#' :: '#' :: ' ' :: S := by
    simp only [List.mem_cons, not_or]
    exact ⟨by decide, by decide, by decide, fun h => (hSp.1 _ h).2.2.2.2.2.2 rfl⟩
  have hpn : ∀ c ∈ p ++ markdownSuffix, nameChar c = true := by
    intro c hc
    rcases List.mem_append.1 hc with hc | hc
    · exact hp c hc
    · have hmd : ∀ c ∈ markdownSuffix, nameChar c = true := by decide
      exact hmd c hc
  have hnot : ∀ (x : Char), nameChar x = false → (∀ c ∈ T, c ≠ x) →
      x ≠ '*' → x ≠ ' ' → x ≠ '[' → x ≠ ']' → x ≠ '(' → x ≠ ')' →
      x ∉ '*' :: ' ' :: mdLink T (p ++ markdownSuffix) := by
    intro x hx hTx a1 a2 a3 a4 a5 a6
    have hT2 : x ∉ T := fun h => hTx x h rfl
    have hp1 : x ∉ p := by
      intro h
      have := hp x h
      rw [hx] at this
      exact absurd this (by decide)
    have hp2 : x ∉ markdownSuffix := by
      intro h
      have := hpn x (by simp [h])
      rw [hx] at this
      exact absurd this (by decide)
    simp [mdLink, a1, a2, a3, a4, a5, a6, hT2, hp1, hp2]
  have hn3 : '\n' ∉ '*' :: ' ' :: mdLink T (p ++ markdownSuffix) :=
    hnot '\n' (by decide) (fun c hc => (hTp.1 c hc).2.2.2.2.2.2) (by decide) (by decide)
      (by decide) (by decide) (by decide) (by decide)
  -- the first line is skipped
  have hsk1 : parser.skipNextEmptyLine
      ⟨('#' :: '#' :: ' ' :: S) ++ '\n' ::
          (('*' :: ' ' :: mdLink T (p ++ markdownSuffix)) ++ '\n' :: []), []⟩
      = some (false, ⟨('#' :: '#' :: ' ' :: S) ++ '\n' ::
          (('*' :: ' ' :: mdLink T (p ++ markdownSuffix)) ++ '\n' :: []), []⟩) :=
    skip_second '#' '#' _ _ (by decide)
  have ht1 := tocEntry_title filename _ _ false ' ' H hfn (by decide)
    (TrimSpace_of_ends '#' (' ' :: H) (by decide) hl1) hH hsk1
  have hr1 : replaceLoop (lineReplacers U false w filename)
      ⟨('#' :: '#' :: ' ' :: S) ++ '\n' ::
          (('*' :: ' ' :: mdLink T (p ++ markdownSuffix)) ++ '\n' :: []), []⟩
      (chomp ('#' :: ' ' :: H)) none
      = some (LoopEnd.done [] (some Err.skipLine)
        ⟨(('#' :: '#' :: ' ' :: S) ++ '\n' ::
          (('*' :: ' ' :: mdLink T (p ++ markdownSuffix)) ++ '\n' :: [])), []⟩) := by
    rw [chomp_of_last _ hl1, lineReplacers_eq, replaceLoop, ht1]
  have hf1 : HasPrefix (chomp ('#' :: ' ' :: H)) codeSnippet = false := by
    rw [chomp_of_last _ hl1]
    simp [HasPrefix, codeSnippet, List.isPrefixOf]
  rw [e0, parseFrom_line U false w filename _ _ _ _ hn1 hf1 _ _ _ hr1, if_pos rfl]
  -- the second line
  have hsk2 : parser.skipNextEmptyLine
      ⟨('*' :: ' ' :: mdLink T (p ++ markdownSuffix)) ++ '\n' :: [], []⟩
      = some (false, ⟨('*' :: ' ' :: mdLink T (p ++ markdownSuffix)) ++ '\n' :: [], []⟩) :=
    skip_second '*' ' ' _ _ (by decide)
  have ht2 := tocEntry_section filename _ _ false S hfn
    (TrimSpace_of_ends '#' ('#' :: ' ' :: S) (by decide) hl2)
    (List.length_pos.2 hS) hsk2
  have hS1 : ∀ x : Char, x ≠ '*' → x ≠ ' ' → (∀ c ∈ S, c ≠ x) → x ∉ asteriskEntry ++ S := by
    intro x a1 a2 hx hm
    simp only [asteriskEntry, String.toList, List.mem_append, List.mem_cons] at hm
    rcases hm with (h | h | h) | h
    · exact a1 h
    · exact a2 h
    · simp at h
    · exact hx x h rfl
  have hr2 : replaceLoop (lineReplacers U false w filename)
      ⟨('*' :: ' ' :: mdLink T (p ++ markdownSuffix)) ++ '\n' :: [], []⟩
      (chomp ('#' :: '#' :: ' ' :: S)) none
      = some (LoopEnd.done (asteriskEntry ++ S) none
        ⟨(('*' :: ' ' :: mdLink T (p ++ markdownSuffix)) ++ '\n' :: []), []⟩) := by
    rw [chomp_of_last _ hl2, lineReplacers_eq, replaceLoop, ht2]
    exact replaceLoop_plain U false w _ _ _
      (hS1 '\\' (by decide) (by decide) (fun c hc => (hSp.1 c hc).2.2.2.2.1))
      (hS1 '\x7b' (by decide) (by decide) (fun c hc => (hSp.1 c hc).2.2.2.2.2.1))
      (hS1 '[' (by decide) (by decide) (fun c hc => (hSp.1 c hc).1))
  have hf2 : HasPrefix (chomp ('#' :: '#' :: ' ' :: S)) codeSnippet = false := by
    rw [chomp_of_last _ hl2]
    simp [HasPrefix, codeSnippet, List.isPrefixOf]
  rw [parseFrom_line U false w filename _ _ _ _ hn2 hf2 _ _ _ hr2,
    if_neg (by simp)]
  -- the third line
  have ht3 := tocEntry_bullet filename ⟨[], asteriskEntry ++ S⟩ _ false
    (' ' :: mdLink T (p ++ markdownSuffix)) hfn
    (TrimSpace_of_ends '*' (' ' :: mdLink T (p ++ markdownSuffix)) (by decide) hl3)
    (by simp [mdLink]; omega) (skip_nil _)
  have hpre : HasPrefix (asteriskEntry ++ S) asteriskEntry = true :=
    List.isPrefixOf_iff_prefix.2 ⟨S, rfl⟩
  simp only [hpre, true_or, if_true] at ht3
  have e3 : List.replicate 2 ' ' ++ '*' :: ' ' :: mdLink T (p ++ markdownSuffix)
      = "  * ".toList ++ mdLink T (p ++ markdownSuffix) := by
    simp [List.replicate]
  have hb3 : '\\' ∉ "  * ".toList ++ mdLink T (p ++ markdownSuffix) := by
    intro h
    have : '\\' ∈ '*' :: ' ' :: mdLink T (p ++ markdownSuffix) := by
      simp only [String.toList, List.mem_append, List.mem_cons] at h ⊢
      rcases h with (h | h | h | h | h) | h
      · exact absurd h (by decide)
      · exact absurd h (by decide)
      · exact absurd h (by decide)
      · exact absurd h (by decide)
      · simp at h
      · exact Or.inr (Or.inr h)
    exact hnot '\\' (by decide) (fun c hc => (hTp.1 c hc).2.2.2.2.1) (by decide) (by decide)
      (by decide) (by decide) (by decide) (by decide) this
  have hc3 : '\x7b' ∉ "  * ".toList ++ mdLink T (p ++ markdownSuffix) := by
    intro h
    have : '\x7b' ∈ '*' :: ' ' :: mdLink T (p ++ markdownSuffix) := by
      simp only [String.toList, List.mem_append, List.mem_cons] at h ⊢
      rcases h with (h | h | h | h | h) | h
      · exact absurd h (by decide)
      · exact absurd h (by decide)
      · exact absurd h (by decide)
      · exact absurd h (by decide)
      · simp at h
      · exact Or.inr (Or.inr h)
    exact hnot '\x7b' (by decide) (fun c hc => (hTp.1 c hc).2.2.2.2.2.1) (by decide)
      (by decide) (by decide) (by decide) (by decide) (by decide) this
  have hlk := unescapeLinks_after w "  * ".toList T (p ++ markdownSuffix) (by decide) hT
    (fun c hc => ⟨(hTp.1 c hc).2.1, (hTp.1 c hc).2.2.2.2.2.2⟩)
    (List.isSuffixOf_iff_suffix.2 ⟨p, rfl⟩)
    (fun c hc => by
      have := hpn c hc
      constructor
      · intro e
        rw [e] at this
        exact absurd this (by decide)
      · intro e
        rw [e] at this
        exact absurd this (by decide))
    (not_http_md p hh)
  rw [resolveLink_root w p hp hr hs] at hlk
  have hr3 : replaceLoop (lineReplacers U false w filename) ⟨[], asteriskEntry ++ S⟩
      (chomp ('*' :: ' ' :: mdLink T (p ++ markdownSuffix))) none
      = some (LoopEnd.done ("  * ".toList ++ wikiLink T p) none ⟨[], asteriskEntry ++ S⟩) := by
    rw [chomp_of_last _ hl3, lineReplacers_eq, replaceLoop, ht3, e3]
    simp only [List.map, replaceLoop, pureReplacer, unescapeParens_id _ hb3,
      unescapePageRefs_id U _ hc3, hlk]
  have hf3 : HasPrefix (chomp ('*' :: ' ' :: mdLink T (p ++ markdownSuffix))) codeSnippet
      = false := by
    rw [chomp_of_last _ hl3]
    simp [HasPrefix, codeSnippet, List.isPrefixOf]
  rw [parseFrom_line U false w filename _ _ _ _ hn3 hf3 _ _ _ hr3, if_neg (by simp),
    parseFrom_nil]
  simp [sidebarTwo, unlines, asteriskEntry, newLine]

/-- C14 (as stated, refuted): the page name `README` is made of letters, but the link to
`README.md` becomes `[[Title|Home]]`, not `[[Title|README]]`: `resolvePath` renames
`README.md` to `Home.md` (and `SUMMARY.md` to `_Sidebar.md`). -/
theorem parse_toc_readme :
    ¬ ∀ (U : Unicode) (w filename H S T p : Str), Base filename = "SUMMARY.md".toList →
        2 ≤ H.length → H.head? ≠ some '#' → S ≠ [] → S.head? ≠ some ' ' →
        S.head? ≠ some '#' → PlainText H → PlainText S → PlainText T → T ≠ [] →
        (∀ c ∈ p, c.isAlphanum = true) → HasPrefix p httpPrefix = false →
        parse U false w filename (tocThree H S T p) = some (sidebarTwo S T p, none) := by
  intro h
  exact absurd (h asciiUnicode "/kataras/iris/wiki".toList "SUMMARY.md".toList "Table".toList
    "Section".toList "Title".toList "README".toList (by decide) (by decide) (by decide)
    (by decide) (by decide) (by decide) (by decide) (by decide) (by decide) (by decide)
    (by decide) (by decide)) (by decide)

/-- C14 (amended): with keep-links off and a file whose base name is `SUMMARY.md`, the
input made of the three newline-terminated lines `# H`, `## S`, `* [T](p.md)` makes
`parse` succeed and write exactly `* S`, newline, `  * [[T|p]]`, newline, when `H` has at
least two characters and no white space at its ends, `S` and `T` are non-empty and free of
`[ ] ( ) \ {` and of white space at their ends, and `p` is a root-level page name of
letters and digits (any characters but `/ ( ) [ \ { _`) that does not start with `http` and
is neither `README` nor `SUMMARY`. -/
theorem parse_toc_three (U : Unicode) (w filename H S T p : Str)
    (hfn : Base filename = "SUMMARY.md".toList)
    (hH : 2 ≤ H.length) (hHn : '\n' ∉ H) (hHt : TrimSpace H = H)
    (hS : S ≠ []) (hSp : PlainText S) (hT : T ≠ []) (hTp : PlainText T)
    (hp : ∀ c ∈ p, nameChar c = true) (hh : HasPrefix p httpPrefix = false)
    (hr : p ≠ "README".toList) (hs : p ≠ "SUMMARY".toList) :
    parse U false w filename (tocThree H S T p) = some (sidebarTwo S T p, none) :=
  parseFrom_toc_three U w filename H S T p hfn hH hHn hHt hS hSp hT hTp hp hh hr hs

theorem parse_toc_three_witness :
    parse asciiUnicode false "/kataras/iris/wiki".toList "docs/SUMMARY.md".toList
        "# Table of contents\n## Getting started\n* [Quick start](quickstart.md)\n".toList
      = some ("* Getting started\n  * [[Quick start|quickstart]]\n".toList, none) :=
  parse_toc_three asciiUnicode "/kataras/iris/wiki".toList "docs/SUMMARY.md".toList
    "Table of contents".toList "Getting started".toList "Quick start".toList
    "quickstart".toList (by decide) (by decide) (by decide) (by decide) (by decide)
    (by decide) (by decide) (by decide) (by decide) (by decide) (by decide) (by decide)

/-! ## Blank lines of the table of contents (C15) -/

/-- C15 at its failing input: in `SUMMARY.md`, with lines ended by a newline alone, the
lines `## S`, an empty line, `* [T](p.md)` give `* S`, an empty line, `* [[T|p]]`: the empty
line is written as a newline, and the bullet after it is not indented.  With lines ended
by carriage return and newline the empty line is swallowed after `## S`, and the output
is `* S`, `  * [[T|p]]`. -/
theorem parse_toc_blank_line :
    parse asciiUnicode false "/kataras/iris/wiki".toList "SUMMARY.md".toList
        "## S\n\n* [T](p.md)\n".toList
        = some ("* S\n\n* [[T|p]]\n".toList, none) ∧
      parse asciiUnicode false "/kataras/iris/wiki".toList "SUMMARY.md".toList
        "## S\r\n\r\n* [T](p.md)\r\n".toList
        = some ("* S\n  * [[T|p]]\n".toList, none) := by
  constructor <;> decide

/-! ## The previous line (C16, C19) -/

theorem readLine_prevLine (p p2 : parser) (line : Str)
    (h : p.readLine = some (some (line, p2))) : p2.prevLine = p.prevLine := by
  simp only [parser.readLine] at h
  cases hr : readLineLoop (p.rd.length + 1) p.rd [] with
  | none => simp [hr] at h
  | some r =>
    cases r with
    | none => simp [hr] at h
    | some x =>
      rw [hr] at h
      simp only [Option.map, Option.some.injEq, Prod.mk.injEq] at h
      rw [← h.2]

theorem skip_prevLine (p p2 : parser) (b : Bool) (h : p.skipNextEmptyLine = some (b, p2)) :
    p2.prevLine = p.prevLine := by
  unfold parser.skipNextEmptyLine at h
  split at h
  · split at h
    · split at h
      · exact absurd h (by simp)
      · simp only [Option.some.injEq, Prod.mk.injEq] at h
        rw [← h.2]
      · rename_i hrl
        simp only [Option.some.injEq, Prod.mk.injEq] at h
        rw [← h.2]
        exact readLine_prevLine _ _ _ hrl
    · simp only [Option.some.injEq, Prod.mk.injEq] at h
      rw [← h.2]
  · simp only [Option.some.injEq, Prod.mk.injEq] at h
    rw [← h.2]

theorem tocEntry_prevLine (filename : Str) (p p2 : parser) (src : Str) (res : Str × Option Err)
    (h : tocEntry filename p src = some (res, p2)) : p2.prevLine = p.prevLine := by
  unfold tocEntry at h
  split at h
  · simp only [Option.some.injEq, Prod.mk.injEq] at h
    rw [← h.2]
  · simp only at h
    split at h
    · simp only [Option.some.injEq, Prod.mk.injEq] at h
      rw [← h.2]
    · split at h
      · simp only [Option.some.injEq, Prod.mk.injEq] at h
        rw [← h.2]
      · split at h
        · exact absurd h (by simp)
        · rename_i hsk
          simp only [Option.some.injEq, Prod.mk.injEq] at h
          rw [← h.2]
          exact skip_prevLine _ _ _ hsk

/-- The loop over the replacers does not touch the previous line. -/
theorem replaceLoop_prevLine (U : Unicode) (keepLinks : Bool) (w filename : Str) (p p2 : parser)
    (line l : Str) (er : Option Err)
    (h : replaceLoop (lineReplacers U keepLinks w filename) p line none
      = some (LoopEnd.done l er p2)) : p2.prevLine = p.prevLine := by
  rw [lineReplacers_eq, replaceLoop] at h
  cases ht : tocEntry filename p line with
  | none => simp [ht] at h
  | some x =>
    obtain ⟨⟨l1, e1⟩, p1⟩ := x
    have hp1 := tocEntry_prevLine filename p p1 line (l1, e1) ht
    have key : ∀ err, replaceLoop ([unescapeParens, unescapePageRefs U,
        unescapeLinks keepLinks w].map pureReplacer) p1 l1 err = some (LoopEnd.done l er p2) →
        p2.prevLine = p.prevLine := by
      intro err h5
      obtain ⟨e, h6, h7⟩ := replaceLoop_pure
        [unescapeParens, unescapePageRefs U, unescapeLinks keepLinks w] p1 l1 err
      rw [h5] at h6
      rw [h7 l er p2 (Option.some.inj h6).symm, hp1]
    rw [ht] at h
    cases e1 with
    | none => exact key none h
    | some e =>
      cases e with
      | notResponsible => exact key _ h
      | skipLine =>
        simp only [Option.some.injEq, LoopEnd.done.injEq] at h
        rw [← h.2.2, hp1]
      | titleMissing s => simp at h

theorem tocEntry_decline (filename : Str) (p : parser) (src : Str)
    (h : Base filename ≠ "SUMMARY.md".toList) :
    tocEntry filename p src = some ((src, some Err.notResponsible), p) := by
  rw [tocEntry, if_pos h]

/-- Outside the table of contents, a line without backslash, opening brace and opening
bracket passes the replacers unchanged. -/
theorem replaceLoop_decline_plain (U : Unicode) (keepLinks : Bool) (w filename : Str)
    (p : parser) (line : Str) (h : Base filename ≠ "SUMMARY.md".toList)
    (h1 : '\\' ∉ line) (h2 : '\x7b' ∉ line) (h3 : '[' ∉ line) :
    replaceLoop (lineReplacers U keepLinks w filename) p line none
      = some (LoopEnd.done line none p) := by
  rw [lineReplacers_eq, replaceLoop, tocEntry_decline filename p line h]
  exact replaceLoop_plain U keepLinks w p line _ h1 h2 h3

theorem mem_of_mem_chomp (l : Str) (c : Char) (h : c ∈ chomp l) : c ∈ l := by
  unfold chomp at h
  split at h
  · exact List.mem_of_mem_dropLast h
  · exact h

theorem head?_chomp (l : Str) (h : l.head? = some '>') : (chomp l).head? = some '>' := by
  unfold chomp
  split
  · rename_i hcr
    match l, h, hcr with
    | [x], h, hcr =>
      simp at h hcr
      rw [h] at hcr
      exact absurd hcr (by decide)
    | x :: y :: r, h, _ => simpa [List.dropLast] using h
  · exact h

theorem not_fence_of_head (l : Str) (h : l.head? = some '>') :
    HasPrefix l codeSnippet = false := by
  match l, h with
  | x :: r, h =>
    simp only [List.head?_cons, Option.some.injEq] at h
    subst h
    simp [HasPrefix, codeSnippet, List.isPrefixOf]

/-- One turn of the outer loop that writes a line beginning with `>`: a newline is written
before it exactly when the previous line begins with `>` too. -/
theorem parseFrom_quote (U : Unicode) (keepLinks : Bool) (w filename : Str)
    (l rest prev out line : Str) (err : Option Err) (p2 : parser) (hl : '\n' ∉ l)
    (hf : HasPrefix (chomp l) codeSnippet = false)
    (hr : replaceLoop (lineReplacers U keepLinks w filename) ⟨rest, prev⟩ (chomp l) none
      = some (LoopEnd.done line err p2))
    (he : err ≠ some Err.skipLine) (h0 : line.head? = some '>') :
    parseFrom U keepLinks w filename ⟨l ++ '\n' :: rest, prev⟩ out
      = parseFrom U keepLinks w filename ⟨p2.rd, line⟩
          ((if prev.head? = some '>' then out ++ newLine else out) ++ line ++ newLine) := by
  have hprev : p2.prevLine = prev := replaceLoop_prevLine U keepLinks w filename _ _ _ _ _ hr
  have hlen : 0 < line.length := by
    cases line with
    | nil => simp at h0
    | cons x r => simp
  have hc : (line.head? = some '>' ∧ 0 < prev.length ∧ prev.head? = some '>')
      ↔ prev.head? = some '>' := by
    constructor
    · exact fun h => h.2.2
    · intro h
      refine ⟨h0, ?_, h⟩
      cases prev with
      | nil => simp at h
      | cons x r => simp
  rw [parseFrom_line U keepLinks w filename l rest prev out hl hf line err p2 hr, if_neg he,
    hprev]
  simp only [hlen, if_true, hc]

/-- In a file other than the table of contents, two consecutive newline-terminated lines
`a`, `b` outside a code fence that both begin with `>` and hold no backslash, `[` or `{`
are written as `a`, newline, an empty line, `b`, newline (after one more newline when the
line written before `a` began with `>`); `> a`, `> b` alone give `> a`, empty line, `> b`.
More generally, a line that is written and begins with `>` gets exactly one newline
before it when the line written before it began with `>`, and none otherwise. -/
theorem parseFrom_blockquote_pair (U : Unicode) (keepLinks : Bool) (w filename a b : Str)
    (hfn : Base filename ≠ "SUMMARY.md".toList) (ha : '\n' ∉ a) (hb : '\n' ∉ b)
    (ha0 : a.head? = some '>') (hb0 : b.head? = some '>')
    (hac : '\\' ∉ a ∧ '[' ∉ a ∧ '\x7b' ∉ a) (hbc : '\\' ∉ b ∧ '[' ∉ b ∧ '\x7b' ∉ b) :
    (∀ rest prev out : Str,
      parseFrom U keepLinks w filename ⟨a ++ '\n' :: (b ++ '\n' :: rest), prev⟩ out
        = parseFrom U keepLinks w filename ⟨rest, chomp b⟩
            ((if prev.head? = some '>' then out ++ newLine else out)
              ++ chomp a ++ newLine ++ newLine ++ chomp b ++ newLine)) ∧
      parse U keepLinks w filename (a ++ '\n' :: (b ++ '\n' :: []))
        = some (chomp a ++ newLine ++ newLine ++ chomp b ++ newLine, none) ∧
      (∀ (l rest prev out line : Str) (err : Option Err) (p2 : parser), '\n' ∉ l →
        HasPrefix (chomp l) codeSnippet = false →
        replaceLoop (lineReplacers U keepLinks w filename) ⟨rest, prev⟩ (chomp l) none
          = some (LoopEnd.done line err p2) →
        err ≠ some Err.skipLine → line.head? = some '>' →
        parseFrom U keepLinks w filename ⟨l ++ '\n' :: rest, prev⟩ out
          = parseFrom U keepLinks w filename ⟨p2.rd, line⟩
              ((if prev.head? = some '>' then out ++ newLine else out) ++ line ++ newLine)) := by
  have hpair : ∀ rest prev out : Str,
      parseFrom U keepLinks w filename ⟨a ++ '\n' :: (b ++ '\n' :: rest), prev⟩ out
        = parseFrom U keepLinks w filename ⟨rest, chomp b⟩
            ((if prev.head? = some '>' then out ++ newLine else out)
              ++ chomp a ++ newLine ++ newLine ++ chomp b ++ newLine) := by
    intro rest prev out
    have hra := replaceLoop_decline_plain U keepLinks w filename ⟨b ++ '\n' :: rest, prev⟩
      (chomp a) hfn (fun h => hac.1 (mem_of_mem_chomp _ _ h))
      (fun h => hac.2.2 (mem_of_mem_chomp _ _ h)) (fun h => hac.2.1 (mem_of_mem_chomp _ _ h))
    have hrb := replaceLoop_decline_plain U keepLinks w filename ⟨rest, chomp a⟩
      (chomp b) hfn (fun h => hbc.1 (mem_of_mem_chomp _ _ h))
      (fun h => hbc.2.2 (mem_of_mem_chomp _ _ h)) (fun h => hbc.2.1 (mem_of_mem_chomp _ _ h))
    rw [parseFrom_quote U keepLinks w filename a _ prev out _ _ _ ha
        (not_fence_of_head _ (head?_chomp a ha0)) hra (by simp) (head?_chomp a ha0),
      parseFrom_quote U keepLinks w filename b _ (chomp a) _ _ _ _ hb
        (not_fence_of_head _ (head?_chomp b hb0)) hrb (by simp) (head?_chomp b hb0)]
    simp only [head?_chomp a ha0, if_true]
  refine ⟨hpair, ?_, ?_⟩
  · rw [parse_eq_parseFrom, hpair, parseFrom_nil]
    simp
  · intro l rest prev out line err p2 hl hf hr he h0
    exact parseFrom_quote U keepLinks w filename l rest prev out line err p2 hl hf hr he h0

/-- The example `> a`, `> b`. -/
theorem parse_blockquote_example :
    parse asciiUnicode false "/kataras/iris/wiki".toList "notes.md".toList "> a\n> b\n".toList
      = some ("> a\n\n> b\n".toList, none) :=
  (parseFrom_blockquote_pair asciiUnicode false "/kataras/iris/wiki".toList "notes.md".toList
    "> a".toList "> b".toList (by decide) (by decide) (by decide) (by decide) (by decide)
    (by decide) (by decide)).2.1

theorem longQuote_facts :
    '\n' ∉ longQuote ∧ longQuote.length = defaultBufSize ∧ longQuote.getLast? ≠ some '\r' := by
  refine ⟨?_, ?_, ?_⟩
  · intro h
    simp only [longQuote, List.mem_cons, List.mem_replicate] at h
    rcases h with h | ⟨-, h⟩
    · exact absurd h (by decide)
    · exact absurd h (by decide)
  · simp only [longQuote, List.length_cons, List.length_replicate, defaultBufSize]
  · have e : longQuote = ('>' :: List.replicate 4094 'b') ++ ['b'] := by
      rw [longQuote, show 4095 = 4094 + 1 from rfl, List.replicate_succ']
      rfl
    rw [e, List.getLast?_concat]
    decide

/-- C16 at its failing input: in `notes.md` the line `> a` is followed by a last line that
begins with `>`, is 4096 bytes long and is not terminated by a newline; `readLine` loses
that line, and `parse` writes `> a` and a newline only. -/
theorem parse_blockquote_lost (U : Unicode) (keepLinks : Bool) (w : Str) :
    longQuote.head? = some '>' ∧ '\\' ∉ longQuote ∧ '[' ∉ longQuote ∧ '\x7b' ∉ longQuote ∧
      parse U keepLinks w "notes.md".toList ("> a".toList ++ '\n' :: longQuote)
        = some ("> a\n".toList, none) := by
  have hmem : ∀ c : Char, c ≠ '>' → c ≠ 'b' → c ∉ longQuote := by
    intro c h1 h2 h
    simp only [longQuote, List.mem_cons, List.mem_replicate] at h
    rcases h with h | ⟨-, h⟩
    · exact h1 h
    · exact h2 h
  refine ⟨rfl, hmem _ (by decide) (by decide), hmem _ (by decide) (by decide),
    hmem _ (by decide) (by decide), ?_⟩
  have hfn : Base "notes.md".toList ≠ "SUMMARY.md".toList := by decide
  have hra := replaceLoop_decline_plain U keepLinks w "notes.md".toList ⟨longQuote, []⟩
    (chomp "> a".toList) hfn (by decide) (by decide) (by decide)
  rw [parse_eq_parseFrom,
    parseFrom_quote U keepLinks w "notes.md".toList "> a".toList longQuote [] [] _ _ _
      (by decide) (by decide) hra (by simp) (by decide)]
  have hrl := readLine_full_rest longQuote (chomp "> a".toList) longQuote_facts.1
    longQuote_facts.2.1 longQuote_facts.2.2
  rw [parseFrom, parseLoop_eof U keepLinks w "notes.md".toList _ _ _ hrl]
  decide

/-! ## The reader (C17, C18) -/

/-- C17 at its failing input: the stream is one line of 4096 bytes without a newline after
it.  `ReadLine` returns it as a fragment and then reports the end of input, and `readLine`
returns the end of input without the fragment: the line is lost.  The same line followed
by a newline is returned whole. -/
theorem readLine_final_line_lost (prev : Str) :
    parser.readLine ⟨longLine, prev⟩ = some none ∧
      parser.readLine ⟨longLine ++ ['\n'], prev⟩ = some (some (longLine, ⟨[], prev⟩)) := by
  have hn : '\n' ∉ longLine := by
    intro h
    simp only [longLine, List.mem_replicate] at h
    exact absurd h.2 (by decide)
  have hlen : longLine.length = defaultBufSize := by
    simp only [longLine, List.length_replicate, defaultBufSize]
  have e : longLine = List.replicate 4095 'a' ++ ['a'] := by
    rw [longLine, show 4096 = 4095 + 1 from rfl, List.replicate_succ']
  have hlast : longLine.getLast? = some 'a' := by rw [e, List.getLast?_concat]
  have hcr : longLine.getLast? ≠ some '\r' := by
    rw [hlast]
    decide
  refine ⟨readLine_full_rest longLine prev hn hlen hcr, ?_⟩
  have := readLine_line longLine [] prev hn
  rw [this]
  simp only [chomp, hcr, if_false]

/-- C18 at its failing inputs: `skipNextEmptyLine` looks at the second byte of the unread
input.  Before `x`, newline, `y` it returns true and consumes the line `x`, which is not
blank; before an empty line followed by `abc` it returns false and consumes nothing. -/
theorem skipNextEmptyLine_second_byte (prev : Str) :
    parser.skipNextEmptyLine ⟨"x\ny".toList, prev⟩ = some (true, ⟨"y".toList, prev⟩) ∧
      parser.skipNextEmptyLine ⟨"\nabc".toList, prev⟩
        = some (false, ⟨"\nabc".toList, prev⟩) := by
  constructor
  · have := readLine_line "x".toList "y".toList prev (by decide)
    have e : "x\ny".toList = "x".toList ++ '\n' :: "y".toList := rfl
    rw [e]
    simp only [String.toList, List.cons_append, List.nil_append] at this ⊢
    simp only [parser.skipNextEmptyLine, if_true, this]
  · exact skip_second '\n' 'a' "bc".toList prev (by decide)

/-- What `skipNextEmptyLine` tests: it returns, the answer is true exactly when the second
byte of the unread input is a newline, and the input is untouched when the answer is
false. -/
theorem skipNextEmptyLine_test (p : parser) :
    ∃ b p2, p.skipNextEmptyLine = some (b, p2) ∧ (b = true ↔ p.rd[1]? = some '\n') ∧
      (b = false → p2 = p) := by
  obtain ⟨b, p2, h, -, -⟩ := skipNextEmptyLine_total p
  refine ⟨b, p2, h, ?_, ?_⟩
  · unfold parser.skipNextEmptyLine at h
    split at h
    · rename_i a c r hrd
      rw [hrd]
      by_cases hc : c = '\n'
      · simp only [hc, if_true] at h
        have hb : b = true := by
          split at h
          · simp at h
          · simp only [Option.some.injEq, Prod.mk.injEq] at h
            exact h.1.symm
          · simp only [Option.some.injEq, Prod.mk.injEq] at h
            exact h.1.symm
        simp [hb, hc]
      · simp only [hc, if_false, Option.some.injEq, Prod.mk.injEq] at h
        simp [← h.1, hc]
    · rename_i hrd
      simp only [Option.some.injEq, Prod.mk.injEq] at h
      have hn : p.rd[1]? = none := by
        match hp : p.rd with
        | [] => rfl
        | [a] => rfl
        | a :: c :: r => exact absurd hp (hrd a c r)
      simp [← h.1, hn]
  · intro hb
    unfold parser.skipNextEmptyLine at h
    split at h
    · split at h
      · split at h
        · simp at h
        · simp only [Option.some.injEq, Prod.mk.injEq] at h
          rw [hb] at h
          simp at h
        · simp only [Option.some.injEq, Prod.mk.injEq] at h
          rw [hb] at h
          simp at h
      · simp only [Option.some.injEq, Prod.mk.injEq] at h
        exact h.2.symm
    · simp only [Option.some.injEq, Prod.mk.injEq] at h
      exact h.2.symm

/-! ## Errors and control signals (C19) -/

end GitbookToWiki
